import Mathlib

/-!
# Hips: IPS / UPS / BPS patch application

A shallow embedding of `include/hips.hpp` and theorems about it.

Conventions of the embedding.

* A byte (`u8`) is a `Fin 256`; a buffer (`const u8*` together with its size, or a
  `std::vector<u8>`) is a `List u8`, and the size argument of a decoder is the
  length of the list. The `patch == nullptr` test has no counterpart.
* Every raw element access `buffer[i]` goes through `rd` / `wr`, which fail with
  `Fault.outOfBounds` when `i` is not below the length of the buffer.
* A `while` loop whose trip count is not a counter held in a variable takes a
  `fuel` argument and fails with `Fault.outOfFuel` when it is used up.
* The construction `std::vector<u8> output(n)` goes through `newVector`, which
  fails with `Fault.lengthError` (the `std::length_error` of the constructor) when
  `n` is above `max_size()`; a construction within `max_size()` is taken to
  succeed, the memory of the machine is not part of the embedding.
* `u64` values that the code computes with (`ret`, `shift` of the run-length
  reader, `patchSize - 12`, the relative cursors of BPS) are reduced modulo
  `2 ^ 64`. Cursors that only ever advance by bounded steps from a position
  inside a buffer (`offset`, `patchOffset`, `outputOffset`) are natural numbers.
-/

namespace Hips

/-- An unsigned byte. -/
abbrev u8 := Fin 256

/-- The type `Result` of the source. -/
inductive Result where
  | Success
  | InvalidPatch
  | UnknownFormat
  | SizeMismatch
  | ChecksumMismatch
  deriving DecidableEq, Repr

/-- What can stop an execution of the embedded code short of a `return`. -/
inductive Fault where
  | outOfBounds
  | outOfFuel
  | lengthError
  deriving DecidableEq, Repr

/-- Executions: a returned value or a fault. -/
abbrev Exec (α : Type) := Except Fault α

deriving instance DecidableEq for Except

/-- The constant `2 ^ 64`, the modulus of `u64` and `usize` arithmetic. -/
def U64 : Nat := 18446744073709551616

/-- Element read `buf[i]`. -/
def rd (buf : List u8) (i : Nat) : Exec u8 :=
  match buf[i]? with
  | some b => .ok b
  | none => .error .outOfBounds

/-- Element write `buf[i] = v`. -/
def wr (buf : List u8) (i : Nat) (v : u8) : Exec (List u8) :=
  if i < buf.length then .ok (buf.set i v) else .error .outOfBounds

/-- The value of `std::vector<u8>::max_size()` where `usize` has 64 bits:
`PTRDIFF_MAX`, that is `2 ^ 63 - 1`. -/
def maxSize : Nat := 9223372036854775807

/-- The construction `std::vector<u8> output(n)`: `n` zero bytes; it throws
`std::length_error` when `n` is above `max_size()`. -/
def newVector (n : Nat) : Exec (List u8) :=
  if n > maxSize then .error .lengthError else .ok (List.replicate n 0)

namespace Detail

/-- The `for` loop of `readBE`: `n` iterations remain, `i` is the loop index. -/
def readBE.loop (data : List u8) (offset : Nat) : Nat → Nat → Nat → Nat → Exec Nat
  | 0, _, ret, _ => .ok ret
  | n + 1, i, ret, shift => do
    let b ← rd data (offset - (i + 1))
    readBE.loop data offset n (i + 1) (ret ||| (b.val <<< shift)) (shift + 8)

/-- `Detail::readBE<T, size>`: returns the value and the updated `offset`.
`sizeof(T) >= size` is a static assertion of the source, so the value is not
truncated by `T`. -/
def readBE (size : Nat) (data : List u8) (offset patchSize : Nat) : Exec (Nat × Nat) :=
  let offset := offset + size
  if offset > patchSize then .ok (0, offset)
  else do
    let ret ← readBE.loop data offset size 0 0 0
    .ok (ret, offset)

/-- The `for` loop of `readLE`: `n` iterations remain, `i` is the loop index. The
`int shift` of the source ends at `-8` after the last iteration, where it is
no longer used; here it stops at `0`. -/
def readLE.loop (data : List u8) (offset : Nat) : Nat → Nat → Nat → Nat → Exec Nat
  | 0, _, ret, _ => .ok ret
  | n + 1, i, ret, shift => do
    let b ← rd data (offset - (i + 1))
    readLE.loop data offset n (i + 1) (ret ||| (b.val <<< shift)) (shift - 8)

/-- `Detail::readLE<T, size>`: returns the value and the updated `offset`. -/
def readLE (size : Nat) (data : List u8) (offset patchSize : Nat) : Exec (Nat × Nat) :=
  let offset := offset + size
  if offset > patchSize then .ok (0, offset)
  else do
    let ret ← readLE.loop data offset size 0 0 ((size - 1) * 8)
    .ok (ret, offset)

/-- The `while (true)` loop of `readRunLength`. -/
def readRunLength.loop (data : List u8) (patchSize : Nat) :
    Nat → Nat → Nat → Nat → Exec (Nat × Nat)
  | 0, _, _, _ => .error .outOfFuel
  | fuel + 1, offset, ret, shift => do
    let (byte, offset) ← readLE 1 data offset patchSize
    let ret := (ret + (byte &&& 0x7F) * shift) % U64
    if byte &&& 0x80 ≠ 0 then .ok (ret, offset)
    else
      let shift := (shift <<< 7) % U64
      let ret := (ret + shift) % U64
      readRunLength.loop data patchSize fuel offset ret shift

/-- `Detail::readRunLength<u64>`: returns the value and the updated `offset`. -/
def readRunLength (fuel : Nat) (data : List u8) (offset patchSize : Nat) : Exec (Nat × Nat) :=
  readRunLength.loop data patchSize fuel offset 0 1

/-- The table `crcTable` of `Detail::crc32`. -/
def crcTable : List Nat := [
  0x00000000, 0x77073096, 0xEE0E612C, 0x990951BA, 0x076DC419, 0x706AF48F, 0xE963A535, 0x9E6495A3, 0x0EDB8832, 0x79DCB8A4, 0xE0D5E91E,
  0x97D2D988, 0x09B64C2B, 0x7EB17CBD, 0xE7B82D07, 0x90BF1D91, 0x1DB71064, 0x6AB020F2, 0xF3B97148, 0x84BE41DE, 0x1ADAD47D, 0x6DDDE4EB,
  0xF4D4B551, 0x83D385C7, 0x136C9856, 0x646BA8C0, 0xFD62F97A, 0x8A65C9EC, 0x14015C4F, 0x63066CD9, 0xFA0F3D63, 0x8D080DF5, 0x3B6E20C8,
  0x4C69105E, 0xD56041E4, 0xA2677172, 0x3C03E4D1, 0x4B04D447, 0xD20D85FD, 0xA50AB56B, 0x35B5A8FA, 0x42B2986C, 0xDBBBC9D6, 0xACBCF940,
  0x32D86CE3, 0x45DF5C75, 0xDCD60DCF, 0xABD13D59, 0x26D930AC, 0x51DE003A, 0xC8D75180, 0xBFD06116, 0x21B4F4B5, 0x56B3C423, 0xCFBA9599,
  0xB8BDA50F, 0x2802B89E, 0x5F058808, 0xC60CD9B2, 0xB10BE924, 0x2F6F7C87, 0x58684C11, 0xC1611DAB, 0xB6662D3D, 0x76DC4190, 0x01DB7106,
  0x98D220BC, 0xEFD5102A, 0x71B18589, 0x06B6B51F, 0x9FBFE4A5, 0xE8B8D433, 0x7807C9A2, 0x0F00F934, 0x9609A88E, 0xE10E9818, 0x7F6A0DBB,
  0x086D3D2D, 0x91646C97, 0xE6635C01, 0x6B6B51F4, 0x1C6C6162, 0x856530D8, 0xF262004E, 0x6C0695ED, 0x1B01A57B, 0x8208F4C1, 0xF50FC457,
  0x65B0D9C6, 0x12B7E950, 0x8BBEB8EA, 0xFCB9887C, 0x62DD1DDF, 0x15DA2D49, 0x8CD37CF3, 0xFBD44C65, 0x4DB26158, 0x3AB551CE, 0xA3BC0074,
  0xD4BB30E2, 0x4ADFA541, 0x3DD895D7, 0xA4D1C46D, 0xD3D6F4FB, 0x4369E96A, 0x346ED9FC, 0xAD678846, 0xDA60B8D0, 0x44042D73, 0x33031DE5,
  0xAA0A4C5F, 0xDD0D7CC9, 0x5005713C, 0x270241AA, 0xBE0B1010, 0xC90C2086, 0x5768B525, 0x206F85B3, 0xB966D409, 0xCE61E49F, 0x5EDEF90E,
  0x29D9C998, 0xB0D09822, 0xC7D7A8B4, 0x59B33D17, 0x2EB40D81, 0xB7BD5C3B, 0xC0BA6CAD, 0xEDB88320, 0x9ABFB3B6, 0x03B6E20C, 0x74B1D29A,
  0xEAD54739, 0x9DD277AF, 0x04DB2615, 0x73DC1683, 0xE3630B12, 0x94643B84, 0x0D6D6A3E, 0x7A6A5AA8, 0xE40ECF0B, 0x9309FF9D, 0x0A00AE27,
  0x7D079EB1, 0xF00F9344, 0x8708A3D2, 0x1E01F268, 0x6906C2FE, 0xF762575D, 0x806567CB, 0x196C3671, 0x6E6B06E7, 0xFED41B76, 0x89D32BE0,
  0x10DA7A5A, 0x67DD4ACC, 0xF9B9DF6F, 0x8EBEEFF9, 0x17B7BE43, 0x60B08ED5, 0xD6D6A3E8, 0xA1D1937E, 0x38D8C2C4, 0x4FDFF252, 0xD1BB67F1,
  0xA6BC5767, 0x3FB506DD, 0x48B2364B, 0xD80D2BDA, 0xAF0A1B4C, 0x36034AF6, 0x41047A60, 0xDF60EFC3, 0xA867DF55, 0x316E8EEF, 0x4669BE79,
  0xCB61B38C, 0xBC66831A, 0x256FD2A0, 0x5268E236, 0xCC0C7795, 0xBB0B4703, 0x220216B9, 0x5505262F, 0xC5BA3BBE, 0xB2BD0B28, 0x2BB45A92,
  0x5CB36A04, 0xC2D7FFA7, 0xB5D0CF31, 0x2CD99E8B, 0x5BDEAE1D, 0x9B64C2B0, 0xEC63F226, 0x756AA39C, 0x026D930A, 0x9C0906A9, 0xEB0E363F,
  0x72076785, 0x05005713, 0x95BF4A82, 0xE2B87A14, 0x7BB12BAE, 0x0CB61B38, 0x92D28E9B, 0xE5D5BE0D, 0x7CDCEFB7, 0x0BDBDF21, 0x86D3D2D4,
  0xF1D4E242, 0x68DDB3F8, 0x1FDA836E, 0x81BE16CD, 0xF6B9265B, 0x6FB077E1, 0x18B74777, 0x88085AE6, 0xFF0F6A70, 0x66063BCA, 0x11010B5C,
  0x8F659EFF, 0xF862AE69, 0x616BFFD3, 0x166CCF45, 0xA00AE278, 0xD70DD2EE, 0x4E048354, 0x3903B3C2, 0xA7672661, 0xD06016F7, 0x4969474D,
  0x3E6E77DB, 0xAED16A4A, 0xD9D65ADC, 0x40DF0B66, 0x37D83BF0, 0xA9BCAE53, 0xDEBB9EC5, 0x47B2CF7F, 0x30B5FFE9, 0xBDBDF21C, 0xCABAC28A,
  0x53B39330, 0x24B4A3A6, 0xBAD03605, 0xCDD70693, 0x54DE5729, 0x23D967BF, 0xB3667A2E, 0xC4614AB8, 0x5D681B02, 0x2A6F2B94, 0xB40BBE37,
  0xC30C8EA1, 0x5A05DF1B, 0x2D02EF8D]

/-- The constant `0xFFFFFFFF`: `~crc` on a `u32` is `crc ^^^ 0xFFFFFFFF`. -/
def maskU32 : Nat := 0xFFFFFFFF

/-- The `for` loop of `crc32` over the bytes of `data`, in order. The index
`(crc ^ byte) & 0xFF` is below 256, the length of the table. -/
def crc32.loop : List u8 → Nat → Nat
  | [], crc => crc
  | byte :: rest, crc =>
    crc32.loop rest (crcTable.getD ((crc ^^^ byte.val) &&& 0xFF) 0 ^^^ (crc >>> 8))

/-- `Detail::crc32(data, length, crc)` with `length` the length of `data`. -/
def crc32 (data : List u8) (crc : Nat := 0) : Nat :=
  crc32.loop data (crc ^^^ maskU32) ^^^ maskU32

end Detail

namespace IPS

/-- The constant `IPS::headerSize`. -/
def headerSize : Nat := 5

/-- The constant `IPS::minimumPatchSize`. -/
def minimumPatchSize : Nat := headerSize + 3

/-- The constant `IPS::endOfFile`, the bytes of "EOF". -/
def endOfFile : Nat := 0x454F46

/-- `IPS::read<T, size>`. -/
def read (size : Nat) (data : List u8) (offset patchSize : Nat) : Exec (Nat × Nat) :=
  Detail.readBE size data offset patchSize

/-- The `while (patchOffset < patchSize)` loop of `IPS::getSize`; returns
`outputSize` and `patchOffset` on leaving the loop. -/
def getSize.loop (patch : List u8) (patchSize : Nat) : Nat → Nat → Nat → Exec (Nat × Nat)
  | 0, _, _ => .error .outOfFuel
  | fuel + 1, outputSize, patchOffset =>
    if patchOffset < patchSize then do
      let (fileOffset, patchOffset) ← read 3 patch patchOffset patchSize
      if fileOffset = endOfFile then .ok (outputSize, patchOffset)
      else do
        let newSize := fileOffset
        let (size, patchOffset) ← read 2 patch patchOffset patchSize
        if size = 0 then do
          let (rleSize, patchOffset) ← read 2 patch patchOffset patchSize
          let newSize := newSize + rleSize
          let patchOffset := patchOffset + 1
          getSize.loop patch patchSize fuel (max outputSize newSize) patchOffset
        else
          let patchOffset := patchOffset + size
          let newSize := newSize + size
          getSize.loop patch patchSize fuel (max outputSize newSize) patchOffset
    else .ok (outputSize, patchOffset)

/-- `IPS::getSize`. -/
def getSize (fuel : Nat) (patch : List u8) (patchSize : Nat) : Exec Nat := do
  let (outputSize, patchOffset) ← getSize.loop patch patchSize fuel 0 headerSize
  if patchOffset + 3 = patchSize then do
    let (actualSize, _) ← read 3 patch patchOffset patchSize
    .ok (max outputSize actualSize)
  else .ok outputSize

end IPS

/-- `std::memcpy(output.data(), data, n)`; the callers pass an `n` that is at most
both lengths. -/
def memcpy (output data : List u8) (n : Nat) : List u8 :=
  data.take n ++ output.drop n

/-- The RLE `for` loop of `patchIPS`: `n` iterations remain, `i` is the loop index. -/
def patchIPS.rleLoop (fileOffset : Nat) (value : u8) : Nat → Nat → List u8 → Exec (List u8)
  | 0, _, output => .ok output
  | n + 1, i, output =>
    if fileOffset + i ≥ output.length then .ok output
    else do
      let output ← wr output (fileOffset + i) value
      patchIPS.rleLoop fileOffset value n (i + 1) output

/-- The literal `for` loop of `patchIPS`: `n` iterations remain, `i` is the loop
index; returns the output and the patch offset. -/
def patchIPS.copyLoop (patch : List u8) (patchSize fileOffset : Nat) :
    Nat → Nat → List u8 → Nat → Exec (List u8 × Nat)
  | 0, _, output, offset => .ok (output, offset)
  | n + 1, i, output, offset =>
    if fileOffset + i ≥ output.length then .ok (output, offset)
    else do
      let (value, offset) ← IPS.read 1 patch offset patchSize
      let output ← wr output (fileOffset + i) (Fin.ofNat value)
      patchIPS.copyLoop patch patchSize fileOffset n (i + 1) output offset

/-- The `while (offset < patchSize)` loop of `patchIPS`. -/
def patchIPS.loop (patch : List u8) (patchSize : Nat) : Nat → List u8 → Nat → Exec (List u8)
  | 0, _, _ => .error .outOfFuel
  | fuel + 1, output, offset =>
    if offset < patchSize then do
      let (fileOffset, offset) ← IPS.read 3 patch offset patchSize
      if fileOffset = IPS.endOfFile then .ok output
      else do
        let (size, offset) ← IPS.read 2 patch offset patchSize
        if size = 0 then do
          let (rleSize, offset) ← IPS.read 2 patch offset patchSize
          let (value, offset) ← IPS.read 1 patch offset patchSize
          let output ← patchIPS.rleLoop fileOffset (Fin.ofNat value) rleSize 0 output
          patchIPS.loop patch patchSize fuel output offset
        else do
          let (output, offset) ← patchIPS.copyLoop patch patchSize fileOffset size 0 output offset
          patchIPS.loop patch patchSize fuel output offset
    else .ok output

/-- `patchIPS(data, dataSize, patch, patchSize)` with the sizes the lengths of the
lists. The five magic bytes are read after the length test, as in the source
(which stops at the first mismatch; all five are within the patch). The size
that `getSize` returns is below `2 ^ 25`, so the construction of the output
does not throw (`getSize_le_maxSize`). -/
def patchIPS (fuel : Nat) (data patch : List u8) : Exec (List u8 × Result) :=
  let dataSize := data.length
  let patchSize := patch.length
  if patchSize < IPS.minimumPatchSize then .ok ([], .InvalidPatch)
  else do
    let p0 ← rd patch 0
    let p1 ← rd patch 1
    let p2 ← rd patch 2
    let p3 ← rd patch 3
    let p4 ← rd patch 4
    if p0 ≠ 0x50 ∨ p1 ≠ 0x41 ∨ p2 ≠ 0x54 ∨ p3 ≠ 0x43 ∨ p4 ≠ 0x48 then
      .ok ([], .InvalidPatch)
    else do
      let size ← IPS.getSize fuel patch patchSize
      let output ← newVector size
      let output := memcpy output data (min output.length dataSize)
      let output ← patchIPS.loop patch patchSize fuel output IPS.headerSize
      .ok (output, .Success)

namespace UPS

/-- The constant `UPS::headerSize`. -/
def headerSize : Nat := 4

/-- The constant `UPS::minimumPatchSize`. -/
def minimumPatchSize : Nat := 18

/-- `UPS::read<T, size>`. -/
def read (size : Nat) (data : List u8) (offset patchSize : Nat) : Exec (Nat × Nat) :=
  Detail.readLE size data offset patchSize

/-- `UPS::readRunLength<u64>`. -/
def readRunLength (fuel : Nat) (data : List u8) (offset patchSize : Nat) : Exec (Nat × Nat) :=
  Detail.readRunLength fuel data offset patchSize

end UPS

/-- The cursors and the output buffer of `patchUPS`. -/
structure UPSState where
  output : List u8
  patchOffset : Nat
  sourceOffset : Nat
  outputOffset : Nat
  deriving DecidableEq, Repr

/-- The loop `while (length > 0 && outputOffset < outputSize)` of `patchUPS`, by
recursion on `length`. -/
def patchUPS.copyLoop (data : List u8) (outputSize : Nat) : Nat → UPSState → Exec UPSState
  | 0, st => .ok st
  | length + 1, st =>
    if st.outputOffset < outputSize then do
      let (value, sourceOffset) ← UPS.read 1 data st.sourceOffset data.length
      let output ← wr st.output st.outputOffset (Fin.ofNat value)
      patchUPS.copyLoop data outputSize length
        { st with output := output, sourceOffset := sourceOffset,
                  outputOffset := st.outputOffset + 1 }
    else .ok st

/-- The XOR loop `while (outputOffset < outputSize)` of `patchUPS`, left by
`break` after a zero patch byte. -/
def patchUPS.xorLoop (data patch : List u8) (outputSize : Nat) : Nat → UPSState → Exec UPSState
  | 0, _ => .error .outOfFuel
  | fuel + 1, st =>
    if st.outputOffset < outputSize then do
      let (sourceValue, sourceOffset) ← UPS.read 1 data st.sourceOffset data.length
      let (patchValue, patchOffset) ← UPS.read 1 patch st.patchOffset patch.length
      let output ← wr st.output st.outputOffset (Fin.ofNat (sourceValue ^^^ patchValue))
      let st := { output := output, patchOffset := patchOffset, sourceOffset := sourceOffset,
                  outputOffset := st.outputOffset + 1 : UPSState }
      if patchValue = 0 then .ok st
      else patchUPS.xorLoop data patch outputSize fuel st
    else .ok st

/-- The main loop `while (patchOffset < patchSize - 12)` of `patchUPS`; the bound
is a `usize` difference, so it wraps when `patchSize < 12`. -/
def patchUPS.loop (data patch : List u8) (outputSize : Nat) (fuel0 : Nat) :
    Nat → UPSState → Exec UPSState
  | 0, _ => .error .outOfFuel
  | fuel + 1, st =>
    if st.patchOffset < (patch.length + U64 - 12) % U64 then do
      let (length, patchOffset) ← UPS.readRunLength fuel0 patch st.patchOffset patch.length
      let st ← patchUPS.copyLoop data outputSize length { st with patchOffset := patchOffset }
      let st ← patchUPS.xorLoop data patch outputSize fuel0 st
      patchUPS.loop data patch outputSize fuel0 fuel st
    else .ok st

/-- The loop `while (outputOffset < outputSize && sourceOffset < dataSize)` of
`patchUPS`. -/
def patchUPS.restLoop (data : List u8) (outputSize : Nat) : Nat → UPSState → Exec UPSState
  | 0, _ => .error .outOfFuel
  | fuel + 1, st =>
    if st.outputOffset < outputSize ∧ st.sourceOffset < data.length then do
      let (value, sourceOffset) ← UPS.read 1 data st.sourceOffset data.length
      let output ← wr st.output st.outputOffset (Fin.ofNat value)
      patchUPS.restLoop data outputSize fuel
        { st with output := output, sourceOffset := sourceOffset,
                  outputOffset := st.outputOffset + 1 }
    else .ok st

/-- The zero-padding loop `while (outputOffset < outputSize)`, shared by `patchUPS`
and `patchBPS`; returns the output and `outputOffset`. -/
def padLoop (outputSize : Nat) : Nat → List u8 → Nat → Exec (List u8 × Nat)
  | 0, _, _ => .error .outOfFuel
  | fuel + 1, output, outputOffset =>
    if outputOffset < outputSize then do
      let output ← wr output outputOffset 0
      padLoop outputSize fuel output (outputOffset + 1)
    else .ok (output, outputOffset)

/-- Lines 309 to 344 of `patchUPS`: the output buffer of the declared size is
constructed (which throws for a size above `max_size()`) and built by the main
loop, the copy of the rest of the source and the zero padding. Returns the
output and the patch offset at which the checksums are then read. -/
def patchUPS.build (fuel : Nat) (data patch : List u8) (outputSize patchOffset : Nat) :
    Exec (List u8 × Nat) := do
  let output ← newVector outputSize
  let st : UPSState :=
    { output := output, patchOffset := patchOffset, sourceOffset := 0, outputOffset := 0 }
  let st ← patchUPS.loop data patch outputSize fuel fuel st
  let st ← patchUPS.restLoop data outputSize fuel st
  let (output, _) ← padLoop outputSize fuel st.output st.outputOffset
  .ok (output, st.patchOffset)

/-- The three checksum reads and the final comparison, shared in form by
`patchUPS` and `patchBPS`; `read` is the 4-byte little-endian read. -/
def checksums (output patch : List u8) (patchOffset : Nat) : Exec (List u8 × Result) := do
  let (_inputCRC, patchOffset) ← Detail.readLE 4 patch patchOffset patch.length
  let (outputCRC, patchOffset) ← Detail.readLE 4 patch patchOffset patch.length
  let (_patchCRC, _) ← Detail.readLE 4 patch patchOffset patch.length
  if outputCRC ≠ Detail.crc32 output then .ok (output, .ChecksumMismatch)
  else .ok (output, .Success)

/-- `patchUPS(data, dataSize, patch, patchSize)` with the sizes the lengths of the
lists. The length test compares with `IPS::minimumPatchSize`, as the source
does. -/
def patchUPS (fuel : Nat) (data patch : List u8) : Exec (List u8 × Result) :=
  let dataSize := data.length
  let patchSize := patch.length
  if patchSize < IPS.minimumPatchSize then .ok ([], .InvalidPatch)
  else do
    let p0 ← rd patch 0
    let p1 ← rd patch 1
    let p2 ← rd patch 2
    let p3 ← rd patch 3
    if p0 ≠ 0x55 ∨ p1 ≠ 0x50 ∨ p2 ≠ 0x53 ∨ p3 ≠ 0x31 then
      .ok ([], .InvalidPatch)
    else do
      let patchOffset := UPS.headerSize
      let (inputSize, patchOffset) ← UPS.readRunLength fuel patch patchOffset patchSize
      let (outputSize, patchOffset) ← UPS.readRunLength fuel patch patchOffset patchSize
      if dataSize < inputSize then .ok ([], .SizeMismatch)
      else do
        let (output, patchOffset) ← patchUPS.build fuel data patch outputSize patchOffset
        checksums output patch patchOffset

namespace BPS

/-- The constant `BPS::headerSize`. -/
def headerSize : Nat := 4

/-- The constant `BPS::minimumPatchSize`. -/
def minimumPatchSize : Nat := headerSize + 3 + 9

/-- `BPS::read<T, size>`. -/
def read (size : Nat) (data : List u8) (offset patchSize : Nat) : Exec (Nat × Nat) :=
  Detail.readLE size data offset patchSize

/-- `BPS::readRunLength<u64>`. -/
def readRunLength (fuel : Nat) (data : List u8) (offset patchSize : Nat) : Exec (Nat × Nat) :=
  Detail.readRunLength fuel data offset patchSize

/-- The update `cursor += (word & 1) ? -offset : +offset` with
`offset = s64(word >> 1)`, in `usize` arithmetic. -/
def adjust (cursor word : Nat) : Nat :=
  if word &&& 1 ≠ 0 then (cursor + U64 - (word >>> 1)) % U64
  else (cursor + (word >>> 1)) % U64

end BPS

/-- The cursors and the output buffer of `patchBPS`. -/
structure BPSState where
  output : List u8
  patchOffset : Nat
  sourceOffset : Nat
  outputOffset : Nat
  outputOffset2 : Nat
  deriving DecidableEq, Repr

/-- The loop of the `SourceRead` action, by recursion on `length`. -/
def patchBPS.sourceRead (data : List u8) (outputSize : Nat) : Nat → BPSState → Exec BPSState
  | 0, st => .ok st
  | length + 1, st =>
    if st.outputOffset < outputSize ∧ st.outputOffset < data.length then do
      let value ← rd data st.outputOffset
      let output ← wr st.output st.outputOffset value
      patchBPS.sourceRead data outputSize length
        { st with output := output, outputOffset := st.outputOffset + 1 }
    else .ok st

/-- The loop of the `TargetRead` action, by recursion on `length`. -/
def patchBPS.targetRead (patch : List u8) (outputSize : Nat) : Nat → BPSState → Exec BPSState
  | 0, st => .ok st
  | length + 1, st =>
    if st.outputOffset < outputSize then do
      let (value, patchOffset) ← BPS.read 1 patch st.patchOffset patch.length
      let output ← wr st.output st.outputOffset (Fin.ofNat value)
      patchBPS.targetRead patch outputSize length
        { st with output := output, patchOffset := patchOffset,
                  outputOffset := st.outputOffset + 1 }
    else .ok st

/-- The loop `while (length > 0)` of the `SourceCopy` action. -/
def patchBPS.sourceCopy (data : List u8) : Nat → BPSState → Exec BPSState
  | 0, st => .ok st
  | length + 1, st => do
    let value ← rd data st.sourceOffset
    let output ← wr st.output st.outputOffset value
    patchBPS.sourceCopy data length
      { st with output := output, sourceOffset := st.sourceOffset + 1,
                outputOffset := st.outputOffset + 1 }

/-- The loop `while (length > 0)` of the `TargetCopy` action. -/
def patchBPS.targetCopy : Nat → BPSState → Exec BPSState
  | 0, st => .ok st
  | length + 1, st => do
    let value ← rd st.output st.outputOffset2
    let output ← wr st.output st.outputOffset value
    patchBPS.targetCopy length
      { st with output := output, outputOffset := st.outputOffset + 1,
                outputOffset2 := st.outputOffset2 + 1 }

/-- One iteration of the main loop of `patchBPS`: an action word and its action. -/
def patchBPS.step (fuel0 : Nat) (data patch : List u8) (outputSize : Nat) (st : BPSState) :
    Exec BPSState := do
  let (word, patchOffset) ← BPS.readRunLength fuel0 patch st.patchOffset patch.length
  let st := { st with patchOffset := patchOffset }
  let action := word &&& 3
  let length := (word >>> 2) + 1
  if action = 0 then patchBPS.sourceRead data outputSize length st
  else if action = 1 then patchBPS.targetRead patch outputSize length st
  else if action = 2 then do
    let (word, patchOffset) ← BPS.readRunLength fuel0 patch st.patchOffset patch.length
    patchBPS.sourceCopy data length
      { st with patchOffset := patchOffset, sourceOffset := BPS.adjust st.sourceOffset word }
  else do
    let (word, patchOffset) ← BPS.readRunLength fuel0 patch st.patchOffset patch.length
    patchBPS.targetCopy length
      { st with patchOffset := patchOffset, outputOffset2 := BPS.adjust st.outputOffset2 word }

/-- The main loop `while (patchOffset < patchSize - 12)` of `patchBPS`. -/
def patchBPS.loop (data patch : List u8) (outputSize : Nat) (fuel0 : Nat) :
    Nat → BPSState → Exec BPSState
  | 0, _ => .error .outOfFuel
  | fuel + 1, st =>
    if st.patchOffset < (patch.length + U64 - 12) % U64 then do
      let st ← patchBPS.step fuel0 data patch outputSize st
      patchBPS.loop data patch outputSize fuel0 fuel st
    else .ok st

/-- Lines 402 to 462 of `patchBPS`: the output buffer of the declared size is
constructed (which throws for a size above `max_size()`) and built by the
action loop and the zero padding. Returns the output and the patch offset at
which the checksums are then read. -/
def patchBPS.build (fuel : Nat) (data patch : List u8) (outputSize patchOffset : Nat) :
    Exec (List u8 × Nat) := do
  let output ← newVector outputSize
  let st : BPSState :=
    { output := output, patchOffset := patchOffset, sourceOffset := 0, outputOffset := 0,
      outputOffset2 := 0 }
  let st ← patchBPS.loop data patch outputSize fuel fuel st
  let (output, _) ← padLoop outputSize fuel st.output st.outputOffset
  .ok (output, st.patchOffset)

/-- `patchBPS(data, dataSize, patch, patchSize)` with the sizes the lengths of the
lists. `metadataSize` is read and not used afterwards, as in the source. -/
def patchBPS (fuel : Nat) (data patch : List u8) : Exec (List u8 × Result) :=
  let dataSize := data.length
  let patchSize := patch.length
  if patchSize < BPS.minimumPatchSize then .ok ([], .InvalidPatch)
  else do
    let p0 ← rd patch 0
    let p1 ← rd patch 1
    let p2 ← rd patch 2
    let p3 ← rd patch 3
    if p0 ≠ 0x42 ∨ p1 ≠ 0x50 ∨ p2 ≠ 0x53 ∨ p3 ≠ 0x31 then
      .ok ([], .InvalidPatch)
    else do
      let patchOffset := BPS.headerSize
      let (inputSize, patchOffset) ← BPS.readRunLength fuel patch patchOffset patchSize
      let (outputSize, patchOffset) ← BPS.readRunLength fuel patch patchOffset patchSize
      let (_metadataSize, patchOffset) ← BPS.readRunLength fuel patch patchOffset patchSize
      if dataSize < inputSize then .ok ([], .SizeMismatch)
      else do
        let (output, patchOffset) ← patchBPS.build fuel data patch outputSize patchOffset
        checksums output patch patchOffset

/-- The type `PatchType` of the source, an enumeration over `u32`: a value of the
type is any tag. -/
abbrev PatchType := Nat

/-- The enumerator `PatchType::IPS`. -/
def PatchType.IPS : PatchType := 0

/-- The enumerator `PatchType::UPS`. -/
def PatchType.UPS : PatchType := 1

/-- The enumerator `PatchType::BPS`. -/
def PatchType.BPS : PatchType := 2

/-- `patch(data, dataSize, patch, patchSize, type)`: the `switch` over the tag. -/
def patch (fuel : Nat) (data patch : List u8) (type : PatchType) : Exec (List u8 × Result) :=
  if type = PatchType.IPS then patchIPS fuel data patch
  else if type = PatchType.UPS then patchUPS fuel data patch
  else if type = PatchType.BPS then patchBPS fuel data patch
  else .ok ([], .UnknownFormat)

/-! ## Concrete inputs and specification-side definitions -/

/-- The source of the IPS scenario: four zero bytes. -/
def scenarioSource : List u8 := [0, 0, 0, 0]

/-- The patch of the IPS scenario: "PATCH", offset `000000`, size `0002`, data
`AA BB`, "EOF". -/
def scenarioPatch : List u8 :=
  [0x50, 0x41, 0x54, 0x43, 0x48, 0x00, 0x00, 0x00, 0x00, 0x02, 0xAA, 0xBB, 0x45, 0x4F, 0x46]

/-- The magic bytes "PATCH". -/
def magicIPS : List u8 := [0x50, 0x41, 0x54, 0x43, 0x48]

/-- The magic bytes "UPS1". -/
def magicUPS : List u8 := [0x55, 0x50, 0x53, 0x31]

/-- The magic bytes "BPS1". -/
def magicBPS : List u8 := [0x42, 0x50, 0x53, 0x31]

/-- The big-endian value of the `n` bytes of `data` from index `start`. -/
def beVal (data : List u8) (start : Nat) : Nat → Nat
  | 0 => 0
  | n + 1 => beVal data start n * 256 + (data.getD (start + n) 0).val

/-- The little-endian value of the `n` bytes of `data` from index `start`. -/
def leVal (data : List u8) (start : Nat) : Nat → Nat
  | 0 => 0
  | n + 1 => leVal data start n + (data.getD (start + n) 0).val * 256 ^ n

/-- The little-endian 32-bit value held in the four bytes of `buf` from index `i`. -/
def le32At (buf : List u8) (i : Nat) : Nat :=
  (buf.getD i 0).val + (buf.getD (i + 1) 0).val * 256 + (buf.getD (i + 2) 0).val * 65536
    + (buf.getD (i + 3) 0).val * 16777216

/-- The value held in patch bytes `[patchSize - 8, patchSize - 4)`, the second of
the three trailing 4-byte fields. -/
def storedOutputCRC (patch : List u8) : Nat := le32At patch (patch.length - 8)

/-- The value the decoders compare the checksum of the output with: the second
of the three 4-byte reads made from patch offset `patchOffset` on. -/
def readOutputCRC (patch : List u8) (patchOffset : Nat) : Exec Nat := do
  let (_, patchOffset) ← Detail.readLE 4 patch patchOffset patch.length
  let (outputCRC, _) ← Detail.readLE 4 patch patchOffset patch.length
  .ok outputCRC

/-- A UPS patch of 19 bytes: "UPS1", sizes 0 and 0, the two-byte run length
`00 80`, and eleven more bytes of which the one at index 11 is 1. -/
def misalignedUPS : List u8 :=
  [0x55, 0x50, 0x53, 0x31, 0x80, 0x80, 0x00, 0x80, 0, 0, 0, 1, 0, 0, 0, 0, 0, 0, 0]

/-- A UPS patch of 22 bytes for sources of 4 bytes: "UPS1", sizes 4 and 4, one
hunk (skip 1, XOR bytes `11 22`, terminator `00`) and the trailer with the
CRC-32 of `01 13 21 04` (`0C6A74AA`, little-endian) as output checksum. -/
def sampleUPS : List u8 :=
  [0x55, 0x50, 0x53, 0x31, 0x84, 0x84, 0x81, 0x11, 0x22, 0x00,
   0, 0, 0, 0, 0xAA, 0x74, 0x6A, 0x0C, 0, 0, 0, 0]

/-- A BPS patch of 21 bytes declaring input size 2 and output size 0, with a
zero trailer. -/
def sampleBPS : List u8 :=
  [0x42, 0x50, 0x53, 0x31, 0x82, 0x80, 0x80, 0x80, 0x80,
   0, 0, 0, 0, 0, 0, 0, 0, 0, 0, 0, 0]

/-- A UPS patch of 17 bytes: "UPS1", sizes 0 and 0, and eleven zero bytes. -/
def shortUPS : List u8 :=
  [0x55, 0x50, 0x53, 0x31, 0x80, 0x80, 0, 0, 0, 0, 0, 0, 0, 0, 0, 0, 0]

/-- A BPS patch of 22 bytes declaring input size 0, output size 1 and metadata
size 1: "BPS1", `80 81 81`, the metadata byte `m`, the action `81 41`
(TargetRead of the one byte `41`), and a 12-byte trailer: `80 00 00 00`, the
CRC-32 of the one byte `41` (`D3D99E8B`, little-endian) and four zero bytes. -/
def metadataBPS (m : u8) : List u8 :=
  [0x42, 0x50, 0x53, 0x31, 0x80, 0x81, 0x81, m, 0x81, 0x41,
   0x80, 0, 0, 0, 0x8B, 0x9E, 0xD9, 0xD3, 0, 0, 0, 0]

/-- A BPS patch of 21 bytes declaring sizes 0, 0, 0 with the single action
`82 80`: SourceCopy of length 1 at relative offset 0, and a zero trailer. -/
def sourceCopyBPS : List u8 :=
  [0x42, 0x50, 0x53, 0x31, 0x80, 0x80, 0x80, 0x82, 0x80, 0, 0, 0, 0, 0, 0, 0, 0, 0, 0, 0, 0]

/-- A BPS patch of 21 bytes declaring sizes 0, 0, 0 with the single action
`83 80`: TargetCopy of length 1 at relative offset 0, and a zero trailer. -/
def targetCopyBPS : List u8 :=
  [0x42, 0x50, 0x53, 0x31, 0x80, 0x80, 0x80, 0x83, 0x80, 0, 0, 0, 0, 0, 0, 0, 0, 0, 0, 0, 0]

/-- A UPS patch of 18 bytes with no byte whose high bit is set: "UPS1" and
fourteen zero bytes. -/
def unterminatedUPS : List u8 := magicUPS ++ List.replicate 14 0

/-- A record of an IPS patch: literal bytes for a target offset, or a run of
`count` copies of one byte. -/
inductive IPSRecord where
  | literal (offset : Nat) (data : List u8)
  | rle (offset count : Nat) (value : u8)
  deriving DecidableEq, Repr

/-- The three bytes of `n`, most significant first. -/
def be3 (n : Nat) : List u8 := [Fin.ofNat (n / 65536), Fin.ofNat (n / 256), Fin.ofNat n]

/-- The two bytes of `n`, most significant first. -/
def be2 (n : Nat) : List u8 := [Fin.ofNat (n / 256), Fin.ofNat n]

namespace IPSRecord

/-- The target offset of a record. -/
def offset : IPSRecord → Nat
  | literal offset _ => offset
  | rle offset _ _ => offset

/-- The bytes a record assigns from its offset on. -/
def bytes : IPSRecord → List u8
  | literal _ data => data
  | rle _ count value => List.replicate count value

/-- The length of a record: the number of literal bytes, or the RLE count. -/
def length (r : IPSRecord) : Nat := r.bytes.length

/-- The bytes of a record in a patch: 3-byte offset, 2-byte size and the data, or
3-byte offset, the size 0, 2-byte count and the fill byte. -/
def encode : IPSRecord → List u8
  | literal offset data => be3 offset ++ (be2 data.length ++ data)
  | rle offset count value => be3 offset ++ (be2 0 ++ (be2 count ++ [value]))

/-- A complete record: the offset fits 3 bytes and is not "EOF", the size of a
literal record is between 1 and 65535, the count of an RLE record fits 2 bytes. -/
def WellFormed : IPSRecord → Prop
  | literal offset data =>
    offset < 16777216 ∧ offset ≠ 0x454F46 ∧ 0 < data.length ∧ data.length < 65536
  | rle offset count _ => offset < 16777216 ∧ offset ≠ 0x454F46 ∧ count < 65536

end IPSRecord

/-- The bytes of a sequence of records. -/
def encodeRecords : List IPSRecord → List u8
  | [] => []
  | r :: rs => r.encode ++ encodeRecords rs

/-- The bytes of an optional 3-byte footer. -/
def encodeFooter : Option Nat → List u8
  | none => []
  | some n => be3 n

/-- A well-formed IPS patch: "PATCH", the records, "EOF" and the optional footer. -/
def encodeIPS (recs : List IPSRecord) (footer : Option Nat) : List u8 :=
  magicIPS ++ (encodeRecords recs ++ (be3 0x454F46 ++ encodeFooter footer))

/-- The maximum over the records of offset + length (0 without records). -/
def maxEnd : List IPSRecord → Nat
  | [] => 0
  | r :: rs => max (r.offset + r.length) (maxEnd rs)

/-- The size the claim gives for the output: the maximum over the records, raised
to the footer value when there is a footer. -/
def expectedSize (recs : List IPSRecord) : Option Nat → Nat
  | none => maxEnd recs
  | some n => max (maxEnd recs) n

/-- Assignment of the bytes `bs` to `output` from index `pos` on. -/
def writeAt : List u8 → Nat → List u8 → List u8
  | output, _, [] => output
  | output, pos, b :: bs => writeAt (output.set pos b) (pos + 1) bs

/-- The effect of one record on the output. -/
def applyRecord (output : List u8) (r : IPSRecord) : List u8 :=
  writeAt output r.offset r.bytes

/-- The output buffer of `patchIPS` before the records are applied: `size` bytes,
the first ones copied from the source and the rest zero. -/
def initialOutput (data : List u8) (size : Nat) : List u8 :=
  memcpy (List.replicate size 0) data (min size data.length)

/-- Two records: the literal bytes `AA BB` at offset 0 and a run of three `11` at
offset 5. -/
def sampleRecords : List IPSRecord := [.literal 0 [0xAA, 0xBB], .rle 5 3 0x11]

/-- Two states of `patchUPS` on the sources `d1` and `d2` with output size `n`
that have the same cursors, the source cursor at the output cursor, and outputs
that differ from their sources by the same XOR mask on the part written. -/
def UPSSim (n : Nat) (d1 d2 : List u8) (st1 st2 : UPSState) : Prop :=
  st2.patchOffset = st1.patchOffset ∧ st2.sourceOffset = st1.sourceOffset ∧
  st2.outputOffset = st1.outputOffset ∧ st1.sourceOffset = st1.outputOffset ∧
  st1.output.length = n ∧ st2.output.length = n ∧
  ∀ i, i < st1.outputOffset →
    (st1.output.getD i 0).val ^^^ (d1.getD i 0).val
      = (st2.output.getD i 0).val ^^^ (d2.getD i 0).val

/-- The value of a run-length integer of `m + 1` bytes at `offset`, read from
the first byte on: the low 7 bits of the byte, plus 128 times one more than the
value of the rest. -/
def varintFrom (data : List u8) : Nat → Nat → Nat
  | offset, 0 => (data.getD offset 0).val &&& 0x7F
  | offset, m + 1 =>
    ((data.getD offset 0).val &&& 0x7F) + 128 * (varintFrom data (offset + 1) m + 1)

/-- Position `i` lies in the range `[offset, offset + length)` of the record. -/
def IPSRecord.Covers (r : IPSRecord) (i : Nat) : Prop :=
  r.offset ≤ i ∧ i < r.offset + r.length

/-- One round of the bit-by-bit CRC-32: shift right by one and XOR `0xEDB88320`
when the bit shifted out is 1. -/
def crcStep (x : Nat) : Nat :=
  if x &&& 1 = 1 then (x >>> 1) ^^^ 0xEDB88320 else x >>> 1

/-- The round `crcStep` applied `n` times. -/
def crcRounds : Nat → Nat → Nat
  | 0, x => x
  | n + 1, x => crcRounds n (crcStep x)

/-- The bit-by-bit reference over the bytes: XOR the byte into the low 8 bits of
the register, then 8 rounds. -/
def crcRef.loop : List u8 → Nat → Nat
  | [], reg => reg
  | byte :: rest, reg => crcRef.loop rest (crcRounds 8 (reg ^^^ byte.val))

/-- The bit-by-bit reference CRC-32: initial register `0xFFFFFFFF`, final
complement. -/
def crcRef (data : List u8) : Nat :=
  crcRef.loop data 0xFFFFFFFF ^^^ 0xFFFFFFFF

/-- The ASCII bytes of "123456789". -/
def checkString : List u8 := [0x31, 0x32, 0x33, 0x34, 0x35, 0x36, 0x37, 0x38, 0x39]

/-- The state of the loop of TargetCopy after `j` bytes, for the output `out0`
before the action, the write position `w` and the read position `r` at its
start: the cursors have advanced by `j`, the `j` bytes written repeat the bytes
of `out0` from `r` on with period `w - r`, and every other byte is as in `out0`. -/
def TargetCopyInv (out0 : List u8) (w r po so j : Nat) (st : BPSState) : Prop :=
  st.outputOffset = w + j ∧ st.outputOffset2 = r + j ∧ st.patchOffset = po ∧
  st.sourceOffset = so ∧ st.output.length = out0.length ∧
  (∀ i, i < j → st.output.getD (w + i) 0 = out0.getD (r + i % (w - r)) 0) ∧
  (∀ p, p < w ∨ w + j ≤ p → st.output.getD p 0 = out0.getD p 0)

/-- The state of a run of `patchUPS` on the source `s` with output size `n` whose
written part is the source XOR the mask: the source cursor is at the output
cursor, and each byte below the cursor is the source byte (0 past the source)
XOR the mask of its position. -/
def UPSInv (n : Nat) (s : List u8) (mask : Nat → Nat) (st : UPSState) : Prop :=
  st.sourceOffset = st.outputOffset ∧ st.output.length = n ∧
  ∀ i, i < st.outputOffset → (st.output.getD i 0).val = (s.getD i 0).val ^^^ mask i

/-- A terminated byte sequence: not empty, the high bit clear in every byte but
the last and set in the last. -/
def Terminated : List u8 → Prop
  | [] => False
  | [b] => b.val &&& 0x80 ≠ 0
  | b :: c :: rest => b.val &&& 0x80 = 0 ∧ Terminated (c :: rest)

/-- The value of a byte sequence as a run-length integer, from the first byte
on. -/
def varintOf : List u8 → Nat
  | [] => 0
  | [b] => b.val &&& 0x7F
  | b :: c :: rest => (b.val &&& 0x7F) + 128 * (varintOf (c :: rest) + 1)

/-- The number `S_n`: the sum of `128 ^ i` for `1 <= i < n`. -/
def varintBase (n : Nat) : Nat := Finset.sum (Finset.Ico 1 n) (fun i => 128 ^ i)

instance decTerminated : (a : List u8) → Decidable (Terminated a)
  | [] => isFalse id
  | [b] => inferInstanceAs (Decidable (b.val &&& 0x80 ≠ 0))
  | b :: c :: rest =>
    have := decTerminated (c :: rest)
    inferInstanceAs (Decidable (b.val &&& 0x80 = 0 ∧ Terminated (c :: rest)))

/-- A record header as a pass over an IPS patch reads it: the patch offset the
record starts at, its target offset, its length (the size of a literal record,
the count of an RLE record) and whether it is an RLE record. -/
structure IPSRead where
  pos : Nat
  fileOffset : Nat
  length : Nat
  rle : Bool
  deriving DecidableEq, Repr

/-- The loop of `IPS::getSize` (`IPS.getSize.loop`) with a log: the same
statements, and in the result also the list of the record headers read, each
with the patch offset it was read at. -/
def IPS.getSize.traced (patch : List u8) (patchSize : Nat) :
    Nat → Nat → Nat → Exec (Nat × Nat × List IPSRead)
  | 0, _, _ => .error .outOfFuel
  | fuel + 1, outputSize, patchOffset =>
    if patchOffset < patchSize then do
      let pos := patchOffset
      let (fileOffset, patchOffset) ← IPS.read 3 patch patchOffset patchSize
      if fileOffset = IPS.endOfFile then .ok (outputSize, patchOffset, [])
      else do
        let newSize := fileOffset
        let (size, patchOffset) ← IPS.read 2 patch patchOffset patchSize
        if size = 0 then do
          let (rleSize, patchOffset) ← IPS.read 2 patch patchOffset patchSize
          let newSize := newSize + rleSize
          let patchOffset := patchOffset + 1
          let (outputSize, patchOffset, log) ←
            IPS.getSize.traced patch patchSize fuel (max outputSize newSize) patchOffset
          .ok (outputSize, patchOffset, ⟨pos, fileOffset, rleSize, true⟩ :: log)
        else do
          let patchOffset := patchOffset + size
          let newSize := newSize + size
          let (outputSize, patchOffset, log) ←
            IPS.getSize.traced patch patchSize fuel (max outputSize newSize) patchOffset
          .ok (outputSize, patchOffset, ⟨pos, fileOffset, size, false⟩ :: log)
    else .ok (outputSize, patchOffset, [])

/-- The record loop of `patchIPS` (`patchIPS.loop`) with a log: the same
statements, and in the result also the patch offset on leaving the loop and the
list of the record headers read, each with the patch offset it was read at. -/
def patchIPS.traced (patch : List u8) (patchSize : Nat) :
    Nat → List u8 → Nat → Exec (List u8 × Nat × List IPSRead)
  | 0, _, _ => .error .outOfFuel
  | fuel + 1, output, offset =>
    if offset < patchSize then do
      let pos := offset
      let (fileOffset, offset) ← IPS.read 3 patch offset patchSize
      if fileOffset = IPS.endOfFile then .ok (output, offset, [])
      else do
        let (size, offset) ← IPS.read 2 patch offset patchSize
        if size = 0 then do
          let (rleSize, offset) ← IPS.read 2 patch offset patchSize
          let (value, offset) ← IPS.read 1 patch offset patchSize
          let output ← patchIPS.rleLoop fileOffset (Fin.ofNat value) rleSize 0 output
          let (output, offset, log) ← patchIPS.traced patch patchSize fuel output offset
          .ok (output, offset, ⟨pos, fileOffset, rleSize, true⟩ :: log)
        else do
          let (output, offset) ← patchIPS.copyLoop patch patchSize fileOffset size 0 output offset
          let (output, offset, log) ← patchIPS.traced patch patchSize fuel output offset
          .ok (output, offset, ⟨pos, fileOffset, size, false⟩ :: log)
    else .ok (output, offset, [])

/-- The `n` bytes of `patch` from `offset` on, 0 for a byte past the end. -/
def patchBytes (patch : List u8) : Nat → Nat → List u8
  | _, 0 => []
  | offset, n + 1 => patch.getD offset 0 :: patchBytes patch (offset + 1) n

/-- The record a header stands for in `patch`: an RLE record with the fill byte
that follows the 7 bytes of its header, or a literal record with the bytes that
follow the 5 bytes of its header (0 for a byte past the end of the patch). -/
def IPSRead.record (patch : List u8) (r : IPSRead) : IPSRecord :=
  if r.rle then .rle r.fileOffset r.length (patch.getD (r.pos + 7) 0)
  else .literal r.fileOffset (patchBytes patch (r.pos + 5) r.length)

/-- A truncated IPS patch: "PATCH" and a literal record for offset 2 with size
3 of which only the first data byte `AA` is in the patch. -/
def truncatedIPS : List u8 :=
  [0x50, 0x41, 0x54, 0x43, 0x48, 0x00, 0x00, 0x02, 0x00, 0x03, 0xAA]

/-! ## Theorems -/

section Basics

/-- Sequencing after a returned value. The proof is not a bare `rfl`, so that
`simp` applies the statement as a rewrite rule. -/
@[simp] theorem bind_ok {α β : Type} (a : α) (f : α → Exec β) :
    (Except.ok a >>= f) = f a := Eq.trans rfl rfl

/-- Sequencing after a fault. -/
@[simp] theorem bind_error {α β : Type} (e : Fault) (f : α → Exec β) :
    ((Except.error e : Exec α) >>= f) = Except.error e := Eq.trans rfl rfl

theorem rd_eq_ok {buf : List u8} {i : Nat} (h : i < buf.length) :
    rd buf i = .ok (buf.getD i 0) := by
  simp [rd, List.getD_eq_getElem?_getD, List.getElem?_eq_getElem h]

/-- Within `max_size()` the construction of a vector gives zero bytes. -/
theorem newVector_ok {n : Nat} (h : n ≤ maxSize) :
    newVector n = .ok (List.replicate n 0) := by
  unfold newVector
  rw [if_neg (Nat.not_lt.mpr h)]

/-- Above `max_size()` the construction of a vector throws. -/
theorem newVector_error {n : Nat} (h : maxSize < n) :
    newVector n = .error .lengthError := by
  unfold newVector
  rw [if_pos h]

/-- A one-byte little-endian read with the true buffer size returns the byte at
the cursor, or 0 past the end, and advances the cursor by one. -/
theorem readLE_one (data : List u8) (offset : Nat) :
    Detail.readLE 1 data offset data.length = .ok ((data.getD offset 0).val, offset + 1) := by
  unfold Detail.readLE
  by_cases h : offset + 1 > data.length
  · have h2 : data.length ≤ offset := by omega
    simp [h, List.getElem?_eq_none h2]
  · have h2 : offset < data.length := by omega
    simp [h, Detail.readLE.loop, rd_eq_ok h2]

end Basics

section Scenario

theorem scenario_eval (n : Nat) :
    patchIPS (n + 2) scenarioSource scenarioPatch = .ok ([0xAA, 0xBB], .Success) := by
  rfl

theorem scenario_fuel_one : patchIPS 1 scenarioSource scenarioPatch = .error .outOfFuel := by
  decide

theorem scenario_fuel_zero : patchIPS 0 scenarioSource scenarioPatch = .error .outOfFuel := by
  decide

/-- C1 (as stated, refuted): on the four zero bytes and the 15-byte patch of the
scenario, `patchIPS` returns the bytes `AA BB 00 00` for no amount of fuel. -/
theorem C1_scenario_not_four_bytes :
    ¬ ∃ fuel, patchIPS fuel scenarioSource scenarioPatch
      = .ok ([0xAA, 0xBB, 0x00, 0x00], .Success) := by
  rintro ⟨fuel, h⟩
  rcases fuel with _ | _ | n
  · rw [scenario_fuel_zero] at h; cases h
  · rw [scenario_fuel_one] at h; cases h
  · rw [scenario_eval] at h
    exact absurd h (by decide)

/-- C1 (amended): on the four zero bytes and the 15-byte patch of the scenario,
`patchIPS` returns the two bytes `AA BB` (the size computed from the patch is 2,
so the copy of the source is cut to two bytes) together with `Success`. -/
theorem C1_scenario_output (fuel : Nat) (h : 2 ≤ fuel) :
    patchIPS fuel scenarioSource scenarioPatch = .ok ([0xAA, 0xBB], .Success) := by
  obtain ⟨n, rfl⟩ : ∃ n, fuel = n + 2 := ⟨fuel - 2, by omega⟩
  exact scenario_eval n

theorem C1_scenario_output_witness :
    2 ≤ 15 ∧ patchIPS 15 scenarioSource scenarioPatch = .ok ([0xAA, 0xBB], .Success) :=
  ⟨by decide, C1_scenario_output 15 (by decide)⟩

end Scenario

section ConcreteRuns

/-- C5 (failing input): a 17-byte patch with the magic "UPS1" is not rejected:
the length test of `patchUPS` compares with 8, and the decoder goes on to return
an empty output with `Success`. -/
theorem C5_short_ups_patch_accepted :
    shortUPS.length = 17 ∧ shortUPS.length < UPS.minimumPatchSize ∧
    ∀ n, patchUPS (n + 1) [] shortUPS = .ok ([], .Success) :=
  ⟨rfl, by decide, fun _ => rfl⟩

/-- C6 (failing input): two BPS patches that differ only in their one metadata
byte (index 7, declared metadata size 1) give different outputs for the empty
source, because the action stream is decoded from the metadata byte on. -/
theorem C6_metadata_byte_changes_output :
    metadataBPS 0x81 = (metadataBPS 0x80).set 7 0x81 ∧
    BPS.readRunLength 1 (metadataBPS 0x80) 6 22 = .ok (1, 7) ∧
    ∀ n, patchBPS (n + 3) [] (metadataBPS 0x80) = .ok ([0x41], .Success) ∧
         patchBPS (n + 3) [] (metadataBPS 0x81) = .ok ([0x81], .ChecksumMismatch) :=
  ⟨rfl, rfl, fun _ => ⟨rfl, rfl⟩⟩

/-- C9 (failing input): a SourceCopy action of length 1 on an empty source reads
`data[0]`, and a TargetCopy action of length 1 on an empty output reads
`output[0]`: both accesses are outside the buffer. -/
theorem C9_bps_copy_out_of_bounds (n : Nat) :
    patchBPS (n + 1) [] sourceCopyBPS = .error .outOfBounds ∧
    patchBPS (n + 1) [] targetCopyBPS = .error .outOfBounds :=
  ⟨rfl, rfl⟩

theorem misalignedUPS_eval (n : Nat) :
    patchUPS (n + 2) [] misalignedUPS = .ok ([], .Success) := by
  rfl

end ConcreteRuns

section Unterminated

/-- When no byte from `offset` on has its high bit set, the loop of the
run-length reader uses up any amount of fuel. -/
theorem readRunLength_loop_unterminated (data : List u8)
    (fuel : Nat) : ∀ (offset ret shift : Nat),
    (∀ i, offset ≤ i → (data.getD i 0).val &&& 0x80 = 0) →
    Detail.readRunLength.loop data data.length fuel offset ret shift = .error .outOfFuel := by
  induction fuel with
  | zero => intro offset ret shift _; rfl
  | succ fuel ih =>
    intro offset ret shift h
    unfold Detail.readRunLength.loop
    rw [readLE_one]
    simp only [bind_ok, h offset (Nat.le_refl _), ne_eq, not_true_eq_false, if_false]
    exact ih _ _ _ (fun i hi => h i (by omega))

theorem unterminatedUPS_high_bits (i : Nat) (_h : 4 ≤ i) :
    (unterminatedUPS.getD i 0).val &&& 0x80 = 0 := by
  by_cases hi : i < 18
  · interval_cases i <;> decide
  · have : unterminatedUPS.length ≤ i := by
      simp [unterminatedUPS, magicUPS]; omega
    simp [List.getD_eq_getElem?_getD, List.getElem?_eq_none this]

/-- C10 (failing input): on the 18-byte patch "UPS1" followed by fourteen zero
bytes the run-length reader called for the declared input size never finds a byte
with the high bit set, and neither it nor `patchUPS` returns, whatever the fuel. -/
theorem C10_unterminated_varint_never_returns (fuel : Nat) (data : List u8) :
    Detail.readRunLength fuel unterminatedUPS 4 unterminatedUPS.length = .error .outOfFuel ∧
    patchUPS fuel data unterminatedUPS = .error .outOfFuel := by
  have h1 : Detail.readRunLength fuel unterminatedUPS 4 unterminatedUPS.length
      = .error .outOfFuel :=
    readRunLength_loop_unterminated _ fuel 4 0 1 unterminatedUPS_high_bits
  refine ⟨h1, ?_⟩
  unfold patchUPS
  simp only [UPS.readRunLength, UPS.headerSize, h1]
  rfl

end Unterminated

section Magic

theorem patchIPS_bad_magic (fuel : Nat) (data patch : List u8)
    (h : patch.take 5 ≠ magicIPS) : patchIPS fuel data patch = .ok ([], .InvalidPatch) := by
  unfold patchIPS
  by_cases hlen : patch.length < IPS.minimumPatchSize
  · simp [hlen]
  · match patch, h, hlen with
    | a :: b :: c :: d :: e :: rest, h, _ =>
      simp only [List.take, magicIPS, ne_eq, List.cons.injEq, and_true, not_and_or] at h
      simp [rd, IPS.minimumPatchSize, IPS.headerSize]
      intro h0 h1 h2 h3 h4
      simp_all
    | [], _, hlen => simp [IPS.minimumPatchSize, IPS.headerSize] at hlen
    | [_], _, hlen => simp [IPS.minimumPatchSize, IPS.headerSize] at hlen
    | [_, _], _, hlen => simp [IPS.minimumPatchSize, IPS.headerSize] at hlen
    | [_, _, _], _, hlen => simp [IPS.minimumPatchSize, IPS.headerSize] at hlen
    | [_, _, _, _], _, hlen => simp [IPS.minimumPatchSize, IPS.headerSize] at hlen

theorem patchUPS_bad_magic (fuel : Nat) (data patch : List u8)
    (h : patch.take 4 ≠ magicUPS) : patchUPS fuel data patch = .ok ([], .InvalidPatch) := by
  unfold patchUPS
  by_cases hlen : patch.length < IPS.minimumPatchSize
  · simp [hlen]
  · match patch, h, hlen with
    | a :: b :: c :: d :: rest, h, _ =>
      simp only [List.take, magicUPS, ne_eq, List.cons.injEq, and_true, not_and_or] at h
      simp [rd, IPS.minimumPatchSize, IPS.headerSize]
      intro h0 h1 h2 h3
      simp_all
    | [], _, hlen => simp [IPS.minimumPatchSize, IPS.headerSize] at hlen
    | [_], _, hlen => simp [IPS.minimumPatchSize, IPS.headerSize] at hlen
    | [_, _], _, hlen => simp [IPS.minimumPatchSize, IPS.headerSize] at hlen
    | [_, _, _], _, hlen => simp [IPS.minimumPatchSize, IPS.headerSize] at hlen

theorem patchBPS_bad_magic (fuel : Nat) (data patch : List u8)
    (h : patch.take 4 ≠ magicBPS) : patchBPS fuel data patch = .ok ([], .InvalidPatch) := by
  unfold patchBPS
  by_cases hlen : patch.length < BPS.minimumPatchSize
  · simp [hlen]
  · match patch, h, hlen with
    | a :: b :: c :: d :: rest, h, _ =>
      simp only [List.take, magicBPS, ne_eq, List.cons.injEq, and_true, not_and_or] at h
      simp [rd, BPS.minimumPatchSize, BPS.headerSize]
      intro h0 h1 h2 h3
      simp_all
    | [], _, hlen => simp [BPS.minimumPatchSize, BPS.headerSize] at hlen
    | [_], _, hlen => simp [BPS.minimumPatchSize, BPS.headerSize] at hlen
    | [_, _], _, hlen => simp [BPS.minimumPatchSize, BPS.headerSize] at hlen
    | [_, _, _], _, hlen => simp [BPS.minimumPatchSize, BPS.headerSize] at hlen

/-- With the magic in place and at least 8 bytes, `patchUPS` is its header reads
followed by the size test, the construction of the output and the checksums. -/
theorem patchUPS_good_magic (fuel : Nat) (data patch : List u8)
    (hlen : 8 ≤ patch.length) (h : patch.take 4 = magicUPS) :
    patchUPS fuel data patch = (do
      let (inputSize, patchOffset) ← UPS.readRunLength fuel patch 4 patch.length
      let (outputSize, patchOffset) ← UPS.readRunLength fuel patch patchOffset patch.length
      if data.length < inputSize then .ok ([], .SizeMismatch)
      else do
        let (output, patchOffset) ← patchUPS.build fuel data patch outputSize patchOffset
        checksums output patch patchOffset) := by
  unfold patchUPS
  match patch, h, hlen with
  | a :: b :: c :: d :: rest, h, hlen =>
    simp only [List.take, magicUPS, List.cons.injEq, and_true] at h
    obtain ⟨rfl, rfl, rfl, rfl⟩ := h
    have : ¬ (List.length ((0x55 : u8) :: 0x50 :: 0x53 :: 0x31 :: rest) < IPS.minimumPatchSize) := by
      simp only [IPS.minimumPatchSize, IPS.headerSize]; omega
    simp only [this, if_false]
    simp [rd, UPS.headerSize]
  | [], _, hlen => simp at hlen
  | [_], _, hlen => simp at hlen
  | [_, _], _, hlen => simp at hlen
  | [_, _, _], _, hlen => simp at hlen

/-- With the magic in place and at least 16 bytes, `patchBPS` is its header reads
followed by the size test, the construction of the output and the checksums. -/
theorem patchBPS_good_magic (fuel : Nat) (data patch : List u8)
    (hlen : 16 ≤ patch.length) (h : patch.take 4 = magicBPS) :
    patchBPS fuel data patch = (do
      let (inputSize, patchOffset) ← BPS.readRunLength fuel patch 4 patch.length
      let (outputSize, patchOffset) ← BPS.readRunLength fuel patch patchOffset patch.length
      let (_metadataSize, patchOffset) ← BPS.readRunLength fuel patch patchOffset patch.length
      if data.length < inputSize then .ok ([], .SizeMismatch)
      else do
        let (output, patchOffset) ← patchBPS.build fuel data patch outputSize patchOffset
        checksums output patch patchOffset) := by
  unfold patchBPS
  match patch, h, hlen with
  | a :: b :: c :: d :: rest, h, hlen =>
    simp only [List.take, magicBPS, List.cons.injEq, and_true] at h
    obtain ⟨rfl, rfl, rfl, rfl⟩ := h
    have : ¬ (List.length ((0x42 : u8) :: 0x50 :: 0x53 :: 0x31 :: rest) < BPS.minimumPatchSize) := by
      simp only [BPS.minimumPatchSize, BPS.headerSize]; omega
    simp only [this, if_false]
    simp [rd, BPS.headerSize]
  | [], _, hlen => simp at hlen
  | [_], _, hlen => simp at hlen
  | [_, _], _, hlen => simp at hlen
  | [_, _, _], _, hlen => simp at hlen

/-- C7: a patch whose leading bytes are not the magic of the format (in
particular a patch shorter than the magic) makes each of the three decoders
return an empty output with `InvalidPatch`, whatever the rest of the patch, the
source and the fuel. -/
theorem C7_bad_magic_invalid_patch (fuel : Nat) (data patch : List u8) :
    (patch.take 5 ≠ magicIPS → patchIPS fuel data patch = .ok ([], .InvalidPatch)) ∧
    (patch.take 4 ≠ magicUPS → patchUPS fuel data patch = .ok ([], .InvalidPatch)) ∧
    (patch.take 4 ≠ magicBPS → patchBPS fuel data patch = .ok ([], .InvalidPatch)) :=
  ⟨patchIPS_bad_magic fuel data patch, patchUPS_bad_magic fuel data patch,
   patchBPS_bad_magic fuel data patch⟩

theorem C7_bad_magic_invalid_patch_witness :
    patchIPS 0 [1, 2] (0x55 :: 0x50 :: 0x53 :: 0x32 :: List.replicate 20 0x80)
      = .ok ([], .InvalidPatch) ∧
    patchUPS 0 [1, 2] (0x55 :: 0x50 :: 0x53 :: 0x32 :: List.replicate 20 0x80)
      = .ok ([], .InvalidPatch) ∧
    patchBPS 0 [1, 2] (0x55 :: 0x50 :: 0x53 :: 0x32 :: List.replicate 20 0x80)
      = .ok ([], .InvalidPatch) :=
  ⟨(C7_bad_magic_invalid_patch 0 [1, 2] _).1 (by decide),
   (C7_bad_magic_invalid_patch 0 [1, 2] _).2.1 (by decide),
   (C7_bad_magic_invalid_patch 0 [1, 2] _).2.2 (by decide)⟩

end Magic

section FixedWidth

theorem beVal_lt (data : List u8) (start n : Nat) : beVal data start n < 2 ^ (8 * n) := by
  induction n with
  | zero => simp [beVal]
  | succ n ih =>
    have hb := (data.getD (start + n) 0).isLt
    have : 2 ^ (8 * (n + 1)) = 2 ^ (8 * n) * 256 := by
      rw [Nat.mul_add, Nat.pow_add]
    rw [this]
    simp only [beVal]
    nlinarith

theorem leVal_lt (data : List u8) (start n : Nat) : leVal data start n < 2 ^ (8 * n) := by
  induction n with
  | zero => simp [leVal]
  | succ n ih =>
    have hb := (data.getD (start + n) 0).isLt
    have h1 : 2 ^ (8 * (n + 1)) = 2 ^ (8 * n) * 256 := by
      rw [Nat.mul_add, Nat.pow_add]
    have h2 : (256 : Nat) ^ n = 2 ^ (8 * n) := by
      rw [Nat.pow_mul]
    rw [h1]
    simp only [leVal, h2]
    nlinarith

/-- The loop of `readBE` adds the bytes still to be read, scaled by the current
shift, to what it has accumulated. -/
theorem readBE_loop_eq (data : List u8) (offset : Nat) (hoff : offset ≤ data.length) :
    ∀ (n i ret : Nat), i + n ≤ offset → ret < 2 ^ (8 * i) →
    Detail.readBE.loop data offset n i ret (8 * i)
      = .ok (ret + 2 ^ (8 * i) * beVal data (offset - (i + n)) n) := by
  intro n
  induction n with
  | zero => intro i ret _ _; simp [Detail.readBE.loop, beVal]
  | succ n ih =>
    intro i ret hin hret
    have hidx : offset - (i + 1) < data.length := by omega
    have hb := (data.getD (offset - (i + 1)) 0).isLt
    unfold Detail.readBE.loop
    rw [rd_eq_ok hidx]
    simp only [bind_ok]
    have hor : ret ||| (data.getD (offset - (i + 1)) 0).val <<< (8 * i)
        = 2 ^ (8 * i) * (data.getD (offset - (i + 1)) 0).val + ret := by
      rw [Nat.shiftLeft_eq, Nat.or_comm, Nat.mul_comm]
      exact (Nat.mul_add_lt_is_or hret _).symm
    have hpow : 2 ^ (8 * (i + 1)) = 2 ^ (8 * i) * 256 := by
      rw [Nat.mul_add, Nat.pow_add]
    have hlt : 2 ^ (8 * i) * (data.getD (offset - (i + 1)) 0).val + ret < 2 ^ (8 * (i + 1)) := by
      rw [hpow]; nlinarith
    have h8 : 8 * i + 8 = 8 * (i + 1) := by ring
    rw [hor, h8, ih (i + 1) _ (by omega) hlt]
    have e1 : offset - (i + 1 + n) = offset - (i + (n + 1)) := by omega
    have e2 : offset - (i + (n + 1)) + n = offset - (i + 1) := by omega
    simp only [beVal, e1, e2, hpow]
    congr 1
    ring

/-- An in-bounds big-endian read returns the big-endian value of the bytes. -/
theorem readBE_eq (size : Nat) (data : List u8) (offset : Nat)
    (h : offset + size ≤ data.length) :
    Detail.readBE size data offset data.length = .ok (beVal data offset size, offset + size) := by
  unfold Detail.readBE
  have h1 : ¬ (offset + size > data.length) := by omega
  simp only [h1, if_false]
  have := readBE_loop_eq data (offset + size) h size 0 0 (by omega) (by simp)
  simp only [Nat.mul_zero, Nat.zero_add, Nat.pow_zero, Nat.one_mul, Nat.add_sub_cancel] at this
  rw [this]
  rfl

/-- An overrunning read returns 0 and still advances the cursor. -/
theorem readBE_overrun (size : Nat) (data : List u8) (offset : Nat)
    (h : data.length < offset + size) :
    Detail.readBE size data offset data.length = .ok (0, offset + size) := by
  unfold Detail.readBE
  simp [h]

/-- The loop of `readLE` adds the little-endian value of the bytes still to be
read to what it has accumulated in the higher bits. -/
theorem readLE_loop_eq (data : List u8) (offset size : Nat) (hoff : offset ≤ data.length)
    (hsize : size ≤ offset) :
    ∀ (n i a : Nat), i + n = size →
    Detail.readLE.loop data offset n i (2 ^ (8 * n) * a) (8 * (n - 1))
      = .ok (2 ^ (8 * n) * a + leVal data (offset - size) n) := by
  intro n
  induction n with
  | zero => intro i a _; simp [Detail.readLE.loop, leVal]
  | succ n ih =>
    intro i a hin
    have hidx : offset - (i + 1) < data.length := by omega
    have hb := (data.getD (offset - (i + 1)) 0).isLt
    unfold Detail.readLE.loop
    rw [rd_eq_ok hidx]
    simp only [bind_ok, Nat.add_sub_cancel]
    have hpow : 2 ^ (8 * (n + 1)) = 2 ^ (8 * n) * 256 := by
      rw [Nat.mul_add, Nat.pow_add]
    have h2 : (256 : Nat) ^ n = 2 ^ (8 * n) := by
      rw [Nat.pow_mul]
    have hlt : (data.getD (offset - (i + 1)) 0).val * 2 ^ (8 * n) < 2 ^ (8 * (n + 1)) := by
      rw [hpow]; nlinarith [Nat.two_pow_pos (8 * n)]
    have hor : 2 ^ (8 * (n + 1)) * a ||| (data.getD (offset - (i + 1)) 0).val <<< (8 * n)
        = 2 ^ (8 * n) * (256 * a + (data.getD (offset - (i + 1)) 0).val) := by
      rw [Nat.shiftLeft_eq, ← Nat.mul_add_lt_is_or hlt, hpow]
      ring
    have h8 : 8 * n - 8 = 8 * (n - 1) := by omega
    rw [hor, h8, ih (i + 1) _ (by omega)]
    have e2 : offset - size + n = offset - (i + 1) := by omega
    simp only [leVal, e2, hpow, h2]
    congr 1
    ring

/-- An in-bounds little-endian read returns the little-endian value of the bytes. -/
theorem readLE_eq (size : Nat) (data : List u8) (offset : Nat)
    (h : offset + size ≤ data.length) :
    Detail.readLE size data offset data.length = .ok (leVal data offset size, offset + size) := by
  unfold Detail.readLE
  have h1 : ¬ (offset + size > data.length) := by omega
  simp only [h1, if_false]
  have := readLE_loop_eq data (offset + size) size h (by omega) size 0 0 (by omega)
  simp only [Nat.mul_zero, Nat.zero_add, Nat.add_sub_cancel] at this
  rw [Nat.mul_comm (size - 1) 8, this]
  rfl

/-- An overrunning read returns 0 and still advances the cursor. -/
theorem readLE_overrun (size : Nat) (data : List u8) (offset : Nat)
    (h : data.length < offset + size) :
    Detail.readLE size data offset data.length = .ok (0, offset + size) := by
  unfold Detail.readLE
  simp [h]

/-- A fixed-width little-endian read with the true buffer size always returns. -/
theorem readLE_total (size : Nat) (data : List u8) (offset : Nat) :
    ∃ v, Detail.readLE size data offset data.length = .ok (v, offset + size) := by
  by_cases h : offset + size ≤ data.length
  · exact ⟨_, readLE_eq size data offset h⟩
  · exact ⟨_, readLE_overrun size data offset (by omega)⟩

/-- A fixed-width big-endian read with the true buffer size always returns. -/
theorem readBE_total (size : Nat) (data : List u8) (offset : Nat) :
    ∃ v, Detail.readBE size data offset data.length = .ok (v, offset + size) := by
  by_cases h : offset + size ≤ data.length
  · exact ⟨_, readBE_eq size data offset h⟩
  · exact ⟨_, readBE_overrun size data offset (by omega)⟩

end FixedWidth

section Checksums

/-- The final step returns the output it is given, with `Success` exactly when
the checksum read from the patch equals the CRC-32 of that output, and with
`ChecksumMismatch` otherwise. -/
theorem checksums_eq (output patch : List u8) (off : Nat) :
    ∃ crc, readOutputCRC patch off = .ok crc ∧
      checksums output patch off
        = .ok (output, if crc ≠ Detail.crc32 output then .ChecksumMismatch else .Success) := by
  obtain ⟨v1, h1⟩ := readLE_total 4 patch off
  obtain ⟨v2, h2⟩ := readLE_total 4 patch (off + 4)
  obtain ⟨v3, h3⟩ := readLE_total 4 patch (off + 4 + 4)
  refine ⟨v2, ?_, ?_⟩
  · simp [readOutputCRC, h1, h2]
  · simp only [checksums, h1, h2, h3, bind_ok]
    split <;> rfl

/-- When the checksums are read from `patchSize - 12`, the output checksum is the
value held in bytes `[patchSize - 8, patchSize - 4)`. -/
theorem readOutputCRC_aligned (patch : List u8) (off : Nat) (h : off + 12 = patch.length) :
    readOutputCRC patch off = .ok (storedOutputCRC patch) := by
  have h1 := readLE_eq 4 patch off (by omega)
  have h2 := readLE_eq 4 patch (off + 4) (by omega)
  have e : patch.length - 8 = off + 4 := by omega
  simp only [readOutputCRC, h1, h2, bind_ok, storedOutputCRC, le32At, e, leVal]
  congr 1
  simp

theorem checksums_result (output patch : List u8) (off : Nat) (out : List u8) (r : Result)
    (h : checksums output patch off = .ok (out, r)) :
    out = output ∧ r ≠ .SizeMismatch ∧ r ≠ .InvalidPatch ∧
    ∃ crc, readOutputCRC patch off = .ok crc ∧ (r = .Success ↔ Detail.crc32 out = crc) := by
  obtain ⟨crc, hc, he⟩ := checksums_eq output patch off
  rw [he] at h
  injection h with h
  injection h with ho hr
  subst ho
  by_cases hcrc : crc = Detail.crc32 output
  · simp only [hcrc, ne_eq, not_true_eq_false, if_false] at hr
    subst hr
    exact ⟨rfl, by decide, by decide, crc, hc, by simp [hcrc]⟩
  · simp only [ne_eq, hcrc, not_false_eq_true, if_true] at hr
    subst hr
    refine ⟨rfl, by decide, by decide, crc, hc, ?_⟩
    constructor
    · intro h; cases h
    · intro h; exact absurd h.symm hcrc

end Checksums

section Decompose

/-- Every return of `patchUPS` is the rejection of the header, the size
mismatch after the two header reads, or the result of the checksum step on the
output built. -/
theorem patchUPS_ok_cases (fuel : Nat) (data patch out : List u8) (r : Result)
    (h : patchUPS fuel data patch = .ok (out, r)) :
    (out = [] ∧ r = .InvalidPatch) ∨
    ∃ inputSize o1 outputSize o2,
      UPS.readRunLength fuel patch 4 patch.length = .ok (inputSize, o1) ∧
      UPS.readRunLength fuel patch o1 patch.length = .ok (outputSize, o2) ∧
      ((data.length < inputSize ∧ out = [] ∧ r = .SizeMismatch) ∨
       (inputSize ≤ data.length ∧ ∃ output off,
          patchUPS.build fuel data patch outputSize o2 = .ok (output, off) ∧
          checksums output patch off = .ok (out, r))) := by
  by_cases hm : patch.take 4 = magicUPS
  · by_cases hlen : 8 ≤ patch.length
    · rw [patchUPS_good_magic fuel data patch hlen hm] at h
      right
      cases h1 : UPS.readRunLength fuel patch 4 patch.length with
      | error e => simp [h1] at h
      | ok v =>
        obtain ⟨inputSize, o1⟩ := v
        simp only [h1, bind_ok] at h
        cases h2 : UPS.readRunLength fuel patch o1 patch.length with
        | error e => simp [h2] at h
        | ok v =>
          obtain ⟨outputSize, o2⟩ := v
          simp only [h2, bind_ok] at h
          refine ⟨inputSize, o1, outputSize, o2, rfl, h2, ?_⟩
          by_cases hs : data.length < inputSize
          · simp only [hs, if_true] at h
            injection h with h
            injection h with ho hr
            exact Or.inl ⟨hs, ho.symm, hr.symm⟩
          · simp only [hs, if_false] at h
            right
            refine ⟨by omega, ?_⟩
            cases h3 : patchUPS.build fuel data patch outputSize o2 with
            | error e => simp [h3] at h
            | ok v =>
              obtain ⟨output, off⟩ := v
              simp only [h3, bind_ok] at h
              exact ⟨output, off, rfl, h⟩
    · left
      have : patch.length < IPS.minimumPatchSize := by
        simp only [IPS.minimumPatchSize, IPS.headerSize]; omega
      simp only [patchUPS, this, if_true] at h
      injection h with h
      injection h with ho hr
      exact ⟨ho.symm, hr.symm⟩
  · left
    rw [patchUPS_bad_magic fuel data patch hm] at h
    injection h with h
    injection h with ho hr
    exact ⟨ho.symm, hr.symm⟩

/-- Every return of `patchBPS` is the rejection of the header, the size
mismatch after the three header reads, or the result of the checksum step on the
output built. -/
theorem patchBPS_ok_cases (fuel : Nat) (data patch out : List u8) (r : Result)
    (h : patchBPS fuel data patch = .ok (out, r)) :
    (out = [] ∧ r = .InvalidPatch) ∨
    ∃ inputSize o1 outputSize o2 metadataSize o3,
      BPS.readRunLength fuel patch 4 patch.length = .ok (inputSize, o1) ∧
      BPS.readRunLength fuel patch o1 patch.length = .ok (outputSize, o2) ∧
      BPS.readRunLength fuel patch o2 patch.length = .ok (metadataSize, o3) ∧
      ((data.length < inputSize ∧ out = [] ∧ r = .SizeMismatch) ∨
       (inputSize ≤ data.length ∧ ∃ output off,
          patchBPS.build fuel data patch outputSize o3 = .ok (output, off) ∧
          checksums output patch off = .ok (out, r))) := by
  by_cases hm : patch.take 4 = magicBPS
  · by_cases hlen : 16 ≤ patch.length
    · rw [patchBPS_good_magic fuel data patch hlen hm] at h
      right
      cases h1 : BPS.readRunLength fuel patch 4 patch.length with
      | error e => simp [h1] at h
      | ok v =>
        obtain ⟨inputSize, o1⟩ := v
        simp only [h1, bind_ok] at h
        cases h2 : BPS.readRunLength fuel patch o1 patch.length with
        | error e => simp [h2] at h
        | ok v =>
          obtain ⟨outputSize, o2⟩ := v
          simp only [h2, bind_ok] at h
          cases h2b : BPS.readRunLength fuel patch o2 patch.length with
          | error e => simp [h2b] at h
          | ok v =>
            obtain ⟨metadataSize, o3⟩ := v
            simp only [h2b, bind_ok] at h
            refine ⟨inputSize, o1, outputSize, o2, metadataSize, o3, rfl, h2, h2b, ?_⟩
            by_cases hs : data.length < inputSize
            · simp only [hs, if_true] at h
              injection h with h
              injection h with ho hr
              exact Or.inl ⟨hs, ho.symm, hr.symm⟩
            · simp only [hs, if_false] at h
              right
              refine ⟨by omega, ?_⟩
              cases h3 : patchBPS.build fuel data patch outputSize o3 with
              | error e => simp [h3] at h
              | ok v =>
                obtain ⟨output, off⟩ := v
                simp only [h3, bind_ok] at h
                exact ⟨output, off, rfl, h⟩
    · left
      have : patch.length < BPS.minimumPatchSize := by
        simp only [BPS.minimumPatchSize, BPS.headerSize]; omega
      simp only [patchBPS, this, if_true] at h
      injection h with h
      injection h with ho hr
      exact ⟨ho.symm, hr.symm⟩
  · left
    rw [patchBPS_bad_magic fuel data patch hm] at h
    injection h with h
    injection h with ho hr
    exact ⟨ho.symm, hr.symm⟩

end Decompose

section ChecksumClaims

/-- C3 (as stated, refuted): on the 19-byte patch `misalignedUPS` the run-length
read of the main loop ends one byte past `patchSize - 12`; `patchUPS` returns the
empty output with `Success`, although the CRC-32 of that output (0) differs from
the value held in patch bytes `[patchSize - 8, patchSize - 4)` (1). -/
theorem C3_success_with_other_stored_crc :
    (∀ n, patchUPS (n + 2) [] misalignedUPS = .ok ([], .Success)) ∧
    Detail.crc32 [] ≠ storedOutputCRC misalignedUPS :=
  ⟨fun _ => rfl, by decide⟩

/-- C3 (amended): when `patchUPS` or `patchBPS` returns `Success` or
`ChecksumMismatch`, the header run lengths were read, the output returned is the
one built, and with `off` the patch offset reached when the output is complete
and `crc` the second 4-byte little-endian read from `off` on, the result is
`Success` exactly when the CRC-32 of the output equals `crc`; when
`off = patchSize - 12` that value is the one held in patch bytes
`[patchSize - 8, patchSize - 4)`. -/
theorem C3_output_crc_decides_result (fuel : Nat) (data patch out : List u8) (r : Result)
    (hr : r = .Success ∨ r = .ChecksumMismatch) :
    (patchUPS fuel data patch = .ok (out, r) →
      ∃ inputSize o1 outputSize o2 off crc,
        UPS.readRunLength fuel patch 4 patch.length = .ok (inputSize, o1) ∧
        UPS.readRunLength fuel patch o1 patch.length = .ok (outputSize, o2) ∧
        patchUPS.build fuel data patch outputSize o2 = .ok (out, off) ∧
        readOutputCRC patch off = .ok crc ∧
        (r = .Success ↔ Detail.crc32 out = crc) ∧
        (off + 12 = patch.length → crc = storedOutputCRC patch)) ∧
    (patchBPS fuel data patch = .ok (out, r) →
      ∃ inputSize o1 outputSize o2 metadataSize o3 off crc,
        BPS.readRunLength fuel patch 4 patch.length = .ok (inputSize, o1) ∧
        BPS.readRunLength fuel patch o1 patch.length = .ok (outputSize, o2) ∧
        BPS.readRunLength fuel patch o2 patch.length = .ok (metadataSize, o3) ∧
        patchBPS.build fuel data patch outputSize o3 = .ok (out, off) ∧
        readOutputCRC patch off = .ok crc ∧
        (r = .Success ↔ Detail.crc32 out = crc) ∧
        (off + 12 = patch.length → crc = storedOutputCRC patch)) := by
  constructor
  · intro h
    rcases patchUPS_ok_cases fuel data patch out r h with ⟨_, h1⟩ | ⟨i, o1, o, o2, hi, ho, h2⟩
    · rcases hr with hr | hr <;> rw [hr] at h1 <;> cases h1
    · rcases h2 with ⟨_, _, h1⟩ | ⟨_, output, off, hb, hc⟩
      · rcases hr with hr | hr <;> rw [hr] at h1 <;> cases h1
      · obtain ⟨rfl, _, _, crc, hcrc, hiff⟩ := checksums_result output patch off out r hc
        refine ⟨i, o1, o, o2, off, crc, hi, ho, hb, hcrc, hiff, ?_⟩
        intro hoff
        rw [readOutputCRC_aligned patch off hoff] at hcrc
        injection hcrc with hcrc
        exact hcrc.symm
  · intro h
    rcases patchBPS_ok_cases fuel data patch out r h with
      ⟨_, h1⟩ | ⟨i, o1, o, o2, m, o3, hi, ho, hm, h2⟩
    · rcases hr with hr | hr <;> rw [hr] at h1 <;> cases h1
    · rcases h2 with ⟨_, _, h1⟩ | ⟨_, output, off, hb, hc⟩
      · rcases hr with hr | hr <;> rw [hr] at h1 <;> cases h1
      · obtain ⟨rfl, _, _, crc, hcrc, hiff⟩ := checksums_result output patch off out r hc
        refine ⟨i, o1, o, o2, m, o3, off, crc, hi, ho, hm, hb, hcrc, hiff, ?_⟩
        intro hoff
        rw [readOutputCRC_aligned patch off hoff] at hcrc
        injection hcrc with hcrc
        exact hcrc.symm

theorem C3_output_crc_decides_result_witness :
    (∃ inputSize o1 outputSize o2 off crc,
        UPS.readRunLength 5 sampleUPS 4 sampleUPS.length = .ok (inputSize, o1) ∧
        UPS.readRunLength 5 sampleUPS o1 sampleUPS.length = .ok (outputSize, o2) ∧
        patchUPS.build 5 [1, 2, 3, 4] sampleUPS outputSize o2 = .ok ([1, 0x13, 0x21, 4], off) ∧
        readOutputCRC sampleUPS off = .ok crc ∧
        (Result.Success = .Success ↔ Detail.crc32 [1, 0x13, 0x21, 4] = crc) ∧
        (off + 12 = sampleUPS.length → crc = storedOutputCRC sampleUPS)) ∧
    (∃ inputSize o1 outputSize o2 metadataSize o3 off crc,
        BPS.readRunLength 5 (metadataBPS 0x80) 4 (metadataBPS 0x80).length = .ok (inputSize, o1) ∧
        BPS.readRunLength 5 (metadataBPS 0x80) o1 (metadataBPS 0x80).length
          = .ok (outputSize, o2) ∧
        BPS.readRunLength 5 (metadataBPS 0x80) o2 (metadataBPS 0x80).length
          = .ok (metadataSize, o3) ∧
        patchBPS.build 5 [] (metadataBPS 0x80) outputSize o3 = .ok ([0x41], off) ∧
        readOutputCRC (metadataBPS 0x80) off = .ok crc ∧
        (Result.Success = .Success ↔ Detail.crc32 [0x41] = crc) ∧
        (off + 12 = (metadataBPS 0x80).length → crc = storedOutputCRC (metadataBPS 0x80))) :=
  ⟨(C3_output_crc_decides_result 5 [1, 2, 3, 4] sampleUPS [1, 0x13, 0x21, 4] .Success
      (Or.inl rfl)).1 rfl,
   (C3_output_crc_decides_result 5 [] (metadataBPS 0x80) [0x41] .Success (Or.inl rfl)).2 rfl⟩

/-- C8: for a UPS patch of at least 18 bytes, or a BPS patch of at least 16
bytes, with the right magic and header run lengths that are read to their end:
a source shorter than the declared input size gives an empty output with
`SizeMismatch`, and a source at least as long never gives `SizeMismatch`. -/
theorem C8_size_mismatch (fuel : Nat) (data patch : List u8) :
    (∀ inputSize o1 outputSize o2,
      UPS.minimumPatchSize ≤ patch.length → patch.take 4 = magicUPS →
      UPS.readRunLength fuel patch 4 patch.length = .ok (inputSize, o1) →
      UPS.readRunLength fuel patch o1 patch.length = .ok (outputSize, o2) →
      (data.length < inputSize → patchUPS fuel data patch = .ok ([], .SizeMismatch)) ∧
      (inputSize ≤ data.length → ∀ out, patchUPS fuel data patch ≠ .ok (out, .SizeMismatch))) ∧
    (∀ inputSize o1 outputSize o2 metadataSize o3,
      BPS.minimumPatchSize ≤ patch.length → patch.take 4 = magicBPS →
      BPS.readRunLength fuel patch 4 patch.length = .ok (inputSize, o1) →
      BPS.readRunLength fuel patch o1 patch.length = .ok (outputSize, o2) →
      BPS.readRunLength fuel patch o2 patch.length = .ok (metadataSize, o3) →
      (data.length < inputSize → patchBPS fuel data patch = .ok ([], .SizeMismatch)) ∧
      (inputSize ≤ data.length → ∀ out, patchBPS fuel data patch ≠ .ok (out, .SizeMismatch))) := by
  constructor
  · intro inputSize o1 outputSize o2 hlen hm h1 h2
    have hlen8 : 8 ≤ patch.length := by
      simp only [UPS.minimumPatchSize] at hlen; omega
    constructor
    · intro hs
      rw [patchUPS_good_magic fuel data patch hlen8 hm]
      simp [h1, h2, hs]
    · intro hs out h
      rcases patchUPS_ok_cases fuel data patch out _ h with ⟨_, hr⟩ | ⟨i, p1, o, p2, hi, _, h3⟩
      · cases hr
      · rw [h1] at hi
        injection hi with hi
        injection hi with hi _
        subst hi
        rcases h3 with ⟨hlt, _, _⟩ | ⟨_, output, off, _, hc⟩
        · omega
        · exact (checksums_result output patch off out _ hc).2.1 rfl
  · intro inputSize o1 outputSize o2 metadataSize o3 hlen hm h1 h2 h3
    have hlen16 : 16 ≤ patch.length := by
      simp only [BPS.minimumPatchSize, BPS.headerSize] at hlen; omega
    constructor
    · intro hs
      rw [patchBPS_good_magic fuel data patch hlen16 hm]
      simp [h1, h2, h3, hs]
    · intro hs out h
      rcases patchBPS_ok_cases fuel data patch out _ h with
        ⟨_, hr⟩ | ⟨i, p1, o, p2, m, p3, hi, _, _, h4⟩
      · cases hr
      · rw [h1] at hi
        injection hi with hi
        injection hi with hi _
        subst hi
        rcases h4 with ⟨hlt, _, _⟩ | ⟨_, output, off, _, hc⟩
        · omega
        · exact (checksums_result output patch off out _ hc).2.1 rfl

theorem C8_size_mismatch_witness :
    (patchUPS 1 [1, 2] sampleUPS = .ok ([], .SizeMismatch) ∧
      ∀ out, patchUPS 1 [1, 2, 3, 4, 5] sampleUPS ≠ .ok (out, .SizeMismatch)) ∧
    (patchBPS 1 [1] sampleBPS = .ok ([], .SizeMismatch) ∧
      ∀ out, patchBPS 1 [1, 2, 3] sampleBPS ≠ .ok (out, .SizeMismatch)) :=
  ⟨⟨((C8_size_mismatch 1 [1, 2] sampleUPS).1 4 5 4 6 (by decide) rfl rfl rfl).1 (by decide),
    ((C8_size_mismatch 1 [1, 2, 3, 4, 5] sampleUPS).1 4 5 4 6 (by decide) rfl rfl rfl).2
      (by decide)⟩,
   ⟨((C8_size_mismatch 1 [1] sampleBPS).2 2 5 0 6 0 7 (by decide) rfl rfl rfl rfl).1
      (by decide),
    ((C8_size_mismatch 1 [1, 2, 3] sampleBPS).2 2 5 0 6 0 7 (by decide) rfl rfl rfl rfl).2
      (by decide)⟩⟩

end ChecksumClaims

section IPSWellFormed

theorem beVal_append_left (pre rest : List u8) (s n : Nat) :
    beVal (pre ++ rest) (pre.length + s) n = beVal rest s n := by
  induction n with
  | zero => rfl
  | succ n ih =>
    simp only [beVal, ih]
    have : (pre ++ rest).getD (pre.length + s + n) 0 = rest.getD (s + n) 0 := by
      simp only [List.getD_eq_getElem?_getD]
      rw [List.getElem?_append_right (by omega)]
      congr 2
      omega
    rw [this]

theorem beVal_be3 (n : Nat) (h : n < 16777216) (rest : List u8) :
    beVal (be3 n ++ rest) 0 3 = n := by
  simp [beVal, be3, Fin.ofNat]
  omega

theorem beVal_be2 (n : Nat) (h : n < 65536) (rest : List u8) :
    beVal (be2 n ++ rest) 0 2 = n := by
  simp [beVal, be2, Fin.ofNat]
  omega

theorem beVal_one (b : u8) (rest : List u8) : beVal (b :: rest) 0 1 = b.val := by
  simp [beVal]

/-- A big-endian read of the bytes `bs` that follow the prefix `pre`. -/
theorem read_at_prefix (k : Nat) (pre bs rest : List u8) (hk : bs.length = k) :
    IPS.read k (pre ++ (bs ++ rest)) pre.length (pre ++ (bs ++ rest)).length
      = .ok (beVal (bs ++ rest) 0 k, pre.length + k) := by
  unfold IPS.read
  rw [readBE_eq k _ _ (by simp; omega)]
  have := beVal_append_left pre (bs ++ rest) 0 k
  simp only [Nat.add_zero] at this
  rw [this]

end IPSWellFormed

section IPSGetSize

theorem be3_length (n : Nat) : (be3 n).length = 3 := rfl

theorem be2_length (n : Nat) : (be2 n).length = 2 := rfl

theorem encode_length_literal (offset : Nat) (data : List u8) :
    (IPSRecord.literal offset data).encode.length = 5 + data.length := by
  simp [IPSRecord.encode, be3_length, be2_length]; omega

theorem encode_length_rle (offset count : Nat) (value : u8) :
    (IPSRecord.rle offset count value).encode.length = 8 := by
  simp [IPSRecord.encode, be3_length, be2_length]

/-- On a well-formed record stream that starts after the prefix `pre`, the loop
of `getSize` walks through all records to the end of "EOF" and returns the
maximum of the accumulator and the record ends. -/
theorem getSize_loop_records (foot : List u8) :
    ∀ (recs : List IPSRecord) (pre : List u8) (acc fuel : Nat),
    (∀ r ∈ recs, r.WellFormed) → recs.length < fuel →
    IPS.getSize.loop (pre ++ (encodeRecords recs ++ (be3 0x454F46 ++ foot)))
        (pre ++ (encodeRecords recs ++ (be3 0x454F46 ++ foot))).length fuel acc pre.length
      = .ok (max acc (maxEnd recs), pre.length + (encodeRecords recs).length + 3) := by
  intro recs
  induction recs with
  | nil =>
    intro pre acc fuel _ hfuel
    obtain ⟨f, rfl⟩ : ∃ f, fuel = f + 1 := ⟨fuel - 1, by simp at hfuel; omega⟩
    simp only [encodeRecords, List.nil_append]
    unfold IPS.getSize.loop
    have hlt : pre.length < (pre ++ (be3 0x454F46 ++ foot)).length := by
      simp only [List.length_append, be3_length]; omega
    rw [if_pos hlt, read_at_prefix 3 pre (be3 0x454F46) foot rfl,
      beVal_be3 _ (by decide)]
    simp [IPS.endOfFile, maxEnd]
  | cons r rs ih =>
    intro pre acc fuel hwf hfuel
    obtain ⟨f, rfl⟩ : ∃ f, fuel = f + 1 := ⟨fuel - 1, by simp at hfuel; omega⟩
    have hwfr := hwf r (by simp)
    have hwfrs : ∀ r ∈ rs, r.WellFormed := fun x hx => hwf x (by simp [hx])
    have hf : rs.length < f := by simp at hfuel; omega
    cases r with
    | literal off data =>
      obtain ⟨hoff, hne, hpos, hlen⟩ := hwfr
      generalize hR : encodeRecords rs ++ (be3 0x454F46 ++ foot) = R at *
      have hP1 : pre ++ (encodeRecords (IPSRecord.literal off data :: rs) ++ (be3 0x454F46 ++ foot))
          = pre ++ (be3 off ++ (be2 data.length ++ (data ++ R))) := by
        simp [encodeRecords, IPSRecord.encode, ← hR]
      have hP2 : pre ++ (be3 off ++ (be2 data.length ++ (data ++ R)))
          = (pre ++ be3 off) ++ (be2 data.length ++ (data ++ R)) := by simp
      have hP3 : pre ++ (be3 off ++ (be2 data.length ++ (data ++ R)))
          = (pre ++ (IPSRecord.literal off data).encode) ++ R := by
        simp [IPSRecord.encode]
      rw [hP1]
      unfold IPS.getSize.loop
      have hlt : pre.length < (pre ++ (be3 off ++ (be2 data.length ++ (data ++ R)))).length := by
        simp only [List.length_append, be3_length]; omega
      rw [if_pos hlt, read_at_prefix 3 pre (be3 off) _ rfl, beVal_be3 _ hoff]
      simp only [bind_ok, IPS.endOfFile, hne, if_false]
      have h2 := read_at_prefix 2 (pre ++ be3 off) (be2 data.length) (data ++ R) rfl
      rw [← hP2] at h2
      simp only [List.length_append, be3_length] at h2 ⊢
      rw [h2, beVal_be2 _ hlen]
      have hne0 : data.length ≠ 0 := by omega
      simp only [bind_ok, hne0, if_false]
      have h3 := ih (pre ++ (IPSRecord.literal off data).encode)
        (max acc (off + data.length)) f hwfrs hf
      rw [← hP3] at h3
      simp only [List.length_append, encode_length_literal, be3_length, be2_length] at h3 ⊢
      have e1 : pre.length + 3 + 2 + data.length = pre.length + (5 + data.length) := by omega
      rw [e1, h3]
      simp only [maxEnd, IPSRecord.offset, IPSRecord.length, IPSRecord.bytes, encodeRecords,
        List.length_append, encode_length_literal, Nat.max_assoc]
      congr 2
      omega
    | rle off count value =>
      obtain ⟨hoff, hne, hcount⟩ := hwfr
      generalize hR : encodeRecords rs ++ (be3 0x454F46 ++ foot) = R at *
      have hP1 : pre ++ (encodeRecords (IPSRecord.rle off count value :: rs)
            ++ (be3 0x454F46 ++ foot))
          = pre ++ (be3 off ++ (be2 0 ++ (be2 count ++ (value :: R)))) := by
        simp [encodeRecords, IPSRecord.encode, ← hR]
      have hP2 : pre ++ (be3 off ++ (be2 0 ++ (be2 count ++ (value :: R))))
          = (pre ++ be3 off) ++ (be2 0 ++ (be2 count ++ (value :: R))) := by simp
      have hP2b : pre ++ (be3 off ++ (be2 0 ++ (be2 count ++ (value :: R))))
          = (pre ++ (be3 off ++ be2 0)) ++ (be2 count ++ (value :: R)) := by simp
      have hP3 : pre ++ (be3 off ++ (be2 0 ++ (be2 count ++ (value :: R))))
          = (pre ++ (IPSRecord.rle off count value).encode) ++ R := by
        simp [IPSRecord.encode]
      rw [hP1]
      unfold IPS.getSize.loop
      have hlt : pre.length
          < (pre ++ (be3 off ++ (be2 0 ++ (be2 count ++ (value :: R))))).length := by
        simp only [List.length_append, be3_length]; omega
      rw [if_pos hlt, read_at_prefix 3 pre (be3 off) _ rfl, beVal_be3 _ hoff]
      simp only [bind_ok, IPS.endOfFile, hne, if_false]
      have h2 := read_at_prefix 2 (pre ++ be3 off) (be2 0) (be2 count ++ (value :: R)) rfl
      rw [← hP2] at h2
      simp only [List.length_append, be3_length] at h2 ⊢
      rw [h2, beVal_be2 _ (by decide)]
      simp only [bind_ok, if_true]
      have h2b := read_at_prefix 2 (pre ++ (be3 off ++ be2 0)) (be2 count) (value :: R) rfl
      rw [← hP2b] at h2b
      simp only [List.length_append, be3_length, be2_length] at h2b ⊢
      have e0 : pre.length + 3 + 2 = pre.length + (3 + 2) := by omega
      rw [e0, h2b, beVal_be2 _ hcount]
      simp only [bind_ok]
      have h3 := ih (pre ++ (IPSRecord.rle off count value).encode)
        (max acc (off + count)) f hwfrs hf
      rw [← hP3] at h3
      simp only [List.length_append, encode_length_rle, be3_length, be2_length] at h3 ⊢
      have e1 : pre.length + (3 + 2) + 2 + 1 = pre.length + 8 := by omega
      rw [e1, h3]
      simp only [maxEnd, IPSRecord.offset, IPSRecord.length, IPSRecord.bytes, encodeRecords,
        List.length_append, encode_length_rle, Nat.max_assoc, List.length_replicate]
      congr 2
      omega

end IPSGetSize

section IPSApply

@[simp] theorem writeAt_length (bs : List u8) : ∀ (output : List u8) (pos : Nat),
    (writeAt output pos bs).length = output.length := by
  induction bs with
  | nil => intro output pos; rfl
  | cons b bs ih => intro output pos; simp [writeAt, ih]

@[simp] theorem applyRecord_length (output : List u8) (r : IPSRecord) :
    (applyRecord output r).length = output.length := by
  simp [applyRecord]

theorem foldl_applyRecord_length (recs : List IPSRecord) : ∀ (output : List u8),
    (recs.foldl applyRecord output).length = output.length := by
  induction recs with
  | nil => intro output; rfl
  | cons r rs ih => intro output; simp [ih]

end IPSApply
section IPSApply2

/-- Within the output, the RLE loop assigns the fill byte to the whole run. -/
theorem rleLoop_eq (fileOffset : Nat) (value : u8) :
    ∀ (n i : Nat) (output : List u8), fileOffset + i + n ≤ output.length →
    patchIPS.rleLoop fileOffset value n i output
      = .ok (writeAt output (fileOffset + i) (List.replicate n value)) := by
  intro n
  induction n with
  | zero => intro i output _; rfl
  | succ n ih =>
    intro i output h
    unfold patchIPS.rleLoop
    have h1 : ¬ (fileOffset + i ≥ output.length) := by omega
    have h2 : fileOffset + i < output.length := by omega
    rw [if_neg h1]
    simp only [wr, h2, if_true, bind_ok]
    rw [ih (i + 1) _ (by rw [List.length_set]; omega)]
    rw [List.replicate_succ, writeAt, Nat.add_assoc]

end IPSApply2
section IPSApply3

theorem ofNat_val (b : u8) : (Fin.ofNat b.val : u8) = b := by
  apply Fin.ext
  show b.val % 256 = b.val
  exact Nat.mod_eq_of_lt b.isLt

theorem wr_eq_ok {buf : List u8} {i : Nat} (v : u8) (h : i < buf.length) :
    wr buf i v = .ok (buf.set i v) := by
  simp [wr, h]

/-- Within the output, the literal loop assigns the data bytes `bs` that follow
the prefix `pre` in the patch, and leaves the patch offset behind them. -/
theorem copyLoop_eq (fileOffset : Nat) (rest : List u8) :
    ∀ (bs pre : List u8) (i : Nat) (output : List u8),
    fileOffset + i + bs.length ≤ output.length →
    patchIPS.copyLoop (pre ++ (bs ++ rest)) (pre ++ (bs ++ rest)).length fileOffset
        bs.length i output pre.length
      = .ok (writeAt output (fileOffset + i) bs, pre.length + bs.length) := by
  intro bs
  induction bs with
  | nil => intro pre i output _; rfl
  | cons b bs ih =>
    intro pre i output h
    rw [List.length_cons] at h
    have h1 : ¬ (fileOffset + i ≥ output.length) := by omega
    have h2 : fileOffset + i < output.length := by omega
    have hr := read_at_prefix 1 pre [b] (bs ++ rest) rfl
    rw [List.singleton_append, beVal_one] at hr
    have hP : pre ++ (b :: (bs ++ rest)) = (pre ++ [b]) ++ (bs ++ rest) := by simp
    have h3 := ih (pre ++ [b]) (i + 1) (output.set (fileOffset + i) b)
      (by rw [List.length_set]; omega)
    rw [← hP] at h3
    have hl : (pre ++ [b]).length = pre.length + 1 := by simp
    rw [hl] at h3
    show patchIPS.copyLoop (pre ++ (b :: (bs ++ rest))) (pre ++ (b :: (bs ++ rest))).length
      fileOffset (bs.length + 1) i output pre.length = _
    unfold patchIPS.copyLoop
    rw [if_neg h1, hr]
    simp only [bind_ok, ofNat_val]
    rw [wr_eq_ok _ h2]
    simp only [bind_ok]
    have e1 : fileOffset + (i + 1) = fileOffset + i + 1 := by omega
    have e2 : pre.length + 1 + bs.length = pre.length + (bs.length + 1) := by omega
    rw [h3, e1, e2]
    rfl

end IPSApply3

section IPSApply4

/-- On a well-formed record stream that starts after the prefix `pre`, and an
output that contains every record range, the record loop of `patchIPS` applies
the records in order. -/
theorem patchIPS_loop_records (foot : List u8) :
    ∀ (recs : List IPSRecord) (pre output : List u8) (fuel : Nat),
    (∀ r ∈ recs, r.WellFormed) → recs.length < fuel →
    (∀ r ∈ recs, r.offset + r.length ≤ output.length) →
    patchIPS.loop (pre ++ (encodeRecords recs ++ (be3 0x454F46 ++ foot)))
        (pre ++ (encodeRecords recs ++ (be3 0x454F46 ++ foot))).length fuel output pre.length
      = .ok (recs.foldl applyRecord output) := by
  intro recs
  induction recs with
  | nil =>
    intro pre output fuel _ hfuel _
    obtain ⟨f, rfl⟩ : ∃ f, fuel = f + 1 := ⟨fuel - 1, by simp at hfuel; omega⟩
    simp only [encodeRecords, List.nil_append]
    unfold patchIPS.loop
    have hlt : pre.length < (pre ++ (be3 0x454F46 ++ foot)).length := by
      simp only [List.length_append, be3_length]; omega
    rw [if_pos hlt, read_at_prefix 3 pre (be3 0x454F46) foot rfl,
      beVal_be3 _ (by decide)]
    simp [IPS.endOfFile]
  | cons r rs ih =>
    intro pre output fuel hwf hfuel hfit
    obtain ⟨f, rfl⟩ : ∃ f, fuel = f + 1 := ⟨fuel - 1, by simp at hfuel; omega⟩
    have hwfr := hwf r (by simp)
    have hwfrs : ∀ r ∈ rs, r.WellFormed := fun x hx => hwf x (by simp [hx])
    have hf : rs.length < f := by simp at hfuel; omega
    have hfitr := hfit r (by simp)
    have hfitrs : ∀ x ∈ rs, x.offset + x.length ≤ (applyRecord output r).length :=
      fun x hx => by rw [applyRecord_length]; exact hfit x (by simp [hx])
    cases r with
    | literal off data =>
      obtain ⟨hoff, hne, hpos, hlen⟩ := hwfr
      generalize hR : encodeRecords rs ++ (be3 0x454F46 ++ foot) = R at *
      have hP1 : pre ++ (encodeRecords (IPSRecord.literal off data :: rs) ++ (be3 0x454F46 ++ foot))
          = pre ++ (be3 off ++ (be2 data.length ++ (data ++ R))) := by
        simp [encodeRecords, IPSRecord.encode, ← hR]
      have hP2 : pre ++ (be3 off ++ (be2 data.length ++ (data ++ R)))
          = (pre ++ be3 off) ++ (be2 data.length ++ (data ++ R)) := by simp
      have hP2b : pre ++ (be3 off ++ (be2 data.length ++ (data ++ R)))
          = (pre ++ (be3 off ++ be2 data.length)) ++ (data ++ R) := by simp
      have hP3 : pre ++ (be3 off ++ (be2 data.length ++ (data ++ R)))
          = (pre ++ (IPSRecord.literal off data).encode) ++ R := by
        simp [IPSRecord.encode]
      rw [hP1]
      unfold patchIPS.loop
      have hlt : pre.length < (pre ++ (be3 off ++ (be2 data.length ++ (data ++ R)))).length := by
        simp only [List.length_append, be3_length]; omega
      rw [if_pos hlt, read_at_prefix 3 pre (be3 off) _ rfl, beVal_be3 _ hoff]
      simp only [bind_ok, IPS.endOfFile, hne, if_false]
      have h2 := read_at_prefix 2 (pre ++ be3 off) (be2 data.length) (data ++ R) rfl
      rw [← hP2] at h2
      simp only [List.length_append, be3_length] at h2 ⊢
      rw [h2, beVal_be2 _ hlen]
      have hne0 : data.length ≠ 0 := by omega
      simp only [bind_ok, hne0, if_false]
      have hc := copyLoop_eq off R data (pre ++ (be3 off ++ be2 data.length)) 0 output
        (by simpa [IPSRecord.offset, IPSRecord.length, IPSRecord.bytes] using hfitr)
      rw [← hP2b] at hc
      simp only [List.length_append, be3_length, be2_length, Nat.add_zero] at hc ⊢
      have e0 : pre.length + 3 + 2 = pre.length + (3 + 2) := by omega
      rw [e0, hc]
      simp only [bind_ok]
      have h3 := ih (pre ++ (IPSRecord.literal off data).encode)
        (applyRecord output (IPSRecord.literal off data)) f hwfrs hf hfitrs
      rw [← hP3] at h3
      simp only [List.length_append, encode_length_literal, be3_length, be2_length] at h3 ⊢
      have e1 : pre.length + (3 + 2) + data.length = pre.length + (5 + data.length) := by omega
      rw [e1]
      exact h3
    | rle off count value =>
      obtain ⟨hoff, hne, hcount⟩ := hwfr
      generalize hR : encodeRecords rs ++ (be3 0x454F46 ++ foot) = R at *
      have hP1 : pre ++ (encodeRecords (IPSRecord.rle off count value :: rs)
            ++ (be3 0x454F46 ++ foot))
          = pre ++ (be3 off ++ (be2 0 ++ (be2 count ++ (value :: R)))) := by
        simp [encodeRecords, IPSRecord.encode, ← hR]
      have hP2 : pre ++ (be3 off ++ (be2 0 ++ (be2 count ++ (value :: R))))
          = (pre ++ be3 off) ++ (be2 0 ++ (be2 count ++ (value :: R))) := by simp
      have hP2b : pre ++ (be3 off ++ (be2 0 ++ (be2 count ++ (value :: R))))
          = (pre ++ (be3 off ++ be2 0)) ++ (be2 count ++ (value :: R)) := by simp
      have hP2c : pre ++ (be3 off ++ (be2 0 ++ (be2 count ++ (value :: R))))
          = (pre ++ (be3 off ++ (be2 0 ++ be2 count))) ++ ([value] ++ R) := by simp
      have hP3 : pre ++ (be3 off ++ (be2 0 ++ (be2 count ++ (value :: R))))
          = (pre ++ (IPSRecord.rle off count value).encode) ++ R := by
        simp [IPSRecord.encode]
      rw [hP1]
      unfold patchIPS.loop
      have hlt : pre.length
          < (pre ++ (be3 off ++ (be2 0 ++ (be2 count ++ (value :: R))))).length := by
        simp only [List.length_append, be3_length]; omega
      rw [if_pos hlt, read_at_prefix 3 pre (be3 off) _ rfl, beVal_be3 _ hoff]
      simp only [bind_ok, IPS.endOfFile, hne, if_false]
      have h2 := read_at_prefix 2 (pre ++ be3 off) (be2 0) (be2 count ++ (value :: R)) rfl
      rw [← hP2] at h2
      simp only [List.length_append, be3_length] at h2 ⊢
      rw [h2, beVal_be2 _ (by decide)]
      simp only [bind_ok, if_true]
      have h2b := read_at_prefix 2 (pre ++ (be3 off ++ be2 0)) (be2 count) (value :: R) rfl
      rw [← hP2b] at h2b
      simp only [List.length_append, be3_length, be2_length] at h2b ⊢
      have e0 : pre.length + 3 + 2 = pre.length + (3 + 2) := by omega
      rw [e0, h2b, beVal_be2 _ hcount]
      simp only [bind_ok]
      have h2c := read_at_prefix 1 (pre ++ (be3 off ++ (be2 0 ++ be2 count))) [value] R rfl
      rw [← hP2c] at h2c
      simp only [List.length_append, be3_length, be2_length, List.singleton_append,
        beVal_one] at h2c ⊢
      have e0b : pre.length + (3 + 2) + 2 = pre.length + (3 + (2 + 2)) := by omega
      rw [e0b, h2c]
      simp only [bind_ok, ofNat_val]
      have hrl := rleLoop_eq off value count 0 output
        (by simpa [IPSRecord.offset, IPSRecord.length, IPSRecord.bytes] using hfitr)
      rw [Nat.add_zero] at hrl
      rw [hrl]
      simp only [bind_ok]
      have h3 := ih (pre ++ (IPSRecord.rle off count value).encode)
        (applyRecord output (IPSRecord.rle off count value)) f hwfrs hf hfitrs
      rw [← hP3] at h3
      simp only [List.length_append, encode_length_rle, be3_length, be2_length] at h3 ⊢
      have e1 : pre.length + (3 + (2 + 2)) + 1 = pre.length + 8 := by omega
      rw [e1]
      exact h3

end IPSApply4

section IPSAllocation

/-- A read of `IPS::read` with the true patch size returns a value below
`2 ^ (8 * size)` and advances the offset by `size`. -/
theorem IPS_read_lt (size : Nat) (patch : List u8) (offset : Nat) :
    ∃ v, IPS.read size patch offset patch.length = .ok (v, offset + size) ∧
      v < 2 ^ (8 * size) := by
  unfold IPS.read
  by_cases h : offset + size ≤ patch.length
  · exact ⟨_, readBE_eq size patch offset h, beVal_lt patch offset size⟩
  · exact ⟨0, readBE_overrun size patch offset (by omega), Nat.two_pow_pos _⟩

/-- The loop of `getSize` keeps the size below `2 ^ 25`: an offset is below
`2 ^ 24` and a length below `2 ^ 16`. -/
theorem getSize_loop_lt (patch : List u8) : ∀ (fuel acc offset s e : Nat),
    acc < 33554432 →
    IPS.getSize.loop patch patch.length fuel acc offset = .ok (s, e) → s < 33554432 := by
  intro fuel
  induction fuel with
  | zero =>
    intro acc offset s e _ h
    cases h
  | succ fuel ih =>
    intro acc offset s e hacc h
    rw [IPS.getSize.loop] at h
    by_cases hlt : offset < patch.length
    · obtain ⟨fo, h3, hfo⟩ := IPS_read_lt 3 patch offset
      have hfo2 : fo < 16777216 := hfo
      rw [if_pos hlt, h3] at h
      simp only [bind_ok] at h
      by_cases heof : fo = IPS.endOfFile
      · rw [if_pos heof] at h
        injection h with h
        injection h with h _
        omega
      · obtain ⟨size, h2, hsize⟩ := IPS_read_lt 2 patch (offset + 3)
        have hsize2 : size < 65536 := hsize
        rw [if_neg heof, h2] at h
        simp only [bind_ok] at h
        by_cases hz : size = 0
        · obtain ⟨rleSize, h2b, hrle⟩ := IPS_read_lt 2 patch (offset + 3 + 2)
          have hrle2 : rleSize < 65536 := hrle
          rw [if_pos hz, h2b] at h
          simp only [bind_ok] at h
          exact ih _ _ s e (Nat.max_lt.mpr ⟨hacc, by omega⟩) h
        · rw [if_neg hz] at h
          exact ih _ _ s e (Nat.max_lt.mpr ⟨hacc, by omega⟩) h
    · rw [if_neg hlt] at h
      injection h with h
      injection h with h _
      omega

/-- The size returned by `getSize` is below `2 ^ 25`. -/
theorem getSize_lt (fuel : Nat) (patch : List u8) (size : Nat)
    (h : IPS.getSize fuel patch patch.length = .ok size) : size < 33554432 := by
  unfold IPS.getSize at h
  cases hl : IPS.getSize.loop patch patch.length fuel 0 IPS.headerSize with
  | error e =>
    rw [hl] at h
    cases h
  | ok p =>
    obtain ⟨s, e⟩ := p
    have hs := getSize_loop_lt patch fuel 0 IPS.headerSize s e (by decide) hl
    rw [hl] at h
    simp only [bind_ok] at h
    by_cases hf : e + 3 = patch.length
    · obtain ⟨v, hv, hvlt⟩ := IPS_read_lt 3 patch e
      have hv2 : v < 16777216 := hvlt
      rw [if_pos hf, hv] at h
      simp only [bind_ok] at h
      injection h with h
      rw [← h]
      exact Nat.max_lt.mpr ⟨hs, by omega⟩
    · rw [if_neg hf] at h
      injection h with h
      omega

/-- The size returned by `getSize` is within `max_size()`: the construction of
the output of `patchIPS` does not throw. -/
theorem getSize_le_maxSize (fuel : Nat) (patch : List u8) (size : Nat)
    (h : IPS.getSize fuel patch patch.length = .ok size) : size ≤ maxSize :=
  Nat.le_of_lt (Nat.lt_of_lt_of_le (getSize_lt fuel patch size h) (by decide))

end IPSAllocation

section IPSTop

theorem le_maxEnd (recs : List IPSRecord) : ∀ r ∈ recs, r.offset + r.length ≤ maxEnd recs := by
  induction recs with
  | nil => intro r hr; cases hr
  | cons x xs ih =>
    intro r hr
    rcases List.mem_cons.mp hr with rfl | h
    · exact Nat.le_max_left _ _
    · exact Nat.le_trans (ih r h) (Nat.le_max_right _ _)

theorem maxEnd_le_expectedSize (recs : List IPSRecord) (footer : Option Nat) :
    maxEnd recs ≤ expectedSize recs footer := by
  cases footer with
  | none => exact Nat.le_refl _
  | some n => exact Nat.le_max_left _ _

theorem initialOutput_length (data : List u8) (size : Nat) :
    (initialOutput data size).length = size := by
  simp only [initialOutput, memcpy, List.length_append, List.length_take, List.length_drop,
    List.length_replicate]
  omega

/-- On a well-formed patch `getSize` returns the maximum of the record ends,
raised to the footer value when there is a footer. -/
theorem getSize_wellFormed (fuel : Nat) (recs : List IPSRecord) (footer : Option Nat)
    (hwf : ∀ r ∈ recs, r.WellFormed) (hfoot : ∀ n, footer = some n → n < 16777216)
    (hfuel : recs.length < fuel) :
    IPS.getSize fuel (encodeIPS recs footer) (encodeIPS recs footer).length
      = .ok (expectedSize recs footer) := by
  unfold IPS.getSize
  have hl := getSize_loop_records (encodeFooter footer) recs magicIPS 0 fuel hwf hfuel
  have hm : magicIPS.length = IPS.headerSize := rfl
  rw [hm] at hl
  unfold encodeIPS
  rw [hl]
  simp only [bind_ok, Nat.zero_max]
  cases footer with
  | none =>
    have : ¬ (IPS.headerSize + (encodeRecords recs).length + 3 + 3
        = (magicIPS ++ (encodeRecords recs ++ (be3 0x454F46 ++ encodeFooter none))).length) := by
      simp only [encodeFooter, List.length_append, be3_length, magicIPS, IPS.headerSize,
        List.length_cons, List.length_nil]
      omega
    rw [if_neg this]
    rfl
  | some n =>
    have hn := hfoot n rfl
    have : IPS.headerSize + (encodeRecords recs).length + 3 + 3
        = (magicIPS ++ (encodeRecords recs ++ (be3 0x454F46 ++ encodeFooter (some n)))).length := by
      simp only [encodeFooter, List.length_append, be3_length, magicIPS, IPS.headerSize,
        List.length_cons, List.length_nil]
      omega
    rw [if_pos this]
    have hP : magicIPS ++ (encodeRecords recs ++ (be3 0x454F46 ++ encodeFooter (some n)))
        = (magicIPS ++ (encodeRecords recs ++ be3 0x454F46)) ++ (be3 n ++ []) := by
      simp [encodeFooter]
    have hr := read_at_prefix 3 (magicIPS ++ (encodeRecords recs ++ be3 0x454F46)) (be3 n) [] rfl
    rw [← hP] at hr
    have hlen : (magicIPS ++ (encodeRecords recs ++ be3 0x454F46)).length
        = IPS.headerSize + (encodeRecords recs).length + 3 := by
      simp only [List.length_append, be3_length, magicIPS, IPS.headerSize,
        List.length_cons, List.length_nil]
      omega
    rw [hlen, beVal_be3 _ hn] at hr
    rw [hr]
    rfl

/-- On a well-formed patch `patchIPS` returns `Success` with the initial output
of the size computed by `getSize`, to which the records are applied in order. -/
theorem patchIPS_wellFormed (fuel : Nat) (data : List u8) (recs : List IPSRecord)
    (footer : Option Nat)
    (hwf : ∀ r ∈ recs, r.WellFormed) (hfoot : ∀ n, footer = some n → n < 16777216)
    (hfuel : recs.length < fuel) :
    patchIPS fuel data (encodeIPS recs footer)
      = .ok (recs.foldl applyRecord (initialOutput data (expectedSize recs footer)),
          .Success) := by
  unfold patchIPS
  have hlen : ¬ ((encodeIPS recs footer).length < IPS.minimumPatchSize) := by
    simp [encodeIPS, magicIPS, be3_length, IPS.minimumPatchSize, IPS.headerSize]
    omega
  simp only [hlen, if_false]
  have hmax : expectedSize recs footer ≤ maxSize :=
    getSize_le_maxSize fuel _ _ (getSize_wellFormed fuel recs footer hwf hfoot hfuel)
  rw [getSize_wellFormed fuel recs footer hwf hfoot hfuel]
  have hfit : ∀ r ∈ recs,
      r.offset + r.length ≤ (initialOutput data (expectedSize recs footer)).length := by
    intro r hr
    rw [initialOutput_length]
    exact Nat.le_trans (le_maxEnd recs r hr) (maxEnd_le_expectedSize recs footer)
  have hl := patchIPS_loop_records (encodeFooter footer) recs magicIPS
    (initialOutput data (expectedSize recs footer)) fuel hwf hfuel hfit
  have hm : magicIPS.length = IPS.headerSize := rfl
  rw [hm] at hl
  have h0 : rd (encodeIPS recs footer) 0 = .ok 0x50 := by simp [rd, encodeIPS, magicIPS]
  have h1 : rd (encodeIPS recs footer) 1 = .ok 0x41 := by simp [rd, encodeIPS, magicIPS]
  have h2 : rd (encodeIPS recs footer) 2 = .ok 0x54 := by simp [rd, encodeIPS, magicIPS]
  have h3 : rd (encodeIPS recs footer) 3 = .ok 0x43 := by simp [rd, encodeIPS, magicIPS]
  have h4 : rd (encodeIPS recs footer) 4 = .ok 0x48 := by simp [rd, encodeIPS, magicIPS]
  rw [h0, h1, h2, h3, h4]
  simp only [bind_ok, ne_eq, not_true_eq_false, or_self, if_false]
  rw [newVector_ok hmax]
  simp only [bind_ok, List.length_replicate]
  unfold initialOutput at hl
  unfold encodeIPS
  rw [hl]
  rfl

/-- C2: for every source and every well-formed IPS patch ("PATCH", complete
records whose offsets are not "EOF", "EOF", an optional 3-byte footer), `patchIPS`
returns with `Success` an output whose length is the maximum over the records of
offset + length, raised to the footer value when there is a footer; the source
does not enter this length, and without records and footer the output is empty. -/
theorem C2_ips_output_length (fuel : Nat) (data : List u8) (recs : List IPSRecord)
    (footer : Option Nat)
    (hwf : ∀ r ∈ recs, r.WellFormed) (hfoot : ∀ n, footer = some n → n < 16777216)
    (hfuel : recs.length < fuel) :
    ∃ out, patchIPS fuel data (encodeIPS recs footer) = .ok (out, .Success) ∧
      out.length = expectedSize recs footer ∧
      (recs = [] → footer = none → out = []) := by
  refine ⟨_, patchIPS_wellFormed fuel data recs footer hwf hfoot hfuel, ?_, ?_⟩
  · rw [foldl_applyRecord_length, initialOutput_length]
  · intro hr hf
    subst hr hf
    apply List.eq_nil_of_length_eq_zero
    rw [foldl_applyRecord_length, initialOutput_length]
    rfl

end IPSTop
section IPSWitness

theorem sampleRecords_wellFormed : ∀ r ∈ sampleRecords, r.WellFormed := by
  intro r hr
  simp only [sampleRecords, List.mem_cons, List.mem_singleton, List.not_mem_nil, or_false] at hr
  rcases hr with rfl | rfl <;> simp [IPSRecord.WellFormed]

theorem C2_ips_output_length_witness :
    ∃ out, patchIPS 3 [1, 2, 3] (encodeIPS sampleRecords (some 10)) = .ok (out, .Success) ∧
      out.length = 10 ∧ (sampleRecords = [] → some 10 = none → out = []) :=
  C2_ips_output_length 3 [1, 2, 3] sampleRecords (some 10) sampleRecords_wellFormed
    (by intro n hn; injection hn with hn; omega) (by decide)

end IPSWitness

section UPSRoundTrip

theorem getD_set_eq (l : List u8) (k : Nat) (v : u8) (h : k < l.length) :
    (l.set k v).getD k 0 = v := by
  simp [List.getD_eq_getElem?_getD, List.getElem?_set, h]

theorem getD_set_ne (l : List u8) (k i : Nat) (v : u8) (h : i ≠ k) :
    (l.set k v).getD i 0 = l.getD i 0 := by
  simp [List.getD_eq_getElem?_getD, List.getElem?_set, Ne.symm h]

theorem UPS_read_one (data : List u8) (offset : Nat) :
    UPS.read 1 data offset data.length = .ok ((data.getD offset 0).val, offset + 1) :=
  readLE_one data offset

/-- Two states in step have the same cursors, with the source cursor at the
output cursor. -/
theorem upsSim_shape (n : Nat) (d1 d2 : List u8) (st1 st2 : UPSState)
    (h : UPSSim n d1 d2 st1 st2) :
    ∃ out1 out2 po k, st1 = ⟨out1, po, k, k⟩ ∧ st2 = ⟨out2, po, k, k⟩ ∧
      out1.length = n ∧ out2.length = n := by
  obtain ⟨out1, po1, so1, oo1⟩ := st1
  obtain ⟨out2, po2, so2, oo2⟩ := st2
  obtain ⟨hpo, hso, hoo, hsk, hl1, hl2, _⟩ := h
  simp only at hpo hso hoo hsk hl1 hl2
  subst hpo hso hoo hsk
  exact ⟨out1, out2, po2, so2, rfl, rfl, hl1, hl2⟩

/-- One write at the output cursor, with values that differ from the source
bytes by the same mask, keeps two runs in step. -/
theorem upsSim_write (n : Nat) (d1 d2 out1 out2 : List u8) (po k po' : Nat) (v1 v2 : u8)
    (h : UPSSim n d1 d2 ⟨out1, po, k, k⟩ ⟨out2, po, k, k⟩) (hk : k < n)
    (hv : v1.val ^^^ (d1.getD k 0).val = v2.val ^^^ (d2.getD k 0).val) :
    UPSSim n d1 d2 ⟨out1.set k v1, po', k + 1, k + 1⟩ ⟨out2.set k v2, po', k + 1, k + 1⟩ := by
  obtain ⟨_, _, _, _, hl1, hl2, hx⟩ := h
  simp only at hl1 hl2 hx
  refine ⟨rfl, rfl, rfl, rfl, ?_, ?_, ?_⟩
  · show (out1.set k v1).length = n
    rw [List.length_set]; exact hl1
  · show (out2.set k v2).length = n
    rw [List.length_set]; exact hl2
  · intro i hi
    show ((out1.set k v1).getD i 0).val ^^^ (d1.getD i 0).val
      = ((out2.set k v2).getD i 0).val ^^^ (d2.getD i 0).val
    have hi2 : i < k + 1 := hi
    by_cases hik : i = k
    · subst hik
      rw [getD_set_eq _ _ _ (by omega), getD_set_eq _ _ _ (by omega)]
      exact hv
    · rw [getD_set_ne _ _ _ _ hik, getD_set_ne _ _ _ _ hik]
      exact hx i (by omega)

/-- A change of the patch cursor alone keeps two runs in step. -/
theorem upsSim_patchOffset (n : Nat) (d1 d2 : List u8) (st1 st2 : UPSState) (po : Nat)
    (h : UPSSim n d1 d2 st1 st2) :
    UPSSim n d1 d2 { st1 with patchOffset := po } { st2 with patchOffset := po } := by
  obtain ⟨_, h2, h3, h4, h5, h6, h7⟩ := h
  exact ⟨rfl, h2, h3, h4, h5, h6, h7⟩

/-- The verbatim-copy loop of `patchUPS` keeps two runs in step. -/
theorem copyLoop_sim (n : Nat) (d1 d2 : List u8) :
    ∀ (length : Nat) (st1 st2 st1' : UPSState), UPSSim n d1 d2 st1 st2 →
    patchUPS.copyLoop d1 n length st1 = .ok st1' →
    ∃ st2', patchUPS.copyLoop d2 n length st2 = .ok st2' ∧ UPSSim n d1 d2 st1' st2' := by
  intro length
  induction length with
  | zero =>
    intro st1 st2 st1' hsim h
    simp only [patchUPS.copyLoop] at h ⊢
    injection h with h
    subst h
    exact ⟨st2, rfl, hsim⟩
  | succ length ih =>
    intro st1 st2 st1' hsim h
    obtain ⟨out1, out2, po, k, rfl, rfl, hl1, hl2⟩ := upsSim_shape n d1 d2 st1 st2 hsim
    unfold patchUPS.copyLoop at h ⊢
    by_cases hk : k < n
    · simp only [hk, if_true, UPS_read_one, bind_ok, ofNat_val] at h ⊢
      rw [wr_eq_ok _ (by omega)] at h
      rw [wr_eq_ok _ (by omega)]
      simp only [bind_ok] at h ⊢
      exact ih _ _ st1' (upsSim_write n d1 d2 out1 out2 po k po _ _ hsim hk
        (by rw [Nat.xor_self, Nat.xor_self])) h
    · simp only [hk, if_false] at h ⊢
      injection h with h
      subst h
      exact ⟨_, rfl, hsim⟩

theorem xor_byte_val (a b : u8) : (Fin.ofNat (a.val ^^^ b.val) : u8).val ^^^ a.val = b.val := by
  have h : a.val ^^^ b.val < 256 := Nat.xor_lt_two_pow (n := 8) a.isLt b.isLt
  show ((a.val ^^^ b.val) % 256) ^^^ a.val = b.val
  rw [Nat.mod_eq_of_lt h, Nat.xor_comm a.val b.val, Nat.xor_assoc, Nat.xor_self, Nat.xor_zero]

/-- The XOR loop of `patchUPS` keeps two runs in step. -/
theorem xorLoop_sim (n : Nat) (d1 d2 patch : List u8) :
    ∀ (fuel : Nat) (st1 st2 st1' : UPSState), UPSSim n d1 d2 st1 st2 →
    patchUPS.xorLoop d1 patch n fuel st1 = .ok st1' →
    ∃ st2', patchUPS.xorLoop d2 patch n fuel st2 = .ok st2' ∧ UPSSim n d1 d2 st1' st2' := by
  intro fuel
  induction fuel with
  | zero =>
    intro st1 st2 st1' _ h
    simp only [patchUPS.xorLoop] at h
    cases h
  | succ fuel ih =>
    intro st1 st2 st1' hsim h
    obtain ⟨out1, out2, po, k, rfl, rfl, hl1, hl2⟩ := upsSim_shape n d1 d2 st1 st2 hsim
    unfold patchUPS.xorLoop at h ⊢
    by_cases hk : k < n
    · simp only [hk, if_true, UPS_read_one, bind_ok] at h ⊢
      rw [wr_eq_ok _ (by omega)] at h
      rw [wr_eq_ok _ (by omega)]
      simp only [bind_ok] at h ⊢
      have hs := upsSim_write n d1 d2 out1 out2 po k (po + 1)
        (Fin.ofNat ((d1.getD k 0).val ^^^ (patch.getD po 0).val))
        (Fin.ofNat ((d2.getD k 0).val ^^^ (patch.getD po 0).val))
        hsim hk (by rw [xor_byte_val, xor_byte_val])
      by_cases hz : (patch.getD po 0).val = 0
      · simp only [hz, if_true] at h ⊢
        injection h with h
        subst h
        refine ⟨_, rfl, ?_⟩
        simp only [hz] at hs
        exact hs
      · simp only [hz, if_false] at h ⊢
        exact ih _ _ st1' hs h
    · simp only [hk, if_false] at h ⊢
      injection h with h
      subst h
      exact ⟨_, rfl, hsim⟩

end UPSRoundTrip

section UPSRoundTrip2

/-- The main loop of `patchUPS` keeps two runs in step. -/
theorem upsLoop_sim (n : Nat) (d1 d2 patch : List u8) (fuel0 : Nat) :
    ∀ (fuel : Nat) (st1 st2 st1' : UPSState), UPSSim n d1 d2 st1 st2 →
    patchUPS.loop d1 patch n fuel0 fuel st1 = .ok st1' →
    ∃ st2', patchUPS.loop d2 patch n fuel0 fuel st2 = .ok st2' ∧ UPSSim n d1 d2 st1' st2' := by
  intro fuel
  induction fuel with
  | zero =>
    intro st1 st2 st1' _ h
    simp only [patchUPS.loop] at h
    cases h
  | succ fuel ih =>
    intro st1 st2 st1' hsim h
    have hpo : st2.patchOffset = st1.patchOffset := hsim.1
    rw [patchUPS.loop] at h ⊢
    rw [hpo]
    generalize (patch.length + U64 - 12) % U64 = bound at h ⊢
    by_cases hc : st1.patchOffset < bound
    · rw [if_pos hc] at h ⊢
      cases hr : UPS.readRunLength fuel0 patch st1.patchOffset patch.length with
      | error e =>
        rw [hr] at h
        cases h
      | ok v =>
        obtain ⟨len, po⟩ := v
        rw [hr] at h
        simp only [bind_ok] at h ⊢
        have hs0 := upsSim_patchOffset n d1 d2 st1 st2 po hsim
        cases hcp : patchUPS.copyLoop d1 n len { st1 with patchOffset := po } with
        | error e =>
          rw [hcp] at h
          cases h
        | ok sta =>
          obtain ⟨stb, hcp2, hs1⟩ := copyLoop_sim n d1 d2 len _ _ sta hs0 hcp
          rw [hcp] at h
          rw [hcp2]
          simp only [bind_ok] at h ⊢
          cases hxr : patchUPS.xorLoop d1 patch n fuel0 sta with
          | error e =>
            rw [hxr] at h
            cases h
          | ok stc =>
            obtain ⟨std, hxr2, hs2⟩ := xorLoop_sim n d1 d2 patch fuel0 _ _ stc hs1 hxr
            rw [hxr] at h
            rw [hxr2]
            simp only [bind_ok] at h ⊢
            exact ih _ _ st1' hs2 h
    · rw [if_neg hc] at h ⊢
      injection h with h
      subst h
      exact ⟨_, rfl, hsim⟩

/-- The loop of `patchUPS` that copies the rest of the source keeps two runs of
sources of the same length in step. -/
theorem restLoop_sim (n : Nat) (d1 d2 : List u8) (hd : d1.length = d2.length) :
    ∀ (fuel : Nat) (st1 st2 st1' : UPSState), UPSSim n d1 d2 st1 st2 →
    patchUPS.restLoop d1 n fuel st1 = .ok st1' →
    ∃ st2', patchUPS.restLoop d2 n fuel st2 = .ok st2' ∧ UPSSim n d1 d2 st1' st2' := by
  intro fuel
  induction fuel with
  | zero =>
    intro st1 st2 st1' _ h
    simp only [patchUPS.restLoop] at h
    cases h
  | succ fuel ih =>
    intro st1 st2 st1' hsim h
    obtain ⟨out1, out2, po, k, rfl, rfl, hl1, hl2⟩ := upsSim_shape n d1 d2 st1 st2 hsim
    unfold patchUPS.restLoop at h ⊢
    by_cases hk : k < n ∧ k < d1.length
    · have hk2 : k < n ∧ k < d2.length := ⟨hk.1, by omega⟩
      simp only [hk, and_self, if_true, UPS_read_one, bind_ok, ofNat_val] at h
      simp only [hk2, and_self, if_true, UPS_read_one, bind_ok, ofNat_val]
      rw [wr_eq_ok _ (by omega)] at h
      rw [wr_eq_ok _ (by omega)]
      simp only [bind_ok] at h ⊢
      exact ih _ _ st1' (upsSim_write n d1 d2 out1 out2 po k po _ _ hsim hk.1
        (by rw [Nat.xor_self, Nat.xor_self])) h
    · have hk2 : ¬ (k < n ∧ k < d2.length) := by
        intro h2
        exact hk ⟨h2.1, by omega⟩
      simp only [hk, if_false] at h
      simp only [hk2, if_false]
      injection h with h
      subst h
      exact ⟨_, rfl, hsim⟩

/-- The loop of `patchUPS` that copies the rest of the source is left only when
its condition fails. -/
theorem restLoop_exit (n : Nat) (d : List u8) :
    ∀ (fuel : Nat) (st st' : UPSState), patchUPS.restLoop d n fuel st = .ok st' →
    ¬ (st'.outputOffset < n ∧ st'.sourceOffset < d.length) := by
  intro fuel
  induction fuel with
  | zero =>
    intro st st' h
    simp only [patchUPS.restLoop] at h
    cases h
  | succ fuel ih =>
    intro st st' h
    unfold patchUPS.restLoop at h
    by_cases hk : st.outputOffset < n ∧ st.sourceOffset < d.length
    · simp only [hk, and_self, if_true, UPS_read_one, bind_ok] at h
      cases hw : wr st.output st.outputOffset (Fin.ofNat (d.getD st.sourceOffset 0).val) with
      | error e =>
        rw [hw] at h
        cases h
      | ok out =>
        rw [hw] at h
        simp only [bind_ok] at h
        exact ih _ _ h
    · simp only [hk, if_false] at h
      injection h with h
      subst h
      exact hk

/-- Past the output size the padding loop changes nothing. -/
theorem padLoop_done (n : Nat) (fuel : Nat) (out : List u8) (oo : Nat) (res : List u8 × Nat)
    (hk : ¬ oo < n) (h : padLoop n fuel out oo = .ok res) :
    res = (out, oo) ∧ ∀ out2 : List u8, padLoop n fuel out2 oo = .ok (out2, oo) := by
  cases fuel with
  | zero =>
    simp only [padLoop] at h
    cases h
  | succ fuel =>
    simp only [padLoop, hk, if_false] at h
    injection h with h
    refine ⟨h.symm, fun out2 => ?_⟩
    simp only [padLoop, hk, if_false]

theorem list_eq_of_getD (l1 l2 : List u8) (hl : l1.length = l2.length)
    (h : ∀ i, i < l1.length → l1.getD i 0 = l2.getD i 0) : l1 = l2 := by
  apply List.ext_getElem hl
  intro i h1 h2
  have := h i h1
  simp only [List.getD_eq_getElem?_getD, List.getElem?_eq_getElem h1,
    List.getElem?_eq_getElem h2, Option.getD_some] at this
  exact this

theorem xor_cancel (a b c : Nat) (h : a ^^^ b = c ^^^ a) : c = b := by
  have h2 : (a ^^^ b) ^^^ a = (c ^^^ a) ^^^ a := by rw [h]
  rw [Nat.xor_comm a b, Nat.xor_assoc, Nat.xor_self, Nat.xor_zero, Nat.xor_assoc, Nat.xor_self,
    Nat.xor_zero] at h2
  exact h2.symm

end UPSRoundTrip2

section UPSRoundTrip3

/-- Two runs of the output construction of `patchUPS` on sources of the declared
output size end at the same patch offset with outputs of that size that differ
from their sources by the same XOR mask. -/
theorem build_sim (fuel n : Nat) (d1 d2 patch : List u8) (o2 : Nat) (t : List u8) (off : Nat)
    (hd1 : d1.length = n) (hd2 : d2.length = n)
    (h : patchUPS.build fuel d1 patch n o2 = .ok (t, off)) :
    ∃ t2, patchUPS.build fuel d2 patch n o2 = .ok (t2, off) ∧ t.length = n ∧ t2.length = n ∧
      ∀ i, i < n → (t.getD i 0).val ^^^ (d1.getD i 0).val
        = (t2.getD i 0).val ^^^ (d2.getD i 0).val := by
  unfold patchUPS.build at h ⊢
  have hn : n ≤ maxSize := by
    by_contra hlt
    rw [newVector_error (Nat.lt_of_not_le hlt)] at h
    cases h
  rw [newVector_ok hn] at h ⊢
  have hs0 : UPSSim n d1 d2 ⟨List.replicate n 0, o2, 0, 0⟩ ⟨List.replicate n 0, o2, 0, 0⟩ :=
    ⟨rfl, rfl, rfl, rfl, by simp, by simp, fun i hi => absurd hi (Nat.not_lt_zero i)⟩
  simp only [bind_ok] at h ⊢
  cases hl : patchUPS.loop d1 patch n fuel fuel ⟨List.replicate n 0, o2, 0, 0⟩ with
  | error e => simp [hl] at h
  | ok sta =>
    obtain ⟨stb, hl2, hs1⟩ := upsLoop_sim n d1 d2 patch fuel fuel _ _ sta hs0 hl
    simp only [hl, hl2, bind_ok] at h ⊢
    cases hr : patchUPS.restLoop d1 n fuel sta with
    | error e => simp [hr] at h
    | ok stc =>
      obtain ⟨std, hr2, hs2⟩ := restLoop_sim n d1 d2 (by omega) fuel _ _ stc hs1 hr
      simp only [hr, hr2, bind_ok] at h ⊢
      have hex := restLoop_exit n d1 fuel sta stc hr
      obtain ⟨hpo, hso, hoo, hsk, hlen1, hlen2, hx⟩ := hs2
      have hk : ¬ stc.outputOffset < n := by
        intro hlt
        exact hex ⟨hlt, by omega⟩
      cases hp : padLoop n fuel stc.output stc.outputOffset with
      | error e => simp [hp] at h
      | ok res =>
        obtain ⟨hres, hpad⟩ := padLoop_done n fuel _ _ res hk hp
        subst hres
        simp only [hp, bind_ok] at h
        injection h with h
        injection h with ht hoff
        rw [hoo, hpad std.output]
        simp only [bind_ok]
        refine ⟨std.output, ?_, ?_, hlen2, ?_⟩
        · rw [hpo, hoff]
        · rw [← ht]; exact hlen1
        · intro i hi
          rw [← ht]
          exact hx i (by omega)

/-- For a source of the declared output size, building the output from the
output built reproduces the source. -/
theorem build_involution (fuel n : Nat) (s patch : List u8) (o2 : Nat) (t : List u8) (off : Nat)
    (hs : s.length = n) (h : patchUPS.build fuel s patch n o2 = .ok (t, off)) :
    t.length = n ∧ patchUPS.build fuel t patch n o2 = .ok (s, off) := by
  obtain ⟨_, _, ht, _, _⟩ := build_sim fuel n s s patch o2 t off hs hs h
  obtain ⟨t2, hb, _, ht2, hx⟩ := build_sim fuel n s t patch o2 t off hs ht h
  refine ⟨ht, ?_⟩
  have : t2 = s := by
    apply list_eq_of_getD t2 s (by omega)
    intro i hi
    apply Fin.ext
    exact xor_cancel _ _ _ (hx i (by omega))
  rw [← this]
  exact hb

/-- C4: for a source `s` of length `n` and a patch with the magic "UPS1" whose
declared input and output sizes are both `n`, if `patchUPS` returns the bytes `t`
with `Success` or `ChecksumMismatch`, then `patchUPS` on `t` with the same patch
returns the bytes `s` (again with `Success` or `ChecksumMismatch`). -/
theorem C4_ups_round_trip (fuel n : Nat) (s p t : List u8) (r : Result) (o1 o2 : Nat)
    (hs : s.length = n) (hm : p.take 4 = magicUPS)
    (hin : UPS.readRunLength fuel p 4 p.length = .ok (n, o1))
    (hout : UPS.readRunLength fuel p o1 p.length = .ok (n, o2))
    (hrun : patchUPS fuel s p = .ok (t, r)) (hr : r = .Success ∨ r = .ChecksumMismatch) :
    ∃ r', (r' = .Success ∨ r' = .ChecksumMismatch) ∧ patchUPS fuel t p = .ok (s, r') := by
  have hlen : 8 ≤ p.length := by
    by_contra hlt
    have : p.length < IPS.minimumPatchSize := by
      simp only [IPS.minimumPatchSize, IPS.headerSize]; omega
    simp only [patchUPS, this, if_true] at hrun
    injection hrun with hrun
    injection hrun with _ hrr
    rcases hr with hr | hr <;> rw [hr] at hrr <;> cases hrr
  rcases patchUPS_ok_cases fuel s p t r hrun with ⟨_, h1⟩ | ⟨i, p1, o, p2, hi, ho, h2⟩
  · rcases hr with hr | hr <;> rw [hr] at h1 <;> cases h1
  · rw [hin] at hi
    injection hi with hi
    injection hi with hi hp1
    subst hi hp1
    rw [hout] at ho
    injection ho with ho
    injection ho with ho hp2
    subst ho hp2
    rcases h2 with ⟨_, _, h1⟩ | ⟨_, output, off, hb, hc⟩
    · rcases hr with hr | hr <;> rw [hr] at h1 <;> cases h1
    · obtain ⟨rfl, _, _, _⟩ := checksums_result output p off t r hc
      obtain ⟨ht, hb2⟩ := build_involution fuel n s p o2 t off hs hb
      obtain ⟨crc, _, hc2⟩ := checksums_eq s p off
      refine ⟨if crc ≠ Detail.crc32 s then .ChecksumMismatch else .Success, ?_, ?_⟩
      · by_cases hcrc : crc = Detail.crc32 s
        · left; simp [hcrc]
        · right; simp [hcrc]
      · rw [patchUPS_good_magic fuel t p hlen hm]
        have hsz : ¬ (t.length < n) := by omega
        simp only [hin, hout, bind_ok, hsz, if_false, hb2]
        exact hc2

theorem C4_ups_round_trip_witness :
    ∃ r', (r' = .Success ∨ r' = .ChecksumMismatch) ∧
      patchUPS 5 [1, 0x13, 0x21, 4] sampleUPS = .ok ([1, 2, 3, 4], r') :=
  C4_ups_round_trip 5 4 [1, 2, 3, 4] sampleUPS [1, 0x13, 0x21, 4] .Success 5 6
    rfl rfl rfl rfl rfl (Or.inl rfl)

end UPSRoundTrip3

section Dispatcher

/-- C16: the dispatcher returns what `patchIPS`, `patchUPS` and `patchBPS` return
for their tags, and for every other tag an empty output with `UnknownFormat`,
whatever the source and the patch. -/
theorem C16_dispatcher (fuel : Nat) (data p : List u8) :
    Hips.patch fuel data p PatchType.IPS = patchIPS fuel data p ∧
    Hips.patch fuel data p PatchType.UPS = patchUPS fuel data p ∧
    Hips.patch fuel data p PatchType.BPS = patchBPS fuel data p ∧
    ∀ type : PatchType, type ≠ PatchType.IPS → type ≠ PatchType.UPS → type ≠ PatchType.BPS →
      Hips.patch fuel data p type = .ok ([], .UnknownFormat) := by
  refine ⟨rfl, rfl, rfl, ?_⟩
  intro type h1 h2 h3
  simp only [Hips.patch, h1, h2, h3, if_false]

theorem C16_dispatcher_witness :
    Hips.patch 0 [1, 2] sampleUPS 3 = .ok ([], .UnknownFormat) :=
  (C16_dispatcher 0 [1, 2] sampleUPS).2.2.2 3 (by decide) (by decide) (by decide)

end Dispatcher

section FixedWidthClaims

theorem leVal_eq_sum (data : List u8) (start n : Nat) :
    leVal data start n
      = Finset.sum (Finset.range n) (fun i => (data.getD (start + i) 0).val * 256 ^ i) := by
  induction n with
  | zero => rfl
  | succ n ih => rw [Finset.sum_range_succ, ← ih]; rfl

theorem beVal_eq_sum (data : List u8) (start n : Nat) :
    beVal data start n
      = Finset.sum (Finset.range n)
          (fun i => (data.getD (start + i) 0).val * 256 ^ (n - 1 - i)) := by
  induction n with
  | zero => rfl
  | succ n ih =>
    rw [Finset.sum_range_succ]
    simp only [beVal, ih, Finset.sum_mul]
    congr 1
    · apply Finset.sum_congr rfl
      intro i hi
      have hi2 : i < n := Finset.mem_range.mp hi
      have e : n + 1 - 1 - i = (n - 1 - i) + 1 := by omega
      rw [e, Nat.pow_succ, Nat.mul_assoc]
    · have e : n + 1 - 1 - n = 0 := by omega
      rw [e, Nat.pow_zero, Nat.mul_one]

/-- C14: a read of width `w` (1 to 8) that lies inside the buffer returns the
big-endian, respectively little-endian, value of the `w` bytes at the offset and
leaves the offset at `offset + w`. -/
theorem C14_in_bounds_read (w : Nat) (buffer : List u8) (offset : Nat)
    (_hw1 : 1 ≤ w) (_hw8 : w ≤ 8) (h : offset + w ≤ buffer.length) :
    Detail.readBE w buffer offset buffer.length
      = .ok (Finset.sum (Finset.range w)
          (fun i => (buffer.getD (offset + i) 0).val * 256 ^ (w - 1 - i)), offset + w) ∧
    Detail.readLE w buffer offset buffer.length
      = .ok (Finset.sum (Finset.range w)
          (fun i => (buffer.getD (offset + i) 0).val * 256 ^ i), offset + w) := by
  rw [readBE_eq w buffer offset h, readLE_eq w buffer offset h, beVal_eq_sum, leVal_eq_sum]
  exact ⟨rfl, rfl⟩

theorem C14_in_bounds_read_witness :
    Detail.readBE 3 [1, 2, 3, 4] 1 4 = .ok (0x020304, 4) ∧
    Detail.readLE 3 [1, 2, 3, 4] 1 4 = .ok (0x040302, 4) :=
  C14_in_bounds_read 3 [1, 2, 3, 4] 1 (by decide) (by decide) (by decide)

/-- C15: a read of width `w` that would pass the end of the buffer returns 0 and
still sets the offset to `offset + w`; every later read of width at least 1 from
that offset returns 0 again. -/
theorem C15_overrunning_read (w : Nat) (buffer : List u8) (offset : Nat)
    (h : buffer.length < offset + w) :
    Detail.readBE w buffer offset buffer.length = .ok (0, offset + w) ∧
    Detail.readLE w buffer offset buffer.length = .ok (0, offset + w) ∧
    ∀ w2, 1 ≤ w2 →
      Detail.readBE w2 buffer (offset + w) buffer.length = .ok (0, offset + w + w2) ∧
      Detail.readLE w2 buffer (offset + w) buffer.length = .ok (0, offset + w + w2) :=
  ⟨readBE_overrun w buffer offset h, readLE_overrun w buffer offset h,
   fun w2 _ => ⟨readBE_overrun w2 buffer (offset + w) (by omega),
     readLE_overrun w2 buffer (offset + w) (by omega)⟩⟩

theorem C15_overrunning_read_witness :
    Detail.readBE 3 [1, 2, 3, 4] 2 4 = .ok (0, 5) ∧
    Detail.readLE 3 [1, 2, 3, 4] 2 4 = .ok (0, 5) ∧
    ∀ w2, 1 ≤ w2 →
      Detail.readBE w2 [1, 2, 3, 4] (2 + 3) 4 = .ok (0, 2 + 3 + w2) ∧
      Detail.readLE w2 [1, 2, 3, 4] (2 + 3) 4 = .ok (0, 2 + 3 + w2) :=
  C15_overrunning_read 3 [1, 2, 3, 4] 2 (by decide)

end FixedWidthClaims

section Varint

theorem readLE_one_val (data : List u8) (offset : Nat) :
    Detail.readLE 1 data offset data.length = .ok ((data.getD offset 0).val, offset + 1) :=
  readLE_one data offset

/-- On a terminated sequence of `m + 1` bytes the loop of the run-length reader
returns, modulo `2 ^ 64`, what it has accumulated plus the current shift times
the value of the sequence. -/
theorem readRunLength_loop_value (data : List u8) :
    ∀ (m fuel offset ret shift : Nat), m < fuel →
    (∀ i, i < m → (data.getD (offset + i) 0).val &&& 0x80 = 0) →
    (data.getD (offset + m) 0).val &&& 0x80 ≠ 0 →
    Detail.readRunLength.loop data data.length fuel offset ret shift
      = .ok ((ret + shift * varintFrom data offset m) % U64, offset + m + 1) := by
  intro m
  induction m with
  | zero =>
    intro fuel offset ret shift hfuel _ hset
    obtain ⟨f, rfl⟩ : ∃ f, fuel = f + 1 := ⟨fuel - 1, by omega⟩
    rw [Detail.readRunLength.loop, readLE_one]
    simp only [bind_ok]
    rw [Nat.add_zero] at hset
    rw [if_pos hset]
    simp only [varintFrom, Nat.mul_comm shift, Nat.add_zero]
  | succ m ih =>
    intro fuel offset ret shift hfuel hclear hset
    obtain ⟨f, rfl⟩ : ∃ f, fuel = f + 1 := ⟨fuel - 1, by omega⟩
    have h0 : (data.getD offset 0).val &&& 0x80 = 0 := by
      have := hclear 0 (by omega)
      rwa [Nat.add_zero] at this
    rw [Detail.readRunLength.loop, readLE_one]
    simp only [bind_ok]
    rw [if_neg (by rw [h0]; exact fun h => h rfl)]
    have hs : (data.getD (offset + 1 + m) 0).val &&& 0x80 ≠ 0 := by
      have e : offset + 1 + m = offset + (m + 1) := by omega
      rw [e]; exact hset
    have hc : ∀ i, i < m → (data.getD (offset + 1 + i) 0).val &&& 0x80 = 0 := by
      intro i hi
      have e : offset + 1 + i = offset + (i + 1) := by omega
      rw [e]; exact hclear (i + 1) (by omega)
    rw [ih f (offset + 1) _ _ (by omega) hc hs]
    have e : offset + 1 + m + 1 = offset + (m + 1) + 1 := by omega
    rw [e]
    congr 2
    simp only [varintFrom]
    generalize varintFrom data (offset + 1) m = v
    generalize (data.getD offset 0).val &&& 0x7F = c
    rw [Nat.shiftLeft_eq]
    have h1 : (ret + c * shift) % U64 ≡ ret + c * shift [MOD U64] := Nat.mod_modEq _ _
    have h2 : shift * 2 ^ 7 % U64 ≡ shift * 2 ^ 7 [MOD U64] := Nat.mod_modEq _ _
    have h3 : ((ret + c * shift) % U64 + shift * 2 ^ 7 % U64) % U64
        ≡ (ret + c * shift) + shift * 2 ^ 7 [MOD U64] :=
      (Nat.mod_modEq _ _).trans (h1.add h2)
    have h4 : ((ret + c * shift) % U64 + shift * 2 ^ 7 % U64) % U64 + shift * 2 ^ 7 % U64 * v
        ≡ (ret + c * shift) + shift * 2 ^ 7 + shift * 2 ^ 7 * v [MOD U64] :=
      h3.add (h2.mul_right v)
    have h5 : (ret + c * shift) + shift * 2 ^ 7 + shift * 2 ^ 7 * v
        = ret + shift * (c + 128 * (v + 1)) := by ring
    rw [h5] at h4
    exact h4

end Varint

section VarintValue

theorem sum_pow_Ico (n : Nat) :
    Finset.sum (Finset.Ico 1 (n + 2)) (fun i => 128 ^ i)
      = 128 * (Finset.sum (Finset.Ico 1 (n + 1)) (fun i => 128 ^ i) + 1) := by
  rw [Finset.sum_Ico_eq_sum_range, Finset.sum_Ico_eq_sum_range]
  have e1 : n + 2 - 1 = n + 1 := by omega
  have e2 : n + 1 - 1 = n := by omega
  rw [e1, e2, Finset.sum_range_succ', Nat.mul_add, Finset.mul_sum]
  have e3 : ∀ i ∈ Finset.range n, 128 ^ (1 + (i + 1)) = 128 * 128 ^ (1 + i) := by
    intro i _
    rw [← Nat.add_assoc, Nat.pow_succ, Nat.mul_comm]
  rw [Finset.sum_congr rfl e3]
  rfl

/-- The value of a run-length integer of `m + 1` bytes as the two sums of the
claim. -/
theorem varintFrom_eq_sum (data : List u8) : ∀ (m offset : Nat),
    varintFrom data offset m
      = Finset.sum (Finset.range (m + 1))
          (fun i => ((data.getD (offset + i) 0).val &&& 0x7F) * 128 ^ i)
        + Finset.sum (Finset.Ico 1 (m + 1)) (fun i => 128 ^ i) := by
  intro m
  induction m with
  | zero =>
    intro offset
    simp [varintFrom]
  | succ m ih =>
    intro offset
    have hR := Finset.sum_range_succ'
      (fun i => ((data.getD (offset + i) 0).val &&& 0x7F) * 128 ^ i) (m + 1)
    have e : Finset.sum (Finset.range (m + 1))
          (fun i => ((data.getD (offset + (i + 1)) 0).val &&& 0x7F) * 128 ^ (i + 1))
        = 128 * Finset.sum (Finset.range (m + 1))
          (fun i => ((data.getD (offset + 1 + i) 0).val &&& 0x7F) * 128 ^ i) := by
      rw [Finset.mul_sum]
      apply Finset.sum_congr rfl
      intro i _
      have e1 : offset + (i + 1) = offset + 1 + i := by omega
      rw [e1, Nat.pow_succ]
      ring
    rw [hR, e, sum_pow_Ico m, varintFrom, ih (offset + 1)]
    simp only [Nat.pow_zero, Nat.mul_one, Nat.add_zero]
    ring

/-- C12: on `n` bytes inside the buffer of which all but the last have the high
bit clear and the last has it set, `readRunLength` returns the sum of the low 7
bits of byte `i` times `128 ^ i` plus the sum of `128 ^ i` for `1 <= i < n`,
modulo `2 ^ 64`, and advances the offset by `n`; a single byte with the high bit
set decodes to its low 7 bits. -/
theorem C12_varint_value (fuel n : Nat) (buffer : List u8) (offset : Nat)
    (hn : 1 ≤ n) (hfuel : n ≤ fuel) (_hin : offset + n ≤ buffer.length)
    (hclear : ∀ i, i + 1 < n → (buffer.getD (offset + i) 0).val &&& 0x80 = 0)
    (hset : (buffer.getD (offset + (n - 1)) 0).val &&& 0x80 ≠ 0) :
    Detail.readRunLength fuel buffer offset buffer.length
      = .ok ((Finset.sum (Finset.range n)
              (fun i => ((buffer.getD (offset + i) 0).val &&& 0x7F) * 128 ^ i)
            + Finset.sum (Finset.Ico 1 n) (fun i => 128 ^ i)) % U64, offset + n) ∧
    (n = 1 → Detail.readRunLength fuel buffer offset buffer.length
      = .ok ((buffer.getD offset 0).val &&& 0x7F, offset + 1)) := by
  obtain ⟨m, rfl⟩ : ∃ m, n = m + 1 := ⟨n - 1, by omega⟩
  have hl := readRunLength_loop_value buffer m fuel offset 0 1 (by omega)
    (fun i hi => hclear i (by omega)) hset
  rw [Nat.zero_add, Nat.one_mul, varintFrom_eq_sum] at hl
  have hmain : Detail.readRunLength fuel buffer offset buffer.length
      = .ok ((Finset.sum (Finset.range (m + 1))
              (fun i => ((buffer.getD (offset + i) 0).val &&& 0x7F) * 128 ^ i)
            + Finset.sum (Finset.Ico 1 (m + 1)) (fun i => 128 ^ i)) % U64, offset + (m + 1)) := hl
  refine ⟨hmain, ?_⟩
  intro h1
  have hm : m = 0 := by omega
  subst hm
  rw [hmain]
  have hlt : (buffer.getD offset 0).val &&& 0x7F < U64 :=
    Nat.lt_of_le_of_lt Nat.and_le_right (by decide)
  rw [Finset.range_one, Finset.sum_singleton, Finset.Ico_self, Finset.sum_empty, Nat.pow_zero,
    Nat.mul_one, Nat.add_zero, Nat.add_zero, Nat.mod_eq_of_lt hlt]

theorem C12_varint_value_witness :
    Detail.readRunLength 5 [0x55, 0x01, 0x82, 0xFF] 1 4 = .ok (385, 3) :=
  (C12_varint_value 5 2 [0x55, 0x01, 0x82, 0xFF] 1 (by decide) (by decide) (by decide)
    (by intro i hi; have : i = 0 := by omega
        subst this; decide)
    (by decide)).1

end VarintValue

section IPSContent

/-- A byte of the output after an assignment of `bs` from `pos` on that fits the
output. -/
theorem getD_writeAt : ∀ (bs output : List u8) (pos i : Nat),
    pos + bs.length ≤ output.length →
    (writeAt output pos bs).getD i 0
      = if pos ≤ i ∧ i < pos + bs.length then bs.getD (i - pos) 0 else output.getD i 0 := by
  intro bs
  induction bs with
  | nil =>
    intro output pos i _
    have : ¬ (pos ≤ i ∧ i < pos + ([] : List u8).length) := by
      rw [List.length_nil]; omega
    rw [if_neg this]
    rfl
  | cons b bs ih =>
    intro output pos i h
    rw [List.length_cons] at h
    rw [writeAt, ih _ _ _ (by rw [List.length_set]; omega), List.length_cons]
    by_cases h1 : pos + 1 ≤ i ∧ i < pos + 1 + bs.length
    · have h2 : pos ≤ i ∧ i < pos + (bs.length + 1) := by omega
      rw [if_pos h1, if_pos h2]
      have e : i - pos = (i - (pos + 1)) + 1 := by omega
      rw [e]
      rfl
    · rw [if_neg h1]
      by_cases h3 : i = pos
      · subst h3
        have h2 : i ≤ i ∧ i < i + (bs.length + 1) := by omega
        rw [if_pos h2, getD_set_eq _ _ _ (by omega), Nat.sub_self]
        rfl
      · have h2 : ¬ (pos ≤ i ∧ i < pos + (bs.length + 1)) := by omega
        rw [if_neg h2, getD_set_ne _ _ _ _ h3]

/-- The records that do not cover a position leave it as it is. -/
theorem foldl_applyRecord_not_covered (i : Nat) : ∀ (recs : List IPSRecord) (output : List u8),
    (∀ r ∈ recs, r.offset + r.length ≤ output.length) → (∀ r ∈ recs, ¬ r.Covers i) →
    (recs.foldl applyRecord output).getD i 0 = output.getD i 0 := by
  intro recs
  induction recs with
  | nil => intro output _ _; rfl
  | cons r rs ih =>
    intro output hfit hnc
    rw [List.foldl_cons, ih _ (fun x hx => by
      rw [applyRecord_length]; exact hfit x (List.mem_cons_of_mem _ hx))
      (fun x hx => hnc x (List.mem_cons_of_mem _ hx))]
    rw [applyRecord, getD_writeAt _ _ _ _ (hfit r (List.mem_cons_self _ _))]
    exact if_neg (hnc r (List.mem_cons_self _ _))

/-- The initial output holds the source bytes, and zero past the source. -/
theorem getD_initialOutput (data : List u8) (size i : Nat) (hi : i < size) :
    (initialOutput data size).getD i 0 = if i < data.length then data.getD i 0 else 0 := by
  unfold initialOutput memcpy
  simp only [List.getD_eq_getElem?_getD]
  by_cases h : i < data.length
  · rw [if_pos h, List.getElem?_append_left (by rw [List.length_take]; omega),
      List.getElem?_take_of_lt (by omega)]
  · rw [if_neg h, List.getElem?_append_right (by rw [List.length_take]; omega)]
    have hm : min size data.length = data.length := by omega
    rw [List.length_take, hm, Nat.min_self, List.getElem?_drop,
      List.getElem?_replicate_of_lt (by omega)]
    rfl

/-- C11: for every source and every well-formed IPS patch, an output position
that lies in the range of no record holds the source byte of that position when
the source is long enough, and 0 otherwise. -/
theorem C11_ips_untouched_bytes (fuel : Nat) (data : List u8) (recs : List IPSRecord)
    (footer : Option Nat)
    (hwf : ∀ r ∈ recs, r.WellFormed) (hfoot : ∀ n, footer = some n → n < 16777216)
    (hfuel : recs.length < fuel) :
    ∃ out, patchIPS fuel data (encodeIPS recs footer) = .ok (out, .Success) ∧
      ∀ i, i < out.length → (∀ r ∈ recs, ¬ r.Covers i) →
        out.getD i 0 = if i < data.length then data.getD i 0 else 0 := by
  refine ⟨_, patchIPS_wellFormed fuel data recs footer hwf hfoot hfuel, ?_⟩
  intro i hi hnc
  rw [foldl_applyRecord_length, initialOutput_length] at hi
  have hfit : ∀ r ∈ recs,
      r.offset + r.length ≤ (initialOutput data (expectedSize recs footer)).length := by
    intro r hr
    rw [initialOutput_length]
    exact Nat.le_trans (le_maxEnd recs r hr) (maxEnd_le_expectedSize recs footer)
  rw [foldl_applyRecord_not_covered i recs _ hfit hnc, getD_initialOutput data _ i hi]

theorem C11_ips_untouched_bytes_witness :
    ∃ out, patchIPS 3 [1, 2, 3] (encodeIPS sampleRecords (some 10)) = .ok (out, .Success) ∧
      ∀ i, i < out.length → (∀ r ∈ sampleRecords, ¬ r.Covers i) →
        out.getD i 0 = if i < [(1 : u8), 2, 3].length then [(1 : u8), 2, 3].getD i 0 else 0 :=
  C11_ips_untouched_bytes 3 [1, 2, 3] sampleRecords (some 10) sampleRecords_wellFormed
    (by intro n hn; injection hn with hn; omega) (by decide)

/-- C17: for every source and every well-formed IPS patch, a position covered by
a record `r` and by no later record holds the byte that `r` assigns to it: byte
number `i - offset` of the data of a literal record, the fill byte of an RLE
record. -/
theorem C17_ips_last_writer_wins (fuel : Nat) (data : List u8)
    (before after : List IPSRecord) (r : IPSRecord) (footer : Option Nat) (i : Nat)
    (hwf : ∀ x ∈ before ++ r :: after, x.WellFormed)
    (hfoot : ∀ n, footer = some n → n < 16777216)
    (hfuel : (before ++ r :: after).length < fuel)
    (hcov : r.Covers i) (hlast : ∀ x ∈ after, ¬ x.Covers i) :
    ∃ out, patchIPS fuel data (encodeIPS (before ++ r :: after) footer) = .ok (out, .Success) ∧
      i < out.length ∧
      out.getD i 0 = r.bytes.getD (i - r.offset) 0 ∧
      (∀ offset d, r = .literal offset d → out.getD i 0 = d.getD (i - offset) 0) ∧
      (∀ offset count value, r = .rle offset count value → out.getD i 0 = value) := by
  refine ⟨_, patchIPS_wellFormed fuel data _ footer hwf hfoot hfuel, ?_⟩
  have hfit : ∀ x ∈ before ++ r :: after,
      x.offset + x.length
        ≤ (initialOutput data (expectedSize (before ++ r :: after) footer)).length := by
    intro x hx
    rw [initialOutput_length]
    exact Nat.le_trans (le_maxEnd _ x hx) (maxEnd_le_expectedSize _ footer)
  generalize initialOutput data (expectedSize (before ++ r :: after) footer) = out0 at hfit
  have hr : r.offset + r.length ≤ out0.length := hfit r (by simp)
  have hval : ((before ++ r :: after).foldl applyRecord out0).getD i 0
      = r.bytes.getD (i - r.offset) 0 := by
    rw [List.foldl_append, List.foldl_cons]
    rw [foldl_applyRecord_not_covered i after _ (fun x hx => by
      rw [applyRecord_length, foldl_applyRecord_length]
      exact hfit x (by simp [hx])) hlast]
    rw [applyRecord, getD_writeAt _ _ _ _ (by
      rw [foldl_applyRecord_length]; exact hr)]
    exact if_pos hcov
  refine ⟨?_, hval, ?_, ?_⟩
  · rw [foldl_applyRecord_length]
    exact Nat.lt_of_lt_of_le hcov.2 hr
  · intro offset d h
    subst h
    exact hval
  · intro offset count value h
    subst h
    rw [hval]
    have hlt : i - offset < count := by
      have h1 := hcov.1
      have h2 := hcov.2
      simp only [IPSRecord.offset, IPSRecord.length, IPSRecord.bytes,
        List.length_replicate] at h1 h2
      omega
    simp only [IPSRecord.bytes, IPSRecord.offset, List.getD_eq_getElem?_getD]
    rw [List.getElem?_replicate_of_lt hlt]
    rfl

theorem C17_ips_last_writer_wins_witness :
    ∃ out, patchIPS 3 [1, 2, 3]
        (encodeIPS ([.literal 0 [0xAA, 0xBB]] ++ .rle 1 2 0x11 :: []) none)
        = .ok (out, .Success) ∧
      1 < out.length ∧
      out.getD 1 0 = (IPSRecord.rle 1 2 0x11).bytes.getD (1 - (IPSRecord.rle 1 2 0x11).offset) 0 ∧
      (∀ offset d, IPSRecord.rle 1 2 0x11 = .literal offset d →
        out.getD 1 0 = d.getD (1 - offset) 0) ∧
      (∀ offset count value, IPSRecord.rle 1 2 0x11 = .rle offset count value →
        out.getD 1 0 = value) :=
  C17_ips_last_writer_wins 3 [1, 2, 3] [.literal 0 [0xAA, 0xBB]] [] (.rle 1 2 0x11) none 1
    (by
      intro x hx
      simp only [List.singleton_append, List.mem_cons, List.mem_singleton, List.not_mem_nil,
        or_false] at hx
      rcases hx with rfl | rfl <;> simp [IPSRecord.WellFormed])
    (by intro n hn; cases hn) (by decide)
    (by simp [IPSRecord.Covers, IPSRecord.offset, IPSRecord.length, IPSRecord.bytes])
    (by intro x hx; cases hx)

end IPSContent

section CRC

set_option maxRecDepth 100000 in
/-- Each of the 256 entries of the table is 8 rounds applied to its index. -/
theorem crcTable_eq_rounds : ∀ i, i < 256 → Detail.crcTable.getD i 0 = crcRounds 8 i := by
  decide

theorem crcStep_xor (x y : Nat) : crcStep (x ^^^ y) = crcStep x ^^^ crcStep y := by
  have hs : ∀ a : Nat, a >>> 1 = a / 2 := fun a => by
    rw [Nat.shiftRight_eq_div_pow, Nat.pow_one]
  simp only [crcStep, Nat.and_one_is_mod, hs, Nat.xor_div_two]
  have hx : x % 2 = 0 ∨ x % 2 = 1 := by omega
  have hy : y % 2 = 0 ∨ y % 2 = 1 := by omega
  have hxy := @Nat.xor_mod_two_eq_one x y
  generalize x / 2 = a
  generalize y / 2 = b
  generalize (3988292384 : Nat) = p
  have e1 : a ^^^ p ^^^ b = a ^^^ b ^^^ p := by
    rw [Nat.xor_assoc, Nat.xor_comm p b, ← Nat.xor_assoc]
  have e2 : a ^^^ (b ^^^ p) = a ^^^ b ^^^ p := by rw [Nat.xor_assoc]
  have e3 : a ^^^ p ^^^ (b ^^^ p) = a ^^^ b := by
    rw [Nat.xor_assoc, Nat.xor_comm b p, ← Nat.xor_assoc p, Nat.xor_self, Nat.zero_xor]
  rcases hx with hx | hx <;> rcases hy with hy | hy
  · have h : ¬ ((x ^^^ y) % 2 = 1) := by rw [hxy]; omega
    rw [if_neg h, if_neg (by omega), if_neg (by omega)]
  · have h : (x ^^^ y) % 2 = 1 := by rw [hxy]; omega
    rw [if_pos h, if_neg (by omega), if_pos hy, e2]
  · have h : (x ^^^ y) % 2 = 1 := by rw [hxy]; omega
    rw [if_pos h, if_pos hx, if_neg (by omega), e1]
  · have h : ¬ ((x ^^^ y) % 2 = 1) := by rw [hxy]; omega
    rw [if_neg h, if_pos hx, if_pos hy, e3]

theorem crcRounds_xor (n : Nat) : ∀ x y : Nat,
    crcRounds n (x ^^^ y) = crcRounds n x ^^^ crcRounds n y := by
  induction n with
  | zero => intro x y; rfl
  | succ n ih => intro x y; simp only [crcRounds, crcStep_xor, ih]

/-- A register whose low `k` bits are zero is only shifted by `k` rounds. -/
theorem crcRounds_shift (k : Nat) : ∀ h : Nat, crcRounds k (h * 2 ^ k) = h := by
  induction k with
  | zero => intro h; simp [crcRounds]
  | succ k ih =>
    intro h
    have e : h * 2 ^ (k + 1) = 2 * (h * 2 ^ k) := by rw [Nat.pow_succ]; ring
    have h1 : (2 * (h * 2 ^ k)) &&& 1 = 0 := by
      rw [Nat.and_one_is_mod]; omega
    have h2 : (2 * (h * 2 ^ k)) >>> 1 = h * 2 ^ k := by
      rw [Nat.shiftRight_eq_div_pow, Nat.pow_one]; omega
    rw [crcRounds, e, crcStep, h1, if_neg (by decide), h2, ih]

theorem split_low_byte (x : Nat) : (x &&& 0xFF) ^^^ ((x >>> 8) * 2 ^ 8) = x := by
  apply Nat.eq_of_testBit_eq
  intro i
  have e : (255 : Nat) = 2 ^ 8 - 1 := by decide
  rw [Nat.testBit_xor, e, Nat.and_pow_two_sub_one_eq_mod, Nat.testBit_mod_two_pow,
    ← Nat.shiftLeft_eq, Nat.testBit_shiftLeft, Nat.testBit_shiftRight]
  by_cases h : i < 8
  · have h2 : ¬ (i ≥ 8) := by omega
    simp [h, h2]
  · have h2 : i ≥ 8 := by omega
    have h3 : 8 + (i - 8) = i := by omega
    simp [h, h2, h3]

/-- The table step of `crc32` is 8 rounds of the bit-by-bit reference. -/
theorem table_step (x : Nat) :
    Detail.crcTable.getD (x &&& 0xFF) 0 ^^^ (x >>> 8) = crcRounds 8 x := by
  have hlt : x &&& 0xFF < 256 := Nat.lt_of_le_of_lt Nat.and_le_right (by decide)
  have h := crcRounds_xor 8 (x &&& 0xFF) ((x >>> 8) * 2 ^ 8)
  rw [split_low_byte, crcRounds_shift] at h
  rw [h, crcTable_eq_rounds _ hlt]

theorem shiftRight_xor_byte (crc : Nat) (b : u8) : (crc ^^^ b.val) >>> 8 = crc >>> 8 := by
  apply Nat.eq_of_testBit_eq
  intro i
  rw [Nat.testBit_shiftRight, Nat.testBit_shiftRight, Nat.testBit_xor]
  have hb : b.val < 2 ^ (8 + i) :=
    Nat.lt_of_lt_of_le b.isLt (Nat.pow_le_pow_right (show 0 < 2 by decide) (Nat.le_add_right 8 i))
  rw [Nat.testBit_lt_two_pow hb]
  simp

theorem crc32_loop_eq_ref : ∀ (data : List u8) (crc : Nat),
    Detail.crc32.loop data crc = crcRef.loop data crc := by
  intro data
  induction data with
  | nil => intro crc; rfl
  | cons b bs ih =>
    intro crc
    rw [Detail.crc32.loop, crcRef.loop, ← table_step, shiftRight_xor_byte, ih]

/-- C13: with seed 0, `crc32` equals the bit-by-bit reflected CRC-32 on every byte
sequence; each table entry is 8 rounds applied to its index; and the CRC-32 of
"123456789" is `0xCBF43926`. -/
theorem C13_crc32_is_reference :
    (∀ data : List u8, Detail.crc32 data 0 = crcRef data) ∧
    (∀ i, i < 256 → Detail.crcTable.getD i 0 = crcRounds 8 i) ∧
    Detail.crc32 checkString 0 = 0xCBF43926 := by
  refine ⟨?_, crcTable_eq_rounds, by decide⟩
  intro data
  unfold Detail.crc32 crcRef
  rw [crc32_loop_eq_ref]
  rfl

end CRC

section BPSSourceCopy

theorem rd_getD {buf : List u8} {i : Nat} (h : i < buf.length) :
    rd buf i = .ok (buf.getD i 0) := rd_eq_ok h

/-- With source and output ranges inside their buffers, the loop of SourceCopy
assigns the source bytes from the source cursor on to the output from the output
cursor on, and advances both cursors by the length. -/
theorem sourceCopy_eq (data : List u8) : ∀ (length : Nat) (st : BPSState),
    st.sourceOffset + length ≤ data.length → st.outputOffset + length ≤ st.output.length →
    patchBPS.sourceCopy data length st
      = .ok { st with
          output := writeAt st.output st.outputOffset
            ((data.drop st.sourceOffset).take length),
          sourceOffset := st.sourceOffset + length,
          outputOffset := st.outputOffset + length } := by
  intro length
  induction length with
  | zero => intro st _ _; rfl
  | succ n ih =>
    intro st hs ho
    rw [patchBPS.sourceCopy, rd_getD (by omega)]
    simp only [bind_ok]
    rw [wr_eq_ok _ (by omega)]
    simp only [bind_ok]
    rw [ih _ (by simp only; omega) (by simp only [List.length_set]; omega)]
    have hd : List.drop st.sourceOffset data
        = data.getD st.sourceOffset 0 :: List.drop (st.sourceOffset + 1) data := by
      have hlt : st.sourceOffset < data.length := by omega
      rw [List.drop_eq_getElem_cons hlt]
      congr 1
      simp [List.getD_eq_getElem?_getD, List.getElem?_eq_getElem hlt]
    rw [hd, List.take_succ_cons, writeAt]
    simp only [Nat.add_assoc, Nat.add_comm 1]

theorem getD_take_drop (data : List u8) (r n i : Nat) (hi : i < n) (_h : r + n ≤ data.length) :
    ((data.drop r).take n).getD i 0 = data.getD (r + i) 0 := by
  simp only [List.getD_eq_getElem?_getD]
  rw [List.getElem?_take_of_lt hi, List.getElem?_drop]

/-- The cursor update of the copy actions without wrap-around: a forward move
that stays below `2 ^ 64`, or a backward move that does not pass 0. -/
theorem adjust_eq (cursor word r : Nat) (hc : cursor < U64) (hr : r < U64)
    (h : (word &&& 1 = 0 ∧ r = cursor + (word >>> 1)) ∨
         (word &&& 1 = 1 ∧ word >>> 1 ≤ cursor ∧ r = cursor - (word >>> 1))) :
    BPS.adjust cursor word = r := by
  unfold BPS.adjust
  rcases h with ⟨h0, rfl⟩ | ⟨h1, hle, rfl⟩
  · rw [if_neg (by rw [h0]; exact fun h => h rfl)]
    exact Nat.mod_eq_of_lt hr
  · rw [if_pos (by rw [h1]; exact Nat.one_ne_zero)]
    have e : cursor + U64 - (word >>> 1) = (cursor - (word >>> 1)) + U64 := by omega
    rw [e, Nat.add_mod_right]
    exact Nat.mod_eq_of_lt hr

/-- C19: a SourceCopy action (low 2 bits of the action word equal to 2, run
length `L = (word >> 2) + 1`) moves the source cursor to `r` (forward by
`word2 >> 1` when `word2` is even, backward when it is odd); when the source range
`[r, r + L)` and the output range `[outputOffset, outputOffset + L)` lie inside
their buffers the step copies the source range to the output range, leaves every
other output byte and `outputOffset2` unchanged, and ends with
`sourceOffset = r + L` and `outputOffset` increased by `L`. -/
theorem C19_source_copy_step (fuel0 : Nat) (data patch : List u8) (outputSize : Nat)
    (st : BPSState) (word o1 word2 o2 r : Nat)
    (hw : BPS.readRunLength fuel0 patch st.patchOffset patch.length = .ok (word, o1))
    (hact : word &&& 3 = 2)
    (hw2 : BPS.readRunLength fuel0 patch o1 patch.length = .ok (word2, o2))
    (hso : st.sourceOffset < U64) (hdata : data.length < U64)
    (hr : (word2 &&& 1 = 0 ∧ r = st.sourceOffset + (word2 >>> 1)) ∨
          (word2 &&& 1 = 1 ∧ word2 >>> 1 ≤ st.sourceOffset ∧
            r = st.sourceOffset - (word2 >>> 1)))
    (hsrc : r + ((word >>> 2) + 1) ≤ data.length)
    (hout : st.outputOffset + ((word >>> 2) + 1) ≤ st.output.length) :
    ∃ st', patchBPS.step fuel0 data patch outputSize st = .ok st' ∧
      st'.sourceOffset = r + ((word >>> 2) + 1) ∧
      st'.outputOffset = st.outputOffset + ((word >>> 2) + 1) ∧
      st'.outputOffset2 = st.outputOffset2 ∧
      st'.patchOffset = o2 ∧
      st'.output.length = st.output.length ∧
      (∀ i, i < (word >>> 2) + 1 →
        st'.output.getD (st.outputOffset + i) 0 = data.getD (r + i) 0) ∧
      (∀ j, j < st.outputOffset ∨ st.outputOffset + ((word >>> 2) + 1) ≤ j →
        st'.output.getD j 0 = st.output.getD j 0) := by
  have hadj : BPS.adjust st.sourceOffset word2 = r :=
    adjust_eq st.sourceOffset word2 r hso (by omega) hr
  generalize hL : (word >>> 2) + 1 = L at *
  have hstep : patchBPS.step fuel0 data patch outputSize st
      = .ok { st with
          output := writeAt st.output st.outputOffset ((data.drop r).take L),
          patchOffset := o2,
          sourceOffset := r + L,
          outputOffset := st.outputOffset + L } := by
    unfold patchBPS.step
    rw [hw]
    simp only [bind_ok, hact, hL]
    rw [if_pos trivial, hw2]
    simp only [bind_ok, hadj]
    rw [if_neg (by decide), if_neg (by decide)]
    exact sourceCopy_eq data L ⟨st.output, o2, r, st.outputOffset, st.outputOffset2⟩ hsrc hout
  refine ⟨_, hstep, rfl, rfl, rfl, rfl, ?_, ?_, ?_⟩
  · exact writeAt_length _ _ _
  · intro i hi
    have hlen : ((data.drop r).take L).length = L := by
      rw [List.length_take, List.length_drop]; omega
    show (writeAt st.output st.outputOffset ((data.drop r).take L)).getD
      (st.outputOffset + i) 0 = _
    rw [getD_writeAt _ _ _ _ (by rw [hlen]; exact hout), hlen,
      if_pos ⟨Nat.le_add_right _ _, by omega⟩, Nat.add_sub_cancel_left,
      getD_take_drop data r L i hi hsrc]
  · intro j hj
    have hlen : ((data.drop r).take L).length = L := by
      rw [List.length_take, List.length_drop]; omega
    show (writeAt st.output st.outputOffset ((data.drop r).take L)).getD j 0 = _
    rw [getD_writeAt _ _ _ _ (by rw [hlen]; exact hout), hlen, if_neg (by omega)]

theorem C19_source_copy_step_witness :
    ∃ st', patchBPS.step 1 [10, 20, 30] [0x86, 0x82] 3 ⟨[0, 0, 0], 0, 0, 1, 0⟩ = .ok st' ∧
      st'.sourceOffset = 1 + ((6 >>> 2) + 1) ∧
      st'.outputOffset = 1 + ((6 >>> 2) + 1) ∧
      st'.outputOffset2 = 0 ∧
      st'.patchOffset = 2 ∧
      st'.output.length = 3 ∧
      (∀ i, i < (6 >>> 2) + 1 →
        st'.output.getD (1 + i) 0 = [(10 : u8), 20, 30].getD (1 + i) 0) ∧
      (∀ j, j < 1 ∨ 1 + ((6 >>> 2) + 1) ≤ j →
        st'.output.getD j 0 = [(0 : u8), 0, 0].getD j 0) :=
  C19_source_copy_step 1 [10, 20, 30] [0x86, 0x82] 3 ⟨[0, 0, 0], 0, 0, 1, 0⟩ 6 1 2 2 1
    rfl (by decide) rfl (by decide) (by decide) (Or.inl ⟨by decide, by decide⟩)
    (by decide) (by decide)

end BPSSourceCopy

section BPSTargetCopy

/-- The loop of TargetCopy keeps its invariant: each byte is read from the
output as it is at that moment, so bytes written earlier in the same action are
read back. -/
theorem targetCopy_inv (out0 : List u8) (w r po so : Nat) (hrw : r < w) :
    ∀ (n j : Nat) (st : BPSState), TargetCopyInv out0 w r po so j st →
    w + j + n ≤ out0.length →
    ∃ st', patchBPS.targetCopy n st = .ok st' ∧ TargetCopyInv out0 w r po so (j + n) st' := by
  intro n
  induction n with
  | zero => intro j st hinv _; exact ⟨st, rfl, hinv⟩
  | succ n ih =>
    intro j st hinv hfit
    obtain ⟨hoo, hoo2, hpo, hso, hlen, hrep, hframe⟩ := hinv
    rw [patchBPS.targetCopy, hoo, hoo2, rd_getD (by omega)]
    simp only [bind_ok]
    rw [wr_eq_ok _ (by omega)]
    simp only [bind_ok]
    have hval : st.output.getD (r + j) 0 = out0.getD (r + j % (w - r)) 0 := by
      by_cases h : r + j < w
      · rw [hframe (r + j) (Or.inl h), Nat.mod_eq_of_lt (by omega)]
      · have e1 : r + j = w + (j - (w - r)) := by omega
        have e2 : j % (w - r) = (j - (w - r)) % (w - r) := by
          have h3 := Nat.add_mod_right (j - (w - r)) (w - r)
          have e3 : j - (w - r) + (w - r) = j := by omega
          rw [e3] at h3
          exact h3
        rw [e1, hrep (j - (w - r)) (by omega), e2]
    have hinv1 : TargetCopyInv out0 w r po so (j + 1)
        { st with output := st.output.set (w + j) (st.output.getD (r + j) 0),
                  outputOffset := w + j + 1, outputOffset2 := r + j + 1 } := by
      refine ⟨rfl, rfl, hpo, hso, ?_, ?_, ?_⟩
      · show (st.output.set (w + j) (st.output.getD (r + j) 0)).length = out0.length
        rw [List.length_set]; exact hlen
      · intro i hi
        show (st.output.set (w + j) (st.output.getD (r + j) 0)).getD (w + i) 0 = _
        by_cases hij : i = j
        · subst hij
          rw [getD_set_eq _ _ _ (by omega)]
          exact hval
        · rw [getD_set_ne _ _ _ _ (by omega)]
          exact hrep i (by omega)
      · intro p hp
        show (st.output.set (w + j) (st.output.getD (r + j) 0)).getD p 0 = _
        rw [getD_set_ne _ _ _ _ (by omega)]
        exact hframe p (by omega)
    obtain ⟨st', h1, h2⟩ := ih (j + 1) _ hinv1 (by omega)
    refine ⟨st', h1, ?_⟩
    have e : j + (n + 1) = j + 1 + n := by omega
    rw [e]
    exact h2

/-- C20: a TargetCopy action of run length `L` with write position `w` and read
position `r < w` after the cursor update, whose output range lies inside the
output, sets `output[w + i]` to the former `output[r + (i mod (w - r))]` for every
`i < L` and ends with `outputOffset = w + L` and `outputOffset2 = r + L`; when
the two cursors were equal before the action and the relative offset is `-L`,
the `L` bytes written are the `L` bytes before them. -/
theorem C20_target_copy_step (fuel0 : Nat) (data patch : List u8) (outputSize : Nat)
    (st : BPSState) (word o1 word2 o2 r : Nat)
    (hw : BPS.readRunLength fuel0 patch st.patchOffset patch.length = .ok (word, o1))
    (hact : word &&& 3 = 3)
    (hw2 : BPS.readRunLength fuel0 patch o1 patch.length = .ok (word2, o2))
    (hoo2 : st.outputOffset2 < U64) (hlen : st.output.length < U64)
    (hr : (word2 &&& 1 = 0 ∧ r = st.outputOffset2 + (word2 >>> 1)) ∨
          (word2 &&& 1 = 1 ∧ word2 >>> 1 ≤ st.outputOffset2 ∧
            r = st.outputOffset2 - (word2 >>> 1)))
    (hrw : r < st.outputOffset)
    (hout : st.outputOffset + ((word >>> 2) + 1) ≤ st.output.length) :
    ∃ st', patchBPS.step fuel0 data patch outputSize st = .ok st' ∧
      st'.outputOffset = st.outputOffset + ((word >>> 2) + 1) ∧
      st'.outputOffset2 = r + ((word >>> 2) + 1) ∧
      st'.output.length = st.output.length ∧
      (∀ i, i < (word >>> 2) + 1 →
        st'.output.getD (st.outputOffset + i) 0
          = st.output.getD (r + i % (st.outputOffset - r)) 0) ∧
      (∀ p, p < st.outputOffset ∨ st.outputOffset + ((word >>> 2) + 1) ≤ p →
        st'.output.getD p 0 = st.output.getD p 0) ∧
      (st.outputOffset2 = st.outputOffset → word2 &&& 1 = 1 →
        word2 >>> 1 = (word >>> 2) + 1 →
        ∀ i, i < (word >>> 2) + 1 →
          st'.output.getD (st.outputOffset + i) 0
            = st.output.getD (st.outputOffset - ((word >>> 2) + 1) + i) 0) := by
  have hadj : BPS.adjust st.outputOffset2 word2 = r :=
    adjust_eq st.outputOffset2 word2 r hoo2 (by omega) hr
  generalize hL : (word >>> 2) + 1 = L at *
  have hinv0 : TargetCopyInv st.output st.outputOffset r o2 st.sourceOffset 0
      ⟨st.output, o2, st.sourceOffset, st.outputOffset, r⟩ :=
    ⟨rfl, rfl, rfl, rfl, rfl, fun i hi => absurd hi (Nat.not_lt_zero i), fun _ _ => rfl⟩
  obtain ⟨st', hrun, hinv⟩ := targetCopy_inv st.output st.outputOffset r o2 st.sourceOffset hrw
    L 0 _ hinv0 (by omega)
  rw [Nat.zero_add] at hinv
  obtain ⟨h1, h2, _, _, h5, h6, h7⟩ := hinv
  have hstep : patchBPS.step fuel0 data patch outputSize st = .ok st' := by
    unfold patchBPS.step
    rw [hw]
    simp only [bind_ok, hact, hL]
    rw [if_neg (by decide), if_neg (by decide), if_neg (by decide), hw2]
    simp only [bind_ok, hadj]
    exact hrun
  refine ⟨st', hstep, h1, h2, h5, h6, h7, ?_⟩
  intro heq hodd hmag i hi
  have hr2 : r = st.outputOffset - L := by
    rcases hr with ⟨h0, _⟩ | ⟨_, _, hr⟩
    · rw [h0] at hodd; cases hodd
    · rw [hr, heq, hmag]
  have hd : st.outputOffset - r = L := by omega
  rw [h6 i hi, hd, Nat.mod_eq_of_lt hi, hr2]

theorem C20_target_copy_step_witness :
    ∃ st', patchBPS.step 1 [] [0x87, 0x85] 5 ⟨[7, 8, 0, 0, 0], 0, 0, 2, 2⟩ = .ok st' ∧
      st'.outputOffset = 2 + ((7 >>> 2) + 1) ∧
      st'.outputOffset2 = 0 + ((7 >>> 2) + 1) ∧
      st'.output.length = 5 ∧
      (∀ i, i < (7 >>> 2) + 1 →
        st'.output.getD (2 + i) 0 = [(7 : u8), 8, 0, 0, 0].getD (0 + i % (2 - 0)) 0) ∧
      (∀ p, p < 2 ∨ 2 + ((7 >>> 2) + 1) ≤ p →
        st'.output.getD p 0 = [(7 : u8), 8, 0, 0, 0].getD p 0) ∧
      ((2 : Nat) = 2 → 5 &&& 1 = 1 → 5 >>> 1 = (7 >>> 2) + 1 →
        ∀ i, i < (7 >>> 2) + 1 →
          st'.output.getD (2 + i) 0 = [(7 : u8), 8, 0, 0, 0].getD (2 - ((7 >>> 2) + 1) + i) 0) :=
  C20_target_copy_step 1 [] [0x87, 0x85] 5 ⟨[7, 8, 0, 0, 0], 0, 0, 2, 2⟩ 7 1 5 2 0
    rfl (by decide) rfl (by decide) (by decide)
    (Or.inr ⟨by decide, by decide, by decide⟩) (by decide) (by decide)

end BPSTargetCopy

section UPSHunk

theorem upsInv_shape (n : Nat) (s : List u8) (mask : Nat → Nat) (st : UPSState)
    (h : UPSInv n s mask st) :
    ∃ out po k, st = ⟨out, po, k, k⟩ ∧ out.length = n := by
  obtain ⟨out, po, so, oo⟩ := st
  obtain ⟨h1, h2, _⟩ := h
  simp only at h1 h2
  subst h1
  exact ⟨out, po, so, rfl, h2⟩

end UPSHunk

section UPSHunk2

end UPSHunk2

section UPSHunk3

end UPSHunk3

section UPSHunk4

end UPSHunk4

section CRCChain

theorem crc32_loop_append : ∀ (a b : List u8) (crc : Nat),
    Detail.crc32.loop (a ++ b) crc = Detail.crc32.loop b (Detail.crc32.loop a crc) := by
  intro a
  induction a with
  | nil => intro b crc; rfl
  | cons x xs ih =>
    intro b crc
    rw [List.cons_append, Detail.crc32.loop, Detail.crc32.loop, ih]

theorem xor_xor_cancel (x m : Nat) : (x ^^^ m) ^^^ m = x := by
  rw [Nat.xor_assoc, Nat.xor_self, Nat.xor_zero]

set_option maxRecDepth 100000 in
theorem crcTable_lt : ∀ i, i < 256 → Detail.crcTable.getD i 0 < 4294967296 := by
  decide

set_option maxRecDepth 100000 in
theorem crcTable_length : Detail.crcTable.length = 256 := by
  decide

theorem crcTable_getD_lt (i : Nat) : Detail.crcTable.getD i 0 < 2 ^ 32 := by
  by_cases h : i < 256
  · exact crcTable_lt i h
  · have hl : Detail.crcTable.length ≤ i := by
      rw [crcTable_length]
      omega
    rw [List.getD_eq_getElem?_getD, List.getElem?_eq_none hl]
    decide

/-- The loop of `crc32` keeps the register within 32 bits. -/
theorem crc32_loop_lt : ∀ (data : List u8) (crc : Nat), crc < 2 ^ 32 →
    Detail.crc32.loop data crc < 2 ^ 32 := by
  intro data
  induction data with
  | nil => intro crc h; exact h
  | cons b bs ih =>
    intro crc h
    rw [Detail.crc32.loop]
    apply ih
    apply Nat.xor_lt_two_pow (crcTable_getD_lt _)
    rw [Nat.shiftRight_eq_div_pow]
    exact Nat.lt_of_le_of_lt (Nat.div_le_self _ _) h

/-- C23: `crc32` chains through its seed: for byte sequences `a`, `b` and a
32-bit seed `c`, the checksum of `a ++ b` with seed `c` is the checksum of `b`
with the checksum of `a` as seed (itself a 32-bit value); the checksum of the
empty sequence is the seed, so it is 0 with the default seed. -/
theorem C23_crc32_chains (a b : List u8) (c : Nat) (hc : c < 2 ^ 32) :
    Detail.crc32 (a ++ b) c = Detail.crc32 b (Detail.crc32 a c) ∧
    Detail.crc32 a c < 2 ^ 32 ∧
    Detail.crc32 [] c = c ∧
    Detail.crc32 [] = 0 := by
  have hm : Detail.maskU32 < 2 ^ 32 := by decide
  refine ⟨?_, ?_, ?_, rfl⟩
  · unfold Detail.crc32
    rw [crc32_loop_append, xor_xor_cancel]
  · unfold Detail.crc32
    exact Nat.xor_lt_two_pow (crc32_loop_lt a _ (Nat.xor_lt_two_pow hc hm)) hm
  · unfold Detail.crc32
    rw [Detail.crc32.loop, xor_xor_cancel]

theorem C23_crc32_chains_witness :
    Detail.crc32 ([0x31, 0x32, 0x33, 0x34] ++ [0x35, 0x36, 0x37, 0x38, 0x39]) 0
      = Detail.crc32 [0x35, 0x36, 0x37, 0x38, 0x39] (Detail.crc32 [0x31, 0x32, 0x33, 0x34] 0) ∧
    Detail.crc32 [0x31, 0x32, 0x33, 0x34] 0 < 2 ^ 32 ∧
    Detail.crc32 [] 0 = 0 ∧
    Detail.crc32 [] = 0 :=
  C23_crc32_chains [0x31, 0x32, 0x33, 0x34] [0x35, 0x36, 0x37, 0x38, 0x39] 0 (by decide)

end CRCChain

section VarintUnique

theorem varintFrom_cons (b : u8) (rest : List u8) : ∀ (m offset : Nat),
    varintFrom (b :: rest) (offset + 1) m = varintFrom rest offset m := by
  intro m
  induction m with
  | zero => intro offset; rfl
  | succ m ih =>
    intro offset
    rw [varintFrom, varintFrom, ih (offset + 1)]
    rfl

theorem varintFrom_eq_varintOf : ∀ (a : List u8), a ≠ [] →
    varintFrom a 0 (a.length - 1) = varintOf a := by
  intro a
  induction a with
  | nil => intro h; exact absurd rfl h
  | cons b t ih =>
    intro _
    cases t with
    | nil => rfl
    | cons c rest =>
      have h := ih (List.cons_ne_nil c rest)
      have e : (b :: c :: rest).length - 1 = ((c :: rest).length - 1) + 1 := by
        simp only [List.length_cons]; omega
      rw [e, varintFrom, varintFrom_cons, h]
      rfl

theorem terminated_bits : ∀ (a : List u8), Terminated a →
    (∀ i, i < a.length - 1 → (a.getD (0 + i) 0).val &&& 0x80 = 0) ∧
    (a.getD (0 + (a.length - 1)) 0).val &&& 0x80 ≠ 0 := by
  intro a
  induction a with
  | nil => intro h; exact absurd h id
  | cons b t ih =>
    intro h
    cases t with
    | nil =>
      refine ⟨fun i hi => ?_, h⟩
      simp only [List.length_cons, List.length_nil] at hi
      omega
    | cons c rest =>
      obtain ⟨hb, ht⟩ := h
      obtain ⟨h1, h2⟩ := ih ht
      constructor
      · intro i hi
        cases i with
        | zero => exact hb
        | succ i =>
          have := h1 i (by simp only [List.length_cons] at hi ⊢; omega)
          rw [Nat.zero_add] at this ⊢
          exact this
      · have e : 0 + ((b :: c :: rest).length - 1) = ((c :: rest).length - 1) + 1 := by
          simp only [List.length_cons]; omega
        rw [e]
        rw [Nat.zero_add] at h2
        exact h2

/-- On a terminated sequence the run-length reader returns its value modulo
`2 ^ 64` and the offset behind it. -/
theorem readRunLength_terminated (fuel : Nat) (a : List u8) (h : Terminated a)
    (hfuel : a.length ≤ fuel) :
    Detail.readRunLength fuel a 0 a.length = .ok (varintOf a % U64, a.length) := by
  have hne : a ≠ [] := by
    intro e; subst e; exact h
  have hpos : 0 < a.length := List.length_pos.mpr hne
  obtain ⟨h1, h2⟩ := terminated_bits a h
  have hl := readRunLength_loop_value a (a.length - 1) fuel 0 0 1 (by omega) h1 h2
  rw [varintFrom_eq_varintOf a hne, Nat.zero_add, Nat.one_mul] at hl
  have e : 0 + (a.length - 1) + 1 = a.length := by omega
  rw [e] at hl
  exact hl

theorem varintBase_one : varintBase 1 = 0 := by
  simp [varintBase]

theorem varintBase_succ_succ (n : Nat) :
    varintBase (n + 2) = 128 * (varintBase (n + 1) + 1) :=
  sum_pow_Ico n

theorem varintBase_succ (n : Nat) (h : 1 ≤ n) : varintBase (n + 1) = varintBase n + 128 ^ n := by
  unfold varintBase
  rw [Finset.sum_Ico_succ_top h]

theorem varintBase_mono {n m : Nat} (h : n ≤ m) : varintBase n ≤ varintBase m := by
  unfold varintBase
  apply Finset.sum_le_sum_of_subset
  intro i hi
  rw [Finset.mem_Ico] at hi ⊢
  omega

theorem and_7F_lt (x : Nat) : x &&& 0x7F < 128 :=
  Nat.lt_of_le_of_lt Nat.and_le_right (by decide)

/-- The value of a sequence of `n >= 1` bytes lies in `[S_n, S_n + 128 ^ n)`. -/
theorem varintOf_range : ∀ (a : List u8), a ≠ [] →
    varintBase a.length ≤ varintOf a ∧ varintOf a < varintBase a.length + 128 ^ a.length := by
  intro a
  induction a with
  | nil => intro h; exact absurd rfl h
  | cons b t ih =>
    intro _
    cases t with
    | nil =>
      have := and_7F_lt b.val
      simp only [List.length_cons, List.length_nil, Nat.zero_add, varintBase_one, varintOf,
        Nat.pow_one]
      omega
    | cons c rest =>
      obtain ⟨h1, h2⟩ := ih (List.cons_ne_nil c rest)
      have hc := and_7F_lt b.val
      have e : (b :: c :: rest).length = rest.length + 2 := rfl
      have e2 : (c :: rest).length = rest.length + 1 := rfl
      rw [e2] at h1 h2
      rw [e, varintBase_succ_succ, varintOf]
      have hp : 128 ^ (rest.length + 2) = 128 * 128 ^ (rest.length + 1) := by
        rw [Nat.pow_succ, Nat.mul_comm]
      rw [hp]
      constructor <;> nlinarith

end VarintUnique

section VarintRanges

set_option maxRecDepth 100000 in
theorem byte_clear : ∀ x : u8, x.val &&& 0x80 = 0 → x.val &&& 0x7F = x.val := by
  decide

set_option maxRecDepth 100000 in
theorem byte_set : ∀ x : u8, x.val &&& 0x80 ≠ 0 → x.val = (x.val &&& 0x7F) + 128 := by
  decide

set_option maxRecDepth 100000 in
theorem low_bits : ∀ v, v < 128 →
    v &&& 0x80 = 0 ∧ v &&& 0x7F = v ∧ (v + 128) &&& 0x80 ≠ 0 ∧ (v + 128) &&& 0x7F = v := by
  decide

/-- Two terminated sequences of one length with one value are equal. -/
theorem varintOf_inj_length : ∀ (a b : List u8), Terminated a → Terminated b →
    a.length = b.length → varintOf a = varintOf b → a = b := by
  intro a
  induction a with
  | nil => intro b h; exact absurd h id
  | cons x t ih =>
    intro b ha hb hl hv
    cases b with
    | nil => exact absurd hb id
    | cons y s =>
      cases t with
      | nil =>
        cases s with
        | nil =>
          have hx := byte_set x ha
          have hy := byte_set y hb
          have e : (x.val &&& 0x7F) = (y.val &&& 0x7F) := hv
          have : x = y := Fin.ext (by omega)
          rw [this]
        | cons d s => simp only [List.length_cons, List.length_nil] at hl; omega
      | cons c r =>
        cases s with
        | nil => simp only [List.length_cons, List.length_nil] at hl; omega
        | cons d s =>
          obtain ⟨hx0, hat⟩ := ha
          obtain ⟨hy0, hbt⟩ := hb
          have hx := byte_clear x hx0
          have hy := byte_clear y hy0
          have lx := and_7F_lt x.val
          have ly := and_7F_lt y.val
          have e : (x.val &&& 0x7F) + 128 * (varintOf (c :: r) + 1)
              = (y.val &&& 0x7F) + 128 * (varintOf (d :: s) + 1) := hv
          have hxy : x = y := Fin.ext (by omega)
          have ht : c :: r = d :: s :=
            ih (d :: s) hat hbt (by simp only [List.length_cons] at hl ⊢; omega) (by omega)
          rw [hxy, ht]

theorem terminated_ne_nil {a : List u8} (h : Terminated a) : a ≠ [] := by
  intro e; subst e; exact h

/-- Ranges of different lengths do not meet: `S_n + 128 ^ n <= S_m` for
`1 <= n < m`. -/
theorem varintBase_disjoint {n m : Nat} (hn : 1 ≤ n) (h : n < m) :
    varintBase n + 128 ^ n ≤ varintBase m := by
  rw [← varintBase_succ n hn]
  exact varintBase_mono h

/-- Two terminated sequences with one value are equal. -/
theorem varintOf_inj (a b : List u8) (ha : Terminated a) (hb : Terminated b)
    (hv : varintOf a = varintOf b) : a = b := by
  have hna := terminated_ne_nil ha
  have hnb := terminated_ne_nil hb
  have hpa : 0 < a.length := List.length_pos.mpr hna
  have hpb : 0 < b.length := List.length_pos.mpr hnb
  obtain ⟨a1, a2⟩ := varintOf_range a hna
  obtain ⟨b1, b2⟩ := varintOf_range b hnb
  have hl : a.length = b.length := by
    rcases Nat.lt_trichotomy a.length b.length with h | h | h
    · have := varintBase_disjoint hpa h
      omega
    · exact h
    · have := varintBase_disjoint hpb h
      omega
  exact varintOf_inj_length a b ha hb hl hv

theorem varintBase_ten : varintBase 10 < U64 := by
  simp only [varintBase, Finset.sum_Ico_eq_sum_range, Finset.sum_range_succ, Finset.sum_range_zero]
  norm_num [U64]

/-- Up to nine bytes the value stays below `2 ^ 64`. -/
theorem varintOf_lt_U64 (a : List u8) (hne : a ≠ []) (h9 : a.length ≤ 9) : varintOf a < U64 := by
  have hp : 0 < a.length := List.length_pos.mpr hne
  obtain ⟨_, h2⟩ := varintOf_range a hne
  have h3 : varintBase a.length + 128 ^ a.length ≤ varintBase 10 :=
    varintBase_disjoint hp (by omega)
  have := varintBase_ten
  omega

/-- Every value of `[S_n, S_n + 128 ^ n)` is the value of a terminated sequence
of `n` bytes. -/
theorem varintOf_onto : ∀ (m v : Nat), varintBase (m + 1) ≤ v →
    v < varintBase (m + 1) + 128 ^ (m + 1) →
    ∃ a : List u8, Terminated a ∧ a.length = m + 1 ∧ varintOf a = v := by
  intro m
  induction m with
  | zero =>
    intro v _ h2
    rw [Nat.zero_add, varintBase_one, Nat.pow_one, Nat.zero_add] at h2
    obtain ⟨_, _, h3, h4⟩ := low_bits v h2
    have hval : (Fin.ofNat (v + 128) : u8).val = v + 128 := by
      show (v + 128) % 256 = v + 128
      omega
    refine ⟨[Fin.ofNat (v + 128)], ?_, rfl, ?_⟩
    · show (Fin.ofNat (v + 128) : u8).val &&& 0x80 ≠ 0
      rw [hval]; exact h3
    · show (Fin.ofNat (v + 128) : u8).val &&& 0x7F = v
      rw [hval]; exact h4
  | succ m ih =>
    intro v h1 h2
    rw [varintBase_succ_succ] at h1 h2
    have hp : 128 ^ (m + 1 + 1) = 128 * 128 ^ (m + 1) := by
      rw [Nat.pow_succ, Nat.mul_comm]
    rw [hp] at h2
    generalize hB : varintBase (m + 1) = B at h1 h2 ih
    generalize hP : 128 ^ (m + 1) = P at h2 ih
    have hdm := Nat.div_add_mod (v - (128 * (B + 1))) 128
    have hmod : (v - (128 * (B + 1))) % 128 < 128 := Nat.mod_lt _ (by decide)
    have hq : (v - (128 * (B + 1))) / 128 < P := by
      apply Nat.div_lt_of_lt_mul
      omega
    obtain ⟨rest, hT, hlen, hval⟩ := ih (B + (v - (128 * (B + 1))) / 128) (by omega) (by omega)
    obtain ⟨h3, h4, _, _⟩ := low_bits _ hmod
    have hc : (Fin.ofNat ((v - (128 * (B + 1))) % 128) : u8).val = (v - (128 * (B + 1))) % 128 := by
      show ((v - (128 * (B + 1))) % 128) % 256 = (v - (128 * (B + 1))) % 128
      omega
    cases rest with
    | nil => simp only [List.length_nil] at hlen; omega
    | cons r0 rs =>
      refine ⟨Fin.ofNat ((v - (128 * (B + 1))) % 128) :: r0 :: rs, ⟨?_, hT⟩, ?_, ?_⟩
      · rw [hc]; exact h3
      · simp only [List.length_cons] at hlen ⊢; omega
      · show ((Fin.ofNat ((v - (128 * (B + 1))) % 128) : u8).val &&& 0x7F)
            + 128 * (varintOf (r0 :: rs) + 1) = v
        rw [hc, h4, hval]
        omega

end VarintRanges

section VarintNoRedundancy

/-- On a terminated sequence of at most 9 bytes the run-length reader returns
the value of the sequence itself. -/
theorem readRunLength_short (fuel : Nat) (a : List u8) (hfuel : 9 ≤ fuel) (h : Terminated a)
    (h9 : a.length ≤ 9) :
    Detail.readRunLength fuel a 0 a.length = .ok (varintOf a, a.length) := by
  rw [readRunLength_terminated fuel a h (by omega),
    Nat.mod_eq_of_lt (varintOf_lt_U64 a (terminated_ne_nil h) h9)]

/-- C22: the run-length encoding has no redundant encodings. With fuel for 9
bytes, `readRunLength` decodes every terminated sequence of `n <= 9` bytes (high
bit clear in all bytes but the last, set in the last) to a value of
`[S_n, S_n + 128 ^ n)`, where `S_n` is the sum of `128 ^ i` for `1 <= i < n`; two
such sequences decoded to one value are equal; every value of
`[S_n, S_n + 128 ^ n)` is decoded from a terminated sequence of `n` bytes; the
intervals of different lengths do not meet, and the last one ends below
`2 ^ 64`. -/
theorem C22_varint_no_redundant_encodings (fuel : Nat) (hfuel : 9 ≤ fuel) :
    (∀ a : List u8, Terminated a → a.length ≤ 9 →
      ∃ v, Detail.readRunLength fuel a 0 a.length = .ok (v, a.length) ∧
        varintBase a.length ≤ v ∧ v < varintBase a.length + 128 ^ a.length) ∧
    (∀ (a b : List u8) (v : Nat), Terminated a → Terminated b → a.length ≤ 9 → b.length ≤ 9 →
      Detail.readRunLength fuel a 0 a.length = .ok (v, a.length) →
      Detail.readRunLength fuel b 0 b.length = .ok (v, b.length) → a = b) ∧
    (∀ n v : Nat, 1 ≤ n → n ≤ 9 → varintBase n ≤ v → v < varintBase n + 128 ^ n →
      ∃ a : List u8, Terminated a ∧ a.length = n ∧
        Detail.readRunLength fuel a 0 a.length = .ok (v, n)) ∧
    (∀ n m : Nat, 1 ≤ n → n < m → varintBase n + 128 ^ n ≤ varintBase m) ∧
    varintBase 9 + 128 ^ 9 < U64 := by
  refine ⟨?_, ?_, ?_, ?_, ?_⟩
  · intro a ha h9
    obtain ⟨h1, h2⟩ := varintOf_range a (terminated_ne_nil ha)
    exact ⟨varintOf a, readRunLength_short fuel a hfuel ha h9, h1, h2⟩
  · intro a b v ha hb ha9 hb9 ra rb
    rw [readRunLength_short fuel a hfuel ha ha9] at ra
    rw [readRunLength_short fuel b hfuel hb hb9] at rb
    have ea : varintOf a = v := congrArg Prod.fst (Except.ok.inj ra)
    have eb : varintOf b = v := congrArg Prod.fst (Except.ok.inj rb)
    exact varintOf_inj a b ha hb (ea.trans eb.symm)
  · intro n v hn hn9 h1 h2
    obtain ⟨m, rfl⟩ : ∃ m, n = m + 1 := ⟨n - 1, by omega⟩
    obtain ⟨a, hT, hlen, hval⟩ := varintOf_onto m v h1 h2
    refine ⟨a, hT, hlen, ?_⟩
    rw [readRunLength_short fuel a hfuel hT (by omega), hval, hlen]
  · intro n m hn hnm
    exact varintBase_disjoint hn hnm
  · have h := varintBase_disjoint (show 1 ≤ 9 by decide) (show 9 < 10 by decide)
    have := varintBase_ten
    omega

theorem C22_varint_no_redundant_encodings_witness :
    (∃ v, Detail.readRunLength 9 [0x7F, 0x80] 0 2 = .ok (v, 2) ∧
      varintBase 2 ≤ v ∧ v < varintBase 2 + 128 ^ 2) ∧
    ∃ a : List u8, Terminated a ∧ a.length = 2 ∧
      Detail.readRunLength 9 a 0 a.length = .ok (128, 2) :=
  ⟨(C22_varint_no_redundant_encodings 9 (by decide)).1 [0x7F, 0x80] (by decide) (by decide),
    (C22_varint_no_redundant_encodings 9 (by decide)).2.2.1 2 128 (by decide) (by decide)
      (by simp [varintBase]) (by simp [varintBase])⟩

end VarintNoRedundancy

section IPSLockStep

/-- The log of `IPS.getSize.traced` left out, it is `IPS.getSize.loop`. -/
theorem getSize_traced_erase (patch : List u8) (patchSize : Nat) :
    ∀ (fuel outputSize patchOffset : Nat),
    IPS.getSize.loop patch patchSize fuel outputSize patchOffset
      = (IPS.getSize.traced patch patchSize fuel outputSize patchOffset).map
          (fun t => (t.1, t.2.1)) := by
  intro fuel
  induction fuel with
  | zero => intro _ _; rfl
  | succ fuel ih =>
    intro outputSize patchOffset
    rw [IPS.getSize.loop, IPS.getSize.traced]
    split
    · cases IPS.read 3 patch patchOffset patchSize with
      | error e => rfl
      | ok p =>
        obtain ⟨fileOffset, o1⟩ := p
        simp only [bind_ok]
        split
        · rfl
        · cases IPS.read 2 patch o1 patchSize with
          | error e => rfl
          | ok p =>
            obtain ⟨size, o2⟩ := p
            simp only [bind_ok]
            split
            · cases IPS.read 2 patch o2 patchSize with
              | error e => rfl
              | ok p =>
                obtain ⟨rleSize, o3⟩ := p
                simp only [bind_ok]
                rw [ih]
                cases IPS.getSize.traced patch patchSize fuel
                  (max outputSize (fileOffset + rleSize)) (o3 + 1) with
                | error e => rfl
                | ok t => rfl
            · rw [ih]
              cases IPS.getSize.traced patch patchSize fuel
                (max outputSize (fileOffset + size)) (o2 + size) with
              | error e => rfl
              | ok t => rfl
    · rfl

/-- The patch offset and the log of `patchIPS.traced` left out, it is
`patchIPS.loop`. -/
theorem patchIPS_traced_erase (patch : List u8) (patchSize : Nat) :
    ∀ (fuel : Nat) (output : List u8) (offset : Nat),
    patchIPS.loop patch patchSize fuel output offset
      = (patchIPS.traced patch patchSize fuel output offset).map (fun t => t.1) := by
  intro fuel
  induction fuel with
  | zero => intro _ _; rfl
  | succ fuel ih =>
    intro output offset
    rw [patchIPS.loop, patchIPS.traced]
    split
    · cases IPS.read 3 patch offset patchSize with
      | error e => rfl
      | ok p =>
        obtain ⟨fileOffset, o1⟩ := p
        simp only [bind_ok]
        split
        · rfl
        · cases IPS.read 2 patch o1 patchSize with
          | error e => rfl
          | ok p =>
            obtain ⟨size, o2⟩ := p
            simp only [bind_ok]
            split
            · cases IPS.read 2 patch o2 patchSize with
              | error e => rfl
              | ok p =>
                obtain ⟨rleSize, o3⟩ := p
                simp only [bind_ok]
                cases IPS.read 1 patch o3 patchSize with
                | error e => rfl
                | ok p =>
                  obtain ⟨value, o4⟩ := p
                  simp only [bind_ok]
                  cases patchIPS.rleLoop fileOffset (Fin.ofNat value) rleSize 0 output with
                  | error e => rfl
                  | ok out1 =>
                    simp only [bind_ok]
                    rw [ih]
                    cases patchIPS.traced patch patchSize fuel out1 o4 with
                    | error e => rfl
                    | ok t => rfl
            · cases patchIPS.copyLoop patch patchSize fileOffset size 0 output o2 with
              | error e => rfl
              | ok p =>
                obtain ⟨out1, o3⟩ := p
                simp only [bind_ok]
                rw [ih]
                cases patchIPS.traced patch patchSize fuel out1 o3 with
                | error e => rfl
                | ok t => rfl
    · rfl

end IPSLockStep

section IPSPasses

/-- A one-byte read of `IPS::read` with the true patch size returns the byte at
the offset, or 0 past the end, and advances the offset by one. -/
theorem IPS_read_one (patch : List u8) (offset : Nat) :
    IPS.read 1 patch offset patch.length = .ok ((patch.getD offset 0).val, offset + 1) := by
  unfold IPS.read
  by_cases h : offset + 1 ≤ patch.length
  · rw [readBE_eq 1 patch offset h]
    simp [beVal]
  · rw [readBE_overrun 1 patch offset (by omega),
      List.getD_eq_default patch 0 (by omega)]
    rfl

theorem IPS_read_total (size : Nat) (patch : List u8) (offset : Nat) :
    ∃ v, IPS.read size patch offset patch.length = .ok (v, offset + size) :=
  readBE_total size patch offset

theorem patchBytes_length (patch : List u8) : ∀ (n offset : Nat),
    (patchBytes patch offset n).length = n := by
  intro n
  induction n with
  | zero => intro _; rfl
  | succ n ih => intro offset; simp only [patchBytes, List.length_cons, ih]

/-- Within the output, the literal loop assigns all `n` bytes it reads from the
patch (0 past its end) and advances the patch offset by `n`. -/
theorem copyLoop_bytes (patch : List u8) (fileOffset : Nat) :
    ∀ (n i : Nat) (output : List u8) (offset : Nat),
    fileOffset + i + n ≤ output.length →
    patchIPS.copyLoop patch patch.length fileOffset n i output offset
      = .ok (writeAt output (fileOffset + i) (patchBytes patch offset n), offset + n) := by
  intro n
  induction n with
  | zero => intro i output offset _; rfl
  | succ n ih =>
    intro i output offset h
    rw [patchIPS.copyLoop]
    have hg : ¬ (fileOffset + i ≥ output.length) := by omega
    rw [if_neg hg, IPS_read_one]
    simp only [bind_ok]
    rw [ofNat_val, wr_eq_ok _ (by omega)]
    simp only [bind_ok]
    have hl : fileOffset + (i + 1) + n ≤ (output.set (fileOffset + i) (patch.getD offset 0)).length := by
      rw [List.length_set]; omega
    rw [ih (i + 1) _ (offset + 1) hl]
    have e1 : fileOffset + (i + 1) = fileOffset + i + 1 := by omega
    have e2 : offset + 1 + n = offset + (n + 1) := by omega
    rw [e1, e2]
    rfl

/-- The two passes in lock-step: from one patch offset, with fuel for the rest of
the patch, the loop of `getSize` returns a size that is at least the end of every
record it reads, and on every output of at least this size the record loop of
`patchIPS` reads the same record headers at the same patch offsets, leaves the
loop at the same patch offset and applies every record in full. -/
theorem passes_lock_step (patch : List u8) : ∀ (fuel acc offset : Nat),
    patch.length - offset < fuel →
    ∃ (s e : Nat) (log : List IPSRead),
      IPS.getSize.traced patch patch.length fuel acc offset = .ok (s, e, log) ∧ acc ≤ s ∧
      (∀ r ∈ log, r.fileOffset + r.length ≤ s) ∧
      ∀ output : List u8, s ≤ output.length →
        patchIPS.traced patch patch.length fuel output offset
          = .ok ((log.map (IPSRead.record patch)).foldl applyRecord output, e, log) := by
  intro fuel
  induction fuel with
  | zero => intro acc offset h; omega
  | succ fuel ih =>
    intro acc offset hf
    by_cases hlt : offset < patch.length
    · obtain ⟨fo, h3⟩ := IPS_read_total 3 patch offset
      by_cases heof : fo = IPS.endOfFile
      · refine ⟨acc, offset + 3, [], ?_, Nat.le_refl _, ?_, ?_⟩
        · rw [IPS.getSize.traced, if_pos hlt, h3]
          simp only [bind_ok]
          rw [if_pos heof]
        · intro r hr
          cases hr
        · intro output _
          rw [patchIPS.traced, if_pos hlt, h3]
          simp only [bind_ok]
          rw [if_pos heof]
          rfl
      · obtain ⟨size, h2⟩ := IPS_read_total 2 patch (offset + 3)
        by_cases hz : size = 0
        · obtain ⟨rleSize, h2b⟩ := IPS_read_total 2 patch (offset + 3 + 2)
          have h1 := IPS_read_one patch (offset + 3 + 2 + 2)
          obtain ⟨s, e, log, hg, hacc, hall, hp⟩ :=
            ih (max acc (fo + rleSize)) (offset + 3 + 2 + 2 + 1) (by omega)
          have hs : fo + rleSize ≤ s := Nat.le_trans (Nat.le_max_right _ _) hacc
          refine ⟨s, e, ⟨offset, fo, rleSize, true⟩ :: log, ?_,
            Nat.le_trans (Nat.le_max_left _ _) hacc, ?_, ?_⟩
          · rw [IPS.getSize.traced, if_pos hlt, h3]
            simp only [bind_ok]
            rw [if_neg heof, h2]
            simp only [bind_ok]
            rw [if_pos hz, h2b]
            simp only [bind_ok]
            rw [hg]
            rfl
          · intro r hr
            rcases List.mem_cons.mp hr with h | h
            · rw [h]; exact hs
            · exact hall r h
          · intro output hout
            rw [patchIPS.traced, if_pos hlt, h3]
            simp only [bind_ok]
            rw [if_neg heof, h2]
            simp only [bind_ok]
            rw [if_pos hz, h2b]
            simp only [bind_ok]
            rw [h1]
            simp only [bind_ok]
            rw [ofNat_val, rleLoop_eq fo _ rleSize 0 output (by omega)]
            simp only [bind_ok]
            rw [hp _ (by rw [writeAt_length]; exact hout)]
            have e7 : offset + 3 + 2 + 2 = offset + 7 := by omega
            rw [e7]
            rfl
        · obtain ⟨s, e, log, hg, hacc, hall, hp⟩ :=
            ih (max acc (fo + size)) (offset + 3 + 2 + size) (by omega)
          have hs : fo + size ≤ s := Nat.le_trans (Nat.le_max_right _ _) hacc
          refine ⟨s, e, ⟨offset, fo, size, false⟩ :: log, ?_,
            Nat.le_trans (Nat.le_max_left _ _) hacc, ?_, ?_⟩
          · rw [IPS.getSize.traced, if_pos hlt, h3]
            simp only [bind_ok]
            rw [if_neg heof, h2]
            simp only [bind_ok]
            rw [if_neg hz, hg]
            rfl
          · intro r hr
            rcases List.mem_cons.mp hr with h | h
            · rw [h]; exact hs
            · exact hall r h
          · intro output hout
            rw [patchIPS.traced, if_pos hlt, h3]
            simp only [bind_ok]
            rw [if_neg heof, h2]
            simp only [bind_ok]
            rw [if_neg hz, copyLoop_bytes patch fo size 0 output (offset + 3 + 2) (by omega)]
            simp only [bind_ok]
            rw [hp _ (by rw [writeAt_length]; exact hout)]
            have e5 : offset + 3 + 2 = offset + 5 := by omega
            rw [e5]
            rfl
    · refine ⟨acc, offset, [], ?_, Nat.le_refl _, ?_, ?_⟩
      · rw [IPS.getSize.traced, if_neg hlt]
      · intro r hr
        cases hr
      · intro output _
        rw [patchIPS.traced, if_neg hlt]
        rfl

end IPSPasses

section IPSLockStepClaim

/-- On a patch of at least 8 bytes that starts with "PATCH", `patchIPS` is the
size pass followed by the record loop on the initial output. -/
theorem patchIPS_good_magic (fuel : Nat) (data patch : List u8)
    (hlen : 8 ≤ patch.length) (hmagic : patch.take 5 = magicIPS) :
    patchIPS fuel data patch
      = (do
          let size ← IPS.getSize fuel patch patch.length
          let output ← patchIPS.loop patch patch.length fuel (initialOutput data size)
            IPS.headerSize
          .ok (output, .Success)) := by
  have hp : patch = magicIPS ++ patch.drop 5 := by
    rw [← hmagic, List.take_append_drop]
  have h0 : rd patch 0 = .ok 0x50 := by rw [hp]; simp [rd, magicIPS]
  have h1 : rd patch 1 = .ok 0x41 := by rw [hp]; simp [rd, magicIPS]
  have h2 : rd patch 2 = .ok 0x54 := by rw [hp]; simp [rd, magicIPS]
  have h3 : rd patch 3 = .ok 0x43 := by rw [hp]; simp [rd, magicIPS]
  have h4 : rd patch 4 = .ok 0x48 := by rw [hp]; simp [rd, magicIPS]
  unfold patchIPS
  have hl : ¬ (patch.length < IPS.minimumPatchSize) := by
    simp only [IPS.minimumPatchSize, IPS.headerSize]
    omega
  simp only [hl, if_false]
  rw [h0, h1, h2, h3, h4]
  simp only [bind_ok, ne_eq, not_true_eq_false, or_self, if_false]
  cases hg : IPS.getSize fuel patch patch.length with
  | error e => rfl
  | ok size =>
    simp only [bind_ok]
    rw [newVector_ok (getSize_le_maxSize fuel patch size hg)]
    simp only [bind_ok, List.length_replicate]
    rfl

/-- C21: the size pass and the apply pass of the IPS decoder stay in lock-step.
For every patch of at least 8 bytes that starts with "PATCH", complete or
truncated, with fuel for the length of the patch: the loop of `getSize` and the
record loop of `patchIPS` (on the output of the size that `getSize` returns)
read the same record headers at the same patch offsets and leave their loops at
the same patch offset; both functions return; every record read has
offset + length at most the size returned by `getSize`, so that the guard
`fileOffset + i >= output.size()` is false for every `i` below the record
length; and the output is the initial output with every record applied in
full. -/
theorem C21_ips_passes_in_lock_step (fuel : Nat) (data patch : List u8)
    (hlen : 8 ≤ patch.length) (hmagic : patch.take 5 = magicIPS)
    (hfuel : patch.length ≤ fuel) :
    ∃ (size sz e : Nat) (log : List IPSRead) (out : List u8),
      IPS.getSize.traced patch patch.length fuel 0 IPS.headerSize = .ok (sz, e, log) ∧
      IPS.getSize fuel patch patch.length = .ok size ∧
      patchIPS.traced patch patch.length fuel (initialOutput data size) IPS.headerSize
        = .ok (out, e, log) ∧
      patchIPS fuel data patch = .ok (out, .Success) ∧
      out.length = size ∧
      (∀ r ∈ log, r.fileOffset + r.length ≤ size ∧
        ∀ i, i < r.length → ¬ (r.fileOffset + i ≥ out.length)) ∧
      out = (log.map (IPSRead.record patch)).foldl applyRecord (initialOutput data size) := by
  obtain ⟨sz, e, log, hg, _, hall, hp⟩ :=
    passes_lock_step patch fuel 0 IPS.headerSize
      (by simp only [IPS.headerSize]; omega)
  have hsize : ∃ size, IPS.getSize fuel patch patch.length = .ok size ∧ sz ≤ size := by
    unfold IPS.getSize
    rw [getSize_traced_erase, hg]
    simp only [Except.map, bind_ok]
    by_cases hfoot : e + 3 = patch.length
    · obtain ⟨v, hv⟩ := IPS_read_total 3 patch e
      rw [if_pos hfoot, hv]
      exact ⟨max sz v, rfl, Nat.le_max_left _ _⟩
    · rw [if_neg hfoot]
      exact ⟨sz, rfl, Nat.le_refl _⟩
  obtain ⟨size, hgs, hle⟩ := hsize
  have hinit : (initialOutput data size).length = size := initialOutput_length data size
  have htr := hp (initialOutput data size) (by rw [hinit]; exact hle)
  have hout : ((log.map (IPSRead.record patch)).foldl applyRecord
      (initialOutput data size)).length = size := by
    rw [foldl_applyRecord_length, hinit]
  refine ⟨size, sz, e, log, _, hg, hgs, htr, ?_, hout, ?_, rfl⟩
  · rw [patchIPS_good_magic fuel data patch hlen hmagic, hgs]
    simp only [bind_ok]
    rw [patchIPS_traced_erase, htr]
    rfl
  · intro r hr
    have h := hall r hr
    refine ⟨Nat.le_trans h hle, ?_⟩
    intro i hi
    rw [hout]
    omega

theorem C21_ips_passes_in_lock_step_witness :
    ∃ (size sz e : Nat) (log : List IPSRead) (out : List u8),
      IPS.getSize.traced truncatedIPS truncatedIPS.length 11 0 IPS.headerSize
        = .ok (sz, e, log) ∧
      IPS.getSize 11 truncatedIPS truncatedIPS.length = .ok size ∧
      patchIPS.traced truncatedIPS truncatedIPS.length 11 (initialOutput [1, 2, 3] size)
          IPS.headerSize
        = .ok (out, e, log) ∧
      patchIPS 11 [1, 2, 3] truncatedIPS = .ok (out, .Success) ∧
      out.length = size ∧
      (∀ r ∈ log, r.fileOffset + r.length ≤ size ∧
        ∀ i, i < r.length → ¬ (r.fileOffset + i ≥ out.length)) ∧
      out = (log.map (IPSRead.record truncatedIPS)).foldl applyRecord
        (initialOutput [1, 2, 3] size) :=
  C21_ips_passes_in_lock_step 11 [1, 2, 3] truncatedIPS (by decide) (by decide) (by decide)

/-- On the truncated patch both passes read one literal record at patch offset
5, for offset 2 with length 3, and leave their loops at patch offset 13; the
output has 5 bytes, the two missing data bytes written as 0. -/
theorem truncatedIPS_run :
    IPS.getSize.traced truncatedIPS 11 11 0 5 = .ok (5, 13, [⟨5, 2, 3, false⟩]) ∧
    patchIPS.traced truncatedIPS 11 11 (initialOutput [1, 2, 3] 5) 5
      = .ok ([1, 2, 0xAA, 0, 0], 13, [⟨5, 2, 3, false⟩]) ∧
    patchIPS 11 [1, 2, 3] truncatedIPS = .ok ([1, 2, 0xAA, 0, 0], .Success) := by
  decide

end IPSLockStepClaim

end Hips
